import Mathlib

/-!
Verification of the Huffman encode/decode library (huffman.c / chuffman.c,
M. Dipperstein).  The development shallowly embeds the data model and the
algorithms of the source:

* `HTree` is the tagged-variant view of `huffman_node_t` (spec section 9
  endorses a discriminant instead of the `value == COMPOSITE_NODE` sentinel);
  every node stores its `count` and `level` field exactly as the source
  computes them (`AllocHuffmanCompositeNode`).
* `findMinimumCount` / `buildHuffmanTree` translate `FindMinimumCount` and
  `BuildHuffmanTree` (huffman.c) over an array of optional slots
  (`NULL` entries become `none`).
* Nat arithmetic notes: `count_t` is `unsigned int`; additions are taken
  `% 2^32`.  In `FindMinimumCount` the running minimum `currentCount` is a C
  `int` initialised to `INT_MAX` and compared against an `unsigned int`
  count, so the comparison happens after the usual arithmetic conversion of
  `currentCount` to `unsigned`.  Because `currentCount` starts at `INT_MAX`
  and is only ever overwritten by a count that passed
  `count < currentCount || count == currentCount`, its value always stays in
  `[0, INT_MAX]`, where int-to-unsigned conversion is the identity; hence
  plain `Nat` comparisons below are an exact translation for every input.
-/

namespace Huff

/-- C constant NUM_CHARS = 257 (256 bytes + EOF). -/
def NUM_CHARS : Nat := 257

/-- C constant EOF_CHAR = NUM_CHARS - 1 = 256. -/
def EOF_CHAR : Nat := 256

/-- C constant COUNT_T_MAX = UINT_MAX = 2^32 - 1. -/
def COUNT_T_MAX : Nat := 2 ^ 32 - 1

/-- C constant INT_MAX = 2^31 - 1 (initial value of the running minimum in
FindMinimumCount). -/
def INT_MAX : Nat := 2 ^ 31 - 1

/-- Modulus of the C type count_t (unsigned int). -/
def UINT_MOD : Nat := 2 ^ 32

/-- Shallow embedding of `huffman_node_t`: a leaf carries the character value
and its occurrence count (its `level` field is 0, as set by
`AllocHuffmanNode` and never changed for leaves); a composite node stores the
`count` and `level` fields computed by `AllocHuffmanCompositeNode` together
with its two children. -/
inductive HTree where
  | leaf (value : Nat) (count : Nat)
  | comp (count : Nat) (level : Nat) (l : HTree) (r : HTree)
deriving DecidableEq

/-- The `count` field of a node. -/
def HTree.count : HTree → Nat
  | .leaf _ c => c
  | .comp c _ _ _ => c

/-- The `level` field of a node (0 for leaves). -/
def HTree.level : HTree → Nat
  | .leaf _ _ => 0
  | .comp _ lv _ _ => lv

/-- `AllocHuffmanCompositeNode`: `count = left->count + right->count`
(unsigned 32-bit addition) and `level = max(left->level, right->level) + 1`. -/
def allocHuffmanCompositeNode (l r : HTree) : HTree :=
  .comp ((l.count + r.count) % UINT_MOD) (max l.level r.level + 1) l r

/-- An array slot of `huffmanArray`: the node together with its `ignore`
flag. -/
structure Slot where
  t : HTree
  ignore : Bool
deriving DecidableEq

/-- Strict lexicographic order on (count, level) pairs: exactly the update
condition `count < currentCount || (count == currentCount && level <
currentLevel)` of FindMinimumCount. -/
def lexLt (a b : Nat × Nat) : Prop :=
  a.1 < b.1 ∨ (a.1 = b.1 ∧ a.2 < b.2)

instance (a b : Nat × Nat) : Decidable (lexLt a b) := by
  unfold lexLt; infer_instance

/-- The (count, level) key of a slot. -/
def skey (s : Slot) : Nat × Nat := (s.t.count, s.t.level)

/-- The scanning loop of `FindMinimumCount`: `i` is the index of the head of
the remaining list, `best`/`cc`/`cl` are `currentIndex`, `currentCount` and
`currentLevel`.  A `NULL` array entry is `none`. -/
def findMinAux : List (Option Slot) → Nat → Option Nat → Nat → Nat → Option Nat
  | [], _, best, _, _ => best
  | none :: rest, i, best, cc, cl => findMinAux rest (i + 1) best cc cl
  | some s :: rest, i, best, cc, cl =>
    if s.ignore = false ∧ lexLt (skey s) (cc, cl) then
      findMinAux rest (i + 1) (some i) s.t.count s.t.level
    else
      findMinAux rest (i + 1) best cc cl

/-- `FindMinimumCount` (huffman.c): index of the active element with the
smallest count, ties broken by smaller level, then by lowest index; the C
sentinel `NONE` (-1) is modelled by `none`. -/
def findMinimumCount (ht : List (Option Slot)) : Option Nat :=
  findMinAux ht 0 none INT_MAX INT_MAX

/-- Mark slot `i` ignored (`ht[min1]->ignore = TRUE`). -/
def markIgnored (ht : List (Option Slot)) (i : Nat) : List (Option Slot) :=
  match ht.get? i with
  | some (some s) => ht.set i (some (Slot.mk s.t true))
  | _ => ht

/-- Number of non-NULL slots; the decreasing measure of the build loop. -/
def numSome (ht : List (Option Slot)) : Nat :=
  ht.countP (fun o => o.isSome)

theorem lexLt_irrefl (a : Nat × Nat) : ¬ lexLt a a := by
  simp [lexLt]

theorem lexLt_trans {a b c : Nat × Nat} (h1 : lexLt a b) (h2 : lexLt b c) :
    lexLt a c := by
  rcases h1 with h1 | ⟨h1, h1'⟩ <;> rcases h2 with h2 | ⟨h2, h2'⟩ <;>
    simp [lexLt] <;> omega

theorem lexLt_total (a b : Nat × Nat) : lexLt a b ∨ a = b ∨ lexLt b a := by
  rcases a with ⟨a1, a2⟩; rcases b with ⟨b1, b2⟩
  simp [lexLt, Prod.ext_iff]; omega

theorem lexLt_asymm {a b : Nat × Nat} (h : lexLt a b) : ¬ lexLt b a := by
  intro h'
  exact lexLt_irrefl a (lexLt_trans h h')

/-- Elementary fact about `List.get?` after `List.set` at the same index. -/
theorem getq_set_self {α : Type} (l : List α) (i : Nat) (a : α)
    (h : i < l.length) : (l.set i a).get? i = some a := by
  induction l generalizing i with
  | nil => simp at h
  | cons x xs ih =>
    cases i with
    | zero => rfl
    | succ n =>
      simp only [List.set, List.get?]
      exact ih n (by simpa using h)

/-- Elementary fact about `List.get?` after `List.set` at another index. -/
theorem getq_set_ne {α : Type} (l : List α) (i j : Nat) (a : α)
    (h : j ≠ i) : (l.set i a).get? j = l.get? j := by
  induction l generalizing i j with
  | nil => simp
  | cons x xs ih =>
    cases i with
    | zero =>
      cases j with
      | zero => exact absurd rfl h
      | succ m => rfl
    | succ n =>
      cases j with
      | zero => rfl
      | succ m =>
        simp only [List.set, List.get?]
        exact ih n m (fun hh => h (by omega))

/-- Full characterisation of the scanning loop of FindMinimumCount.  Either no
element updates the state (and every active scanned slot fails the strict
test against the incoming state), or the loop returns the index of the first
active slot achieving the lexicographically least (count, level) key among
those beating the incoming state. -/
theorem findMinAux_spec (l : List (Option Slot)) : ∀ (i : Nat)
    (best : Option Nat) (cc cl : Nat),
    (findMinAux l i best cc cl = best ∧
      ∀ k s, l.get? k = some (some s) → s.ignore = false →
        ¬ lexLt (skey s) (cc, cl))
    ∨ (∃ k s, l.get? k = some (some s) ∧ s.ignore = false ∧
        findMinAux l i best cc cl = some (i + k) ∧
        lexLt (skey s) (cc, cl) ∧
        (∀ k' s', l.get? k' = some (some s') → s'.ignore = false →
          ¬ lexLt (skey s') (skey s)) ∧
        (∀ k' s', k' < k → l.get? k' = some (some s') → s'.ignore = false →
          lexLt (skey s) (skey s'))) := by
  induction l with
  | nil =>
    intro i best cc cl
    left
    exact ⟨rfl, by intro k s h; simp at h⟩
  | cons o rest ih =>
    intro i best cc cl
    match o with
    | none =>
      rcases ih (i + 1) best cc cl with ⟨heq, hall⟩ | ⟨k, s, hk, hact, heq, hbt, hmin, hfst⟩
      · left
        refine ⟨heq, ?_⟩
        intro k s h hact
        cases k with
        | zero => simp at h
        | succ m => exact hall m s (by simpa using h) hact
      · right
        have heq' : findMinAux (none :: rest) i best cc cl = some (i + (k + 1)) := by
          rw [show findMinAux (none :: rest) i best cc cl
              = findMinAux rest (i + 1) best cc cl from rfl, heq]
          congr 1
          omega
        refine ⟨k + 1, s, by simpa using hk, hact, heq', hbt, ?_, ?_⟩
        · intro k' s' h' hact'
          cases k' with
          | zero => simp at h'
          | succ m => exact hmin m s' (by simpa using h') hact'
        · intro k' s' hlt h' hact'
          cases k' with
          | zero => simp at h'
          | succ m => exact hfst m s' (by omega) (by simpa using h') hact'
    | some s0 =>
      by_cases hcond : s0.ignore = false ∧ lexLt (skey s0) (cc, cl)
      · -- the head updates the state
        have hstep : findMinAux (some s0 :: rest) i best cc cl
            = findMinAux rest (i + 1) (some i) s0.t.count s0.t.level := by
          simp [findMinAux, hcond]
        have hkey : (s0.t.count, s0.t.level) = skey s0 := rfl
        rcases ih (i + 1) (some i) s0.t.count s0.t.level with
          ⟨heq, hall⟩ | ⟨k, s, hk, hact, heq, hbt, hmin, hfst⟩
        · right
          refine ⟨0, s0, rfl, hcond.1, ?_, hcond.2, ?_, ?_⟩
          · rw [hstep, heq]; simp
          · intro k' s' h' hact'
            cases k' with
            | zero =>
              simp only [List.get?] at h'
              injection h' with h'; injection h' with h'
              subst h'
              exact lexLt_irrefl _
            | succ m =>
              have := hall m s' (by simpa using h') hact'
              simpa [hkey] using this
          · intro k' s' hlt h' hact'
            omega
        · right
          have hbt0 : lexLt (skey s) (skey s0) := by simpa [hkey] using hbt
          refine ⟨k + 1, s, by simpa using hk, hact, ?_,
            lexLt_trans hbt0 hcond.2, ?_, ?_⟩
          · rw [hstep]; rw [heq]; congr 1; omega
          · intro k' s' h' hact'
            cases k' with
            | zero =>
              simp only [List.get?] at h'
              injection h' with h'; injection h' with h'
              subst h'
              exact lexLt_asymm hbt0
            | succ m => exact hmin m s' (by simpa using h') hact'
          · intro k' s' hlt h' hact'
            cases k' with
            | zero =>
              simp only [List.get?] at h'
              injection h' with h'; injection h' with h'
              subst h'
              exact hbt0
            | succ m => exact hfst m s' (by omega) (by simpa using h') hact'
      · -- the head does not update the state
        have hstep : findMinAux (some s0 :: rest) i best cc cl
            = findMinAux rest (i + 1) best cc cl := by
          simp [findMinAux, hcond]
        have hhead : s0.ignore = false → ¬ lexLt (skey s0) (cc, cl) := by
          intro ha hb; exact hcond ⟨ha, hb⟩
        rcases ih (i + 1) best cc cl with ⟨heq, hall⟩ | ⟨k, s, hk, hact, heq, hbt, hmin, hfst⟩
        · left
          refine ⟨by rw [hstep, heq], ?_⟩
          intro k s h hact
          cases k with
          | zero =>
            simp only [List.get?] at h
            injection h with h; injection h with h
            subst h
            exact hhead hact
          | succ m => exact hall m s (by simpa using h) hact
        · right
          refine ⟨k + 1, s, by simpa using hk, hact, ?_, hbt, ?_, ?_⟩
          · rw [hstep, heq]; congr 1; omega
          · intro k' s' h' hact'
            cases k' with
            | zero =>
              simp only [List.get?] at h'
              injection h' with h'; injection h' with h'
              subst h'
              intro hcontra
              exact hhead hact' (lexLt_trans hcontra hbt)
            | succ m => exact hmin m s' (by simpa using h') hact'
          · intro k' s' hlt h' hact'
            cases k' with
            | zero =>
              simp only [List.get?] at h'
              injection h' with h'; injection h' with h'
              subst h'
              rcases lexLt_total (skey s) (skey s0) with h | h | h
              · exact h
              · exact absurd (h ▸ hbt) (hhead hact')
              · exact absurd (lexLt_trans h hbt) (hhead hact')
            | succ m => exact hfst m s' (by omega) (by simpa using h') hact'

/-- When FindMinimumCount returns an index, that slot is non-NULL, active,
beats the initial (INT_MAX, INT_MAX) state, is minimal among active slots,
and is the first slot achieving the minimum. -/
theorem findMinimumCount_some {ht : List (Option Slot)} {j : Nat}
    (h : findMinimumCount ht = some j) :
    ∃ s, ht.get? j = some (some s) ∧ s.ignore = false ∧
      lexLt (skey s) (INT_MAX, INT_MAX) ∧
      (∀ k' s', ht.get? k' = some (some s') → s'.ignore = false →
        ¬ lexLt (skey s') (skey s)) ∧
      (∀ k' s', k' < j → ht.get? k' = some (some s') → s'.ignore = false →
        lexLt (skey s) (skey s')) := by
  rcases findMinAux_spec ht 0 none INT_MAX INT_MAX with ⟨heq, _⟩ |
    ⟨k, s, hk, hact, heq, hbt, hmin, hfst⟩
  · rw [findMinimumCount] at h; rw [heq] at h; exact absurd h (by simp)
  · rw [findMinimumCount] at h; rw [heq] at h
    injection h with h
    subst h
    exact ⟨s, by simpa using hk, hact, hbt, hmin, by simpa using hfst⟩

/-- FindMinimumCount returns NONE exactly when no active slot beats the
initial (INT_MAX, INT_MAX) state. -/
theorem findMinimumCount_none_iff (ht : List (Option Slot)) :
    findMinimumCount ht = none ↔
      ∀ k s, ht.get? k = some (some s) → s.ignore = false →
        ¬ lexLt (skey s) (INT_MAX, INT_MAX) := by
  constructor
  · intro h k s hk hact
    rcases findMinAux_spec ht 0 none INT_MAX INT_MAX with ⟨_, hall⟩ |
      ⟨k', s', _, _, heq, _, _, _⟩
    · exact hall k s hk hact
    · rw [findMinimumCount] at h; rw [heq] at h; exact absurd h (by simp)
  · intro hall
    rcases findMinAux_spec ht 0 none INT_MAX INT_MAX with ⟨heq, _⟩ |
      ⟨k, s, hk, hact, heq, hbt, _, _⟩
    · rw [findMinimumCount, heq]
    · exact absurd hbt (hall k s hk hact)

theorem numSome_set_some {l : List (Option Slot)} : ∀ {i : Nat} {s : Slot}
    (s' : Slot), l.get? i = some (some s) →
    numSome (l.set i (some s')) = numSome l := by
  induction l with
  | nil => intro i s s' h; simp at h
  | cons o rest ih =>
    intro i s s' h
    cases i with
    | zero =>
      simp only [List.get?] at h
      injection h with h
      subst h
      simp [numSome, List.countP_cons]
    | succ n =>
      simp only [List.get?] at h
      simp only [List.set, numSome, List.countP_cons]
      have := ih s' h
      simp only [numSome] at this
      omega

theorem numSome_set_none {l : List (Option Slot)} : ∀ {i : Nat} {s : Slot},
    l.get? i = some (some s) → numSome (l.set i none) + 1 = numSome l := by
  induction l with
  | nil => intro i s h; simp at h
  | cons o rest ih =>
    intro i s h
    cases i with
    | zero =>
      simp only [List.get?] at h
      injection h with h
      subst h
      simp [numSome, List.countP_cons]
    | succ n =>
      simp only [List.get?] at h
      simp only [List.set, numSome, List.countP_cons]
      have := ih h
      simp only [numSome] at this
      omega

theorem markIgnored_get_self {ht : List (Option Slot)} {i : Nat} {s : Slot}
    (h : ht.get? i = some (some s)) :
    (markIgnored ht i).get? i = some (some (Slot.mk s.t true)) := by
  have hlen : i < ht.length := by
    by_contra hge
    rw [List.get?_eq_none.2 (by omega)] at h
    exact absurd h (by simp)
  rw [markIgnored, h]
  exact getq_set_self ht i _ hlen

theorem markIgnored_get_ne {ht : List (Option Slot)} {i j : Nat}
    (h : j ≠ i) : (markIgnored ht i).get? j = ht.get? j := by
  rw [markIgnored]
  match hg : ht.get? i with
  | some (some s) => exact getq_set_ne ht i j _ h
  | some none => rfl
  | none => rfl

theorem numSome_markIgnored (ht : List (Option Slot)) (i : Nat) :
    numSome (markIgnored ht i) = numSome ht := by
  rw [markIgnored]
  match hg : ht.get? i with
  | some (some s) => exact numSome_set_some _ hg
  | some none => rfl
  | none => rfl

/-- The loop body of `BuildHuffmanTree` (huffman.c): repeatedly find the two
active minima, replace the first by their composite, clear the slot of the
second, until a single active node remains.  When the first search of an
iteration fails the loop breaks with `min1 == NONE` and the C code reads
`ht[-1]`; that out-of-bounds access is modelled by `none`.  The `fuel`
parameter only makes the recursion structural: every iteration clears one
slot, so `numSome ht + 1` iterations always suffice and the fuel is never
exhausted (`buildLoop_eq_of_lt`). -/
def buildLoop : Nat → List (Option Slot) → Option HTree
  | 0, _ => none
  | fuel + 1, ht =>
    match findMinimumCount ht with
    | none => none
    | some m1 =>
      match findMinimumCount (markIgnored ht m1) with
      | none =>
        match (markIgnored ht m1).get? m1 with
        | some (some s) => some s.t
        | _ => none
      | some m2 =>
        match (markIgnored ht m1).get? m1, (markIgnored ht m1).get? m2 with
        | some (some a), some (some b) =>
          buildLoop fuel
            (((markIgnored ht m1).set m1
                (some (Slot.mk (allocHuffmanCompositeNode a.t b.t) false))).set m2 none)
        | _, _ => none

/-- `BuildHuffmanTree` (huffman.c). -/
def buildHuffmanTree (ht : List (Option Slot)) : Option HTree :=
  buildLoop (numSome ht + 1) ht

/-- One loop iteration clears exactly one non-NULL slot. -/
theorem numSome_step {ht : List (Option Slot)} {m1 m2 : Nat} {a b : Slot}
    (h1 : findMinimumCount ht = some m1)
    (h2 : findMinimumCount (markIgnored ht m1) = some m2)
    (hm1 : (markIgnored ht m1).get? m1 = some (some a))
    (hm2 : (markIgnored ht m1).get? m2 = some (some b)) :
    numSome (((markIgnored ht m1).set m1
        (some (Slot.mk (allocHuffmanCompositeNode a.t b.t) false))).set m2 none) + 1
      = numSome ht := by
  rcases findMinimumCount_some h1 with ⟨s1, hs1, hact1, _, _, _⟩
  rcases findMinimumCount_some h2 with ⟨s2, hs2, hact2, _, _, _⟩
  have hne : m2 ≠ m1 := by
    intro hEq
    subst hEq
    rw [markIgnored_get_self hs1] at hs2
    injection hs2 with hs2
    injection hs2 with hs2
    subst hs2
    simp at hact2
  have hget2 : ((markIgnored ht m1).set m1
      (some (Slot.mk (allocHuffmanCompositeNode a.t b.t) false))).get? m2
      = some (some b) := by
    rw [getq_set_ne _ _ _ _ hne]; exact hm2
  have h3 := numSome_set_none hget2
  have h4 : numSome ((markIgnored ht m1).set m1
      (some (Slot.mk (allocHuffmanCompositeNode a.t b.t) false)))
      = numSome (markIgnored ht m1) := numSome_set_some _ hm1
  have h5 := numSome_markIgnored ht m1
  omega

/-- Fuel irrelevance: any fuel above the number of non-NULL slots computes
the same result, so the fuelled loop is exactly the unbounded C loop. -/
theorem buildLoop_eq_of_lt : ∀ (fuel fuel' : Nat) (ht : List (Option Slot)),
    numSome ht < fuel → numSome ht < fuel' →
    buildLoop fuel ht = buildLoop fuel' ht := by
  intro fuel
  induction fuel with
  | zero => intro fuel' ht h _; omega
  | succ f ih =>
    intro fuel' ht hf hf'
    cases fuel' with
    | zero => omega
    | succ f' =>
      show buildLoop (f + 1) ht = buildLoop (f' + 1) ht
      cases hfm : findMinimumCount ht with
      | none => simp only [buildLoop, hfm]
      | some m1 =>
        cases hfm2 : findMinimumCount (markIgnored ht m1) with
        | none => simp only [buildLoop, hfm, hfm2]
        | some m2 =>
          cases hg1 : (markIgnored ht m1).get? m1 with
          | none => simp only [buildLoop, hfm, hfm2, hg1]
          | some o1 =>
            cases o1 with
            | none => simp only [buildLoop, hfm, hfm2, hg1]
            | some a =>
              cases hg2 : (markIgnored ht m1).get? m2 with
              | none => simp only [buildLoop, hfm, hfm2, hg1, hg2]
              | some o2 =>
                cases o2 with
                | none => simp only [buildLoop, hfm, hfm2, hg1, hg2]
                | some b =>
                  have hstep := numSome_step hfm hfm2 hg1 hg2
                  simp only [buildLoop, hfm, hfm2, hg1, hg2]
                  exact ih f' _ (by omega) (by omega)

/-- Unfolding lemma: the build loop breaks immediately (reading `ht[-1]`,
modelled `none`) when the first search fails. -/
theorem buildHuffmanTree_none {ht : List (Option Slot)}
    (h : findMinimumCount ht = none) : buildHuffmanTree ht = none := by
  rw [buildHuffmanTree]
  simp only [buildLoop, h]

/-- Unfolding lemma: a single surviving minimum is returned as the root. -/
theorem buildHuffmanTree_single {ht : List (Option Slot)} {m1 : Nat} {s : Slot}
    (h1 : findMinimumCount ht = some m1)
    (h2 : findMinimumCount (markIgnored ht m1) = none)
    (hs : (markIgnored ht m1).get? m1 = some (some s)) :
    buildHuffmanTree ht = some s.t := by
  rw [buildHuffmanTree]
  simp only [buildLoop, h1, h2, hs]

/-- Unfolding lemma: one iteration of the build loop merges the two minima. -/
theorem buildHuffmanTree_step {ht : List (Option Slot)} {m1 m2 : Nat}
    {a b : Slot}
    (h1 : findMinimumCount ht = some m1)
    (h2 : findMinimumCount (markIgnored ht m1) = some m2)
    (hm1 : (markIgnored ht m1).get? m1 = some (some a))
    (hm2 : (markIgnored ht m1).get? m2 = some (some b)) :
    buildHuffmanTree ht = buildHuffmanTree
      (((markIgnored ht m1).set m1
          (some (Slot.mk (allocHuffmanCompositeNode a.t b.t) false))).set m2 none) := by
  have hstep := numSome_step h1 h2 hm1 hm2
  rw [buildHuffmanTree, buildHuffmanTree]
  have hunf : buildLoop (numSome ht + 1) ht = buildLoop (numSome ht)
      (((markIgnored ht m1).set m1
          (some (Slot.mk (allocHuffmanCompositeNode a.t b.t) false))).set m2 none) := by
    simp only [buildLoop, h1, h2, hm1, hm2]
  rw [hunf]
  exact buildLoop_eq_of_lt _ _ _ (by omega) (by omega)

/-- Leaves of a tree in left-first walk order, as (value, count) pairs. -/
def HTree.leafSeq : HTree → List (Nat × Nat)
  | .leaf v c => [(v, c)]
  | .comp _ _ l r => l.leafSeq ++ r.leafSeq

/-- Number of leaves. -/
def HTree.numLeaves : HTree → Nat
  | .leaf _ _ => 1
  | .comp _ _ l r => l.numLeaves + r.numLeaves

/-- Number of internal (composite) nodes. -/
def HTree.numComps : HTree → Nat
  | .leaf _ _ => 0
  | .comp _ _ l r => l.numComps + r.numComps + 1

/-- Structural well-formedness: every composite node's stored fields satisfy
`count = left.count + right.count` (exact, without 32-bit wrap-around) and
`level = max(left.level, right.level) + 1`. -/
def wfTree : HTree → Prop
  | .leaf _ _ => True
  | .comp c lv l r =>
      c = l.count + r.count ∧ lv = max l.level r.level + 1 ∧ wfTree l ∧ wfTree r

/-- Fibonacci lower bound on counts: every node's count is at least
`fib (level + 1)`.  For a leaf this says `count ≥ 1`. -/
def fibOK : HTree → Prop
  | .leaf _ c => 1 ≤ c
  | .comp c lv l r => Nat.fib (lv + 1) ≤ c ∧ fibOK l ∧ fibOK r

theorem fibOK_count_ge {t : HTree} (h : fibOK t) :
    Nat.fib (t.level + 1) ≤ t.count := by
  cases t with
  | leaf v c => simpa [HTree.level, HTree.count, Nat.fib] using h
  | comp c lv l r => exact h.1

theorem leafSeq_length (t : HTree) : t.leafSeq.length = t.numLeaves := by
  induction t with
  | leaf v c => rfl
  | comp c lv l r ihl ihr => simp [HTree.leafSeq, HTree.numLeaves, ihl, ihr]

theorem wfTree_count_eq_sum {t : HTree} (h : wfTree t) :
    t.count = (t.leafSeq.map Prod.snd).sum := by
  induction t with
  | leaf v c => simp [HTree.leafSeq, HTree.count]
  | comp c lv l r ihl ihr =>
    rcases h with ⟨hc, _, hl, hr⟩
    show c = ((l.leafSeq ++ r.leafSeq).map Prod.snd).sum
    rw [hc, ihl hl, ihr hr, List.map_append, List.sum_append]

/-- The active contribution of one array slot. -/
def actOf : Option Slot → List HTree
  | some s => if s.ignore then [] else [s.t]
  | none => []

/-- Trees of the active (non-NULL, not ignored) slots, in index order. -/
def activeTrees (l : List (Option Slot)) : List HTree :=
  l.flatMap actOf

theorem activeTrees_nil : activeTrees [] = [] := rfl

theorem activeTrees_cons (o : Option Slot) (l : List (Option Slot)) :
    activeTrees (o :: l) = actOf o ++ activeTrees l := rfl

/-- Surgery on one slot permutes the active trees accordingly. -/
theorem activeTrees_set_perm (l : List (Option Slot)) : ∀ (i : Nat)
    (o v : Option Slot), l.get? i = some o →
    List.Perm (activeTrees (l.set i v) ++ actOf o) (activeTrees l ++ actOf v) := by
  induction l with
  | nil => intro i o v h; simp at h
  | cons x xs ih =>
    intro i o v h
    cases i with
    | zero =>
      simp only [List.get?] at h
      injection h with h
      subst h
      simp only [List.set, activeTrees_cons]
      have p1 : List.Perm ((actOf v ++ activeTrees xs) ++ actOf x)
          (actOf x ++ (actOf v ++ activeTrees xs)) := List.perm_append_comm
      have p2 : List.Perm (actOf v ++ activeTrees xs) (activeTrees xs ++ actOf v) :=
        List.perm_append_comm
      have p3 := List.Perm.append_left (actOf x) p2
      have heq : (actOf x ++ activeTrees xs) ++ actOf v
          = actOf x ++ (activeTrees xs ++ actOf v) := List.append_assoc _ _ _
      rw [heq]
      exact p1.trans p3
    | succ n =>
      simp only [List.get?] at h
      simp only [List.set, activeTrees_cons, List.append_assoc]
      exact List.Perm.append_left (actOf x) (ih n o v h)

theorem mem_activeTrees {l : List (Option Slot)} {t : HTree} :
    t ∈ activeTrees l ↔
      ∃ j s, l.get? j = some (some s) ∧ s.ignore = false ∧ s.t = t := by
  constructor
  · intro h
    rcases List.mem_flatMap.1 h with ⟨o, ho, hmem⟩
    rcases List.get?_of_mem ho with ⟨j, hj⟩
    match o with
    | none => simp [actOf] at hmem
    | some s =>
      cases hig : s.ignore with
      | true => simp [actOf, hig] at hmem
      | false =>
        simp only [actOf, hig] at hmem
        simp only [if_neg (by simp : ¬ (false = true)), List.mem_singleton] at hmem
        exact ⟨j, s, hj, hig, hmem.symm⟩
  · rintro ⟨j, s, hj, hig, rfl⟩
    apply List.mem_flatMap.2
    refine ⟨some s, List.get?_mem hj, ?_⟩
    simp [actOf, hig]

theorem get?_lt_length {α : Type} {l : List α} {i : Nat} {x : α}
    (h : l.get? i = some x) : i < l.length := by
  by_contra hge
  rw [List.get?_eq_none.2 (by omega)] at h
  exact absurd h (by simp)

theorem markIgnored_eq {ht : List (Option Slot)} {m1 : Nat} {s1 : Slot}
    (h : ht.get? m1 = some (some s1)) :
    markIgnored ht m1 = ht.set m1 (some (Slot.mk s1.t true)) := by
  rw [markIgnored, h]

/-- INT_MAX is smaller than the 48th Fibonacci number (4807526976). -/
theorem int_max_lt_fib48 : INT_MAX < Nat.fib 48 := by decide

/-- A node whose count fits in INT_MAX sits at level below 47 (Fibonacci
growth of counts along levels). -/
theorem level_small {t : HTree} (hfib : fibOK t) (hcnt : t.count ≤ INT_MAX) :
    t.level + 1 < 48 := by
  by_contra h
  have h1 : Nat.fib 48 ≤ Nat.fib (t.level + 1) := Nat.fib_mono (by omega)
  have h2 := fibOK_count_ge hfib
  have := int_max_lt_fib48
  omega

theorem int_max_val : INT_MAX = 2147483647 := by norm_num [INT_MAX]

/-- Any active node obeying the Fibonacci invariant with count within INT_MAX
is visible to FindMinimumCount's initial state. -/
theorem visible_of_small {s : Slot} (hfib : fibOK s.t)
    (hcnt : s.t.count ≤ INT_MAX) : lexLt (skey s) (INT_MAX, INT_MAX) := by
  have hl := level_small hfib hcnt
  have him := int_max_val
  simp only [lexLt, skey]
  omega

theorem one_active_le {l : List (Option Slot)} : ∀ {j : Nat} {s : Slot},
    l.get? j = some (some s) → s.ignore = false →
    1 ≤ (activeTrees l).length := by
  induction l with
  | nil => intro j s h _; simp at h
  | cons o rest ih =>
    intro j s h hig
    cases j with
    | zero =>
      simp only [List.get?] at h
      injection h with h
      subst h
      simp [activeTrees_cons, actOf, hig]
    | succ n =>
      simp only [List.get?] at h
      have := ih h hig
      simp only [activeTrees_cons, List.length_append]
      omega

theorem two_active_le {l : List (Option Slot)} : ∀ {i j : Nat}
    {si sj : Slot}, i ≠ j →
    l.get? i = some (some si) → si.ignore = false →
    l.get? j = some (some sj) → sj.ignore = false →
    2 ≤ (activeTrees l).length := by
  induction l with
  | nil => intro i j si sj _ h _ _ _; simp at h
  | cons o rest ih =>
    intro i j si sj hij hi higi hj higj
    cases i with
    | zero =>
      cases j with
      | zero => exact absurd rfl hij
      | succ n =>
        simp only [List.get?] at hi hj
        injection hi with hi
        subst hi
        have := one_active_le hj higj
        simp only [activeTrees_cons, List.length_append, actOf, higi]
        simp only [if_neg (by simp : ¬ (false = true)), List.length_singleton]
        omega
    | succ m =>
      cases j with
      | zero =>
        simp only [List.get?] at hi hj
        injection hj with hj
        subst hj
        have := one_active_le hi higi
        simp only [activeTrees_cons, List.length_append, actOf, higj]
        simp only [if_neg (by simp : ¬ (false = true)), List.length_singleton]
        omega
      | succ n =>
        simp only [List.get?] at hi hj
        have := ih (by omega : m ≠ n) hi higi hj higj
        simp only [activeTrees_cons, List.length_append]
        omega

/-- A member of a Nat-valued map is bounded by the sum. -/
theorem mem_le_sum {f : HTree → Nat} {t : HTree} {A : List HTree}
    (h : t ∈ A) : f t ≤ (A.map f).sum :=
  List.single_le_sum (by intro x _; omega) _ (List.mem_map_of_mem f h)

/-- Master specification of the build loop.  Starting from any slot array
whose active trees are well-formed, satisfy the Fibonacci count invariant,
have total count at most INT_MAX, and whose counts dominate `m` (with
`fib level ≤ m` for composite roots), `BuildHuffmanTree` succeeds and
returns a single well-formed tree assembled from exactly the active trees:
its leaf sequence is a permutation of the concatenated active leaf
sequences, its count is the total count, and it adds one internal node per
merge. -/
theorem buildHuffmanTree_spec : ∀ (n : Nat) (ht : List (Option Slot)) (m : Nat),
    (activeTrees ht).length = n →
    1 ≤ n →
    (∀ t ∈ activeTrees ht, wfTree t ∧ fibOK t) →
    ((activeTrees ht).map HTree.count).sum ≤ INT_MAX →
    (∀ t ∈ activeTrees ht, m ≤ t.count) →
    (∀ t ∈ activeTrees ht, 1 ≤ t.level → Nat.fib t.level ≤ m) →
    ∃ t, buildHuffmanTree ht = some t ∧ wfTree t ∧ fibOK t ∧
      List.Perm t.leafSeq ((activeTrees ht).map HTree.leafSeq).flatten ∧
      t.count = ((activeTrees ht).map HTree.count).sum ∧
      t.numComps = ((activeTrees ht).map HTree.numComps).sum + (n - 1) := by
  intro n
  induction n using Nat.strong_induction_on with
  | _ n IH =>
  intro ht m hn h1n hwf hsum hm hm2
  -- there is at least one active slot, and it is visible to the search
  have hne : activeTrees ht ≠ [] := by
    intro h
    rw [h] at hn
    simp at hn
    omega
  obtain ⟨t0, ht0⟩ := List.exists_mem_of_ne_nil _ hne
  obtain ⟨j0, s0, hj0, hig0, hst0⟩ := mem_activeTrees.1 ht0
  have hvis0 : lexLt (skey s0) (INT_MAX, INT_MAX) := by
    apply visible_of_small
    · rw [hst0]; exact (hwf t0 ht0).2
    · rw [hst0]; exact le_trans (mem_le_sum ht0) hsum
  cases hfm : findMinimumCount ht with
  | none =>
    exact absurd hvis0 ((findMinimumCount_none_iff ht).1 hfm j0 s0 hj0 hig0)
  | some m1 =>
  rcases findMinimumCount_some hfm with ⟨s1, hs1, hig1, _, hmin1, _⟩
  have hs1mem : s1.t ∈ activeTrees ht := mem_activeTrees.2 ⟨m1, s1, hs1, hig1, rfl⟩
  -- ignore the first minimum
  have he1 : List.Perm (activeTrees (markIgnored ht m1) ++ [s1.t]) (activeTrees ht) := by
    have h := activeTrees_set_perm ht m1 (some s1) (some (Slot.mk s1.t true)) hs1
    rw [← markIgnored_eq hs1] at h
    simpa [actOf, hig1] using h
  by_cases hone : n = 1
  · -- single active node: the loop returns it directly
    subst hone
    obtain ⟨a0, hA⟩ := List.length_eq_one.1 hn
    have hs1a0 : s1.t = a0 := by
      rw [hA] at hs1mem
      simpa using hs1mem
    have hfm2 : findMinimumCount (markIgnored ht m1) = none := by
      apply (findMinimumCount_none_iff _).2
      intro k s hk hig
      exfalso
      by_cases hkm : k = m1
      · subst hkm
        rw [markIgnored_get_self hs1] at hk
        injection hk with hk
        injection hk with hk
        rw [← hk] at hig
        simp at hig
      · rw [markIgnored_get_ne hkm] at hk
        have := two_active_le hkm hk hig hs1 hig1
        rw [hA] at this
        simp at this
    refine ⟨s1.t, ?_, ?_, ?_, ?_, ?_, ?_⟩
    · have := buildHuffmanTree_single hfm hfm2 (markIgnored_get_self hs1)
      simpa using this
    · rw [hs1a0]; exact (hwf a0 (by simp [hA])).1
    · rw [hs1a0]; exact (hwf a0 (by simp [hA])).2
    · rw [hs1a0, hA]; simp
    · rw [hs1a0, hA]; simp [HTree.count]
    · rw [hs1a0, hA]; simp
  · -- at least two active nodes: merge the two minima
    have hn2 : 2 ≤ n := by omega
    have hlen1 : (activeTrees (markIgnored ht m1)).length + 1 = n := by
      have := he1.length_eq
      simp only [List.length_append, List.length_singleton] at this
      omega
    have hne1 : activeTrees (markIgnored ht m1) ≠ [] := by
      intro h
      rw [h] at hlen1
      simp at hlen1
      omega
    obtain ⟨t1, ht1mem⟩ := List.exists_mem_of_ne_nil _ hne1
    obtain ⟨j1, sJ, hj1, higJ, hstJ⟩ := mem_activeTrees.1 ht1mem
    have ht1memA : t1 ∈ activeTrees ht := he1.mem_iff.1 (by simp [ht1mem])
    have hvis1 : lexLt (skey sJ) (INT_MAX, INT_MAX) := by
      apply visible_of_small
      · rw [hstJ]; exact (hwf t1 ht1memA).2
      · rw [hstJ]; exact le_trans (mem_le_sum ht1memA) hsum
    cases hfm2 : findMinimumCount (markIgnored ht m1) with
    | none =>
      exact absurd hvis1 ((findMinimumCount_none_iff _).1 hfm2 j1 sJ hj1 higJ)
    | some m2 =>
    rcases findMinimumCount_some hfm2 with ⟨s2, hs2, hig2, _, hmin2, _⟩
    have hm2m1 : m2 ≠ m1 := by
      intro hEq
      rw [hEq, markIgnored_get_self hs1] at hs2
      injection hs2 with hs2
      injection hs2 with hs2
      rw [← hs2] at hig2
      simp at hig2
    have hs2ht : ht.get? m2 = some (some s2) := by
      rw [← markIgnored_get_ne hm2m1]
      exact hs2
    have hs2mem : s2.t ∈ activeTrees ht := mem_activeTrees.2 ⟨m2, s2, hs2ht, hig2, rfl⟩
    have hs2mem1 : s2.t ∈ activeTrees (markIgnored ht m1) :=
      mem_activeTrees.2 ⟨m2, s2, hs2, hig2, rfl⟩
    -- counts of the two minima
    have hcacb : s1.t.count ≤ s2.t.count := by
      have := hmin1 m2 s2 hs2ht hig2
      simp only [lexLt, skey] at this
      omega
    have hmca : m ≤ s1.t.count := hm s1.t hs1mem
    have hmcb : m ≤ s2.t.count := hm s2.t hs2mem
    have hsum1 : ((activeTrees (markIgnored ht m1)).map HTree.count).sum + s1.t.count
        = ((activeTrees ht).map HTree.count).sum := by
      have := (he1.map HTree.count).sum_eq
      simpa using this
    have hccsum : s1.t.count + s2.t.count ≤ ((activeTrees ht).map HTree.count).sum := by
      have h1 : HTree.count s2.t ≤ ((activeTrees (markIgnored ht m1)).map HTree.count).sum :=
        mem_le_sum hs2mem1
      omega
    have hcc : (s1.t.count + s2.t.count) % UINT_MOD = s1.t.count + s2.t.count := by
      apply Nat.mod_eq_of_lt
      have := int_max_val
      have : s1.t.count + s2.t.count ≤ INT_MAX := le_trans hccsum hsum
      simp only [UINT_MOD]
      omega
    -- the composite node
    have hwfc : wfTree (allocHuffmanCompositeNode s1.t s2.t) := by
      refine ⟨hcc, rfl, (hwf s1.t hs1mem).1, (hwf s2.t hs2mem).1⟩
    have hfibc : fibOK (allocHuffmanCompositeNode s1.t s2.t) := by
      refine ⟨?_, (hwf s1.t hs1mem).2, (hwf s2.t hs2mem).2⟩
    -- fib (max l1 l2 + 2) ≤ ca + cb
      rw [hcc]
      rcases Nat.le_total s1.t.level s2.t.level with hle | hle
      · rw [Nat.max_eq_right hle, Nat.fib_add_two]
        have h1 : Nat.fib (s2.t.level + 1) ≤ s2.t.count := fibOK_count_ge (hwf s2.t hs2mem).2
        have h2 : Nat.fib s2.t.level ≤ s1.t.count := by
          rcases Nat.eq_zero_or_pos s2.t.level with h0 | h0
          · rw [h0]; simp [Nat.fib]
          · exact le_trans (hm2 s2.t hs2mem h0) hmca
        omega
      · rw [Nat.max_eq_left hle, Nat.fib_add_two]
        have h1 : Nat.fib (s1.t.level + 1) ≤ s1.t.count := fibOK_count_ge (hwf s1.t hs1mem).2
        have h2 : Nat.fib s1.t.level ≤ s2.t.count := by
          rcases Nat.eq_zero_or_pos s1.t.level with h0 | h0
          · rw [h0]; simp [Nat.fib]
          · exact le_trans (hm2 s1.t hs1mem h0) hmcb
        omega
    -- the updated slot array
    have hm1lt : m1 < (markIgnored ht m1).length := by
      have h := get?_lt_length hs1
      rw [markIgnored]
      match hg : ht.get? m1 with
      | some (some s) => simpa using h
      | some none => exact h
      | none => exact h
    have hget2' : ((markIgnored ht m1).set m1
        (some (Slot.mk (allocHuffmanCompositeNode s1.t s2.t) false))).get? m2
        = some (some s2) := by
      rw [getq_set_ne _ _ _ _ hm2m1]
      exact hs2
    have he2 : List.Perm
        (activeTrees ((markIgnored ht m1).set m1
          (some (Slot.mk (allocHuffmanCompositeNode s1.t s2.t) false))))
        (activeTrees (markIgnored ht m1) ++ [allocHuffmanCompositeNode s1.t s2.t]) := by
      have h := activeTrees_set_perm (markIgnored ht m1) m1
        (some (Slot.mk s1.t true))
        (some (Slot.mk (allocHuffmanCompositeNode s1.t s2.t) false))
        (markIgnored_get_self hs1)
      simpa [actOf] using h
    have he3 : List.Perm
        (activeTrees (((markIgnored ht m1).set m1
          (some (Slot.mk (allocHuffmanCompositeNode s1.t s2.t) false))).set m2 none)
          ++ [s2.t])
        (activeTrees ((markIgnored ht m1).set m1
          (some (Slot.mk (allocHuffmanCompositeNode s1.t s2.t) false)))) := by
      have h := activeTrees_set_perm
        ((markIgnored ht m1).set m1
          (some (Slot.mk (allocHuffmanCompositeNode s1.t s2.t) false)))
        m2 (some s2) none hget2'
      simpa [actOf, hig2] using h
    -- combined permutation: new actives plus the two minima ~ old plus composite
    have hcomb : List.Perm
        ((activeTrees (((markIgnored ht m1).set m1
          (some (Slot.mk (allocHuffmanCompositeNode s1.t s2.t) false))).set m2 none)
          ++ [s2.t]) ++ [s1.t])
        (activeTrees ht ++ [allocHuffmanCompositeNode s1.t s2.t]) := by
      refine List.Perm.trans (List.Perm.append_right _ he3) ?_
      refine List.Perm.trans (List.Perm.append_right _ he2) ?_
      have hmid : List.Perm
          ((activeTrees (markIgnored ht m1) ++ [allocHuffmanCompositeNode s1.t s2.t])
            ++ [s1.t])
          ((activeTrees (markIgnored ht m1) ++ [s1.t])
            ++ [allocHuffmanCompositeNode s1.t s2.t]) := by
        rw [List.append_assoc, List.append_assoc]
        exact List.Perm.append_left _ List.perm_append_comm
      exact hmid.trans (List.Perm.append_right _ he1)
    -- indexed description of the active slots of the updated array
    have hidx : ∀ j s, (((markIgnored ht m1).set m1
          (some (Slot.mk (allocHuffmanCompositeNode s1.t s2.t) false))).set m2 none).get? j
          = some (some s) → s.ignore = false →
        (j = m1 ∧ s = Slot.mk (allocHuffmanCompositeNode s1.t s2.t) false)
        ∨ (j ≠ m1 ∧ j ≠ m2 ∧ (markIgnored ht m1).get? j = some (some s)) := by
      intro j s hj hig
      by_cases hjm2 : j = m2
      · subst hjm2
        rw [getq_set_self _ _ _ (by simpa using get?_lt_length hget2')] at hj
        injection hj with hj
        exact absurd hj (by simp)
      · rw [getq_set_ne _ _ _ _ hjm2] at hj
        by_cases hjm1 : j = m1
        · subst hjm1
          rw [getq_set_self _ _ _ hm1lt] at hj
          injection hj with hj
          injection hj with hj
          exact Or.inl ⟨rfl, hj.symm⟩
        · rw [getq_set_ne _ _ _ _ hjm1] at hj
          exact Or.inr ⟨hjm1, hjm2, hj⟩
    -- arithmetic consequences of the combined permutation
    have hlenA : (activeTrees (((markIgnored ht m1).set m1
        (some (Slot.mk (allocHuffmanCompositeNode s1.t s2.t) false))).set m2 none)).length
        + 1 = n := by
      have := hcomb.length_eq
      simp only [List.length_append, List.length_singleton] at this
      omega
    have hsumA : ((activeTrees (((markIgnored ht m1).set m1
        (some (Slot.mk (allocHuffmanCompositeNode s1.t s2.t) false))).set m2 none)).map
          HTree.count).sum
        = ((activeTrees ht).map HTree.count).sum := by
      have h := (hcomb.map HTree.count).sum_eq
      simp only [List.map_append, List.sum_append, List.map_cons, List.map_nil,
        List.sum_cons, List.sum_nil] at h
      have hc : HTree.count (allocHuffmanCompositeNode s1.t s2.t)
          = s1.t.count + s2.t.count := by
        simp only [allocHuffmanCompositeNode, HTree.count]
        exact hcc
      rw [hc] at h
      omega
    have hcompA : ((activeTrees (((markIgnored ht m1).set m1
        (some (Slot.mk (allocHuffmanCompositeNode s1.t s2.t) false))).set m2 none)).map
          HTree.numComps).sum + 1
        = ((activeTrees ht).map HTree.numComps).sum + 1 + 1 := by
      have h := (hcomb.map HTree.numComps).sum_eq
      simp only [List.map_append, List.sum_append, List.map_cons, List.map_nil,
        List.sum_cons, List.sum_nil] at h
      have hc : HTree.numComps (allocHuffmanCompositeNode s1.t s2.t)
          = s1.t.numComps + s2.t.numComps + 1 := rfl
      rw [hc] at h
      omega
    have hflatA : List.Perm
        (((activeTrees (((markIgnored ht m1).set m1
          (some (Slot.mk (allocHuffmanCompositeNode s1.t s2.t) false))).set m2 none)).map
            HTree.leafSeq).flatten)
        (((activeTrees ht).map HTree.leafSeq).flatten) := by
      have h := (hcomb.map HTree.leafSeq).flatten
      simp only [List.map_append, List.flatten_append, List.map_cons, List.map_nil,
        List.flatten_cons, List.flatten_nil, List.append_nil] at h
      have hc : HTree.leafSeq (allocHuffmanCompositeNode s1.t s2.t)
          = s1.t.leafSeq ++ s2.t.leafSeq := rfl
      rw [hc] at h
      simp only [List.append_assoc] at h
      -- cancel the two leaf sequences
      have h2 : List.Perm
          ((((activeTrees ht).map HTree.leafSeq).flatten)
            ++ (s1.t.leafSeq ++ s2.t.leafSeq))
          ((((activeTrees ht).map HTree.leafSeq).flatten)
            ++ (s2.t.leafSeq ++ s1.t.leafSeq)) :=
        List.Perm.append_left _ List.perm_append_comm
      exact (List.perm_append_right_iff _).1 (h.trans h2)
    -- invariants for the recursive call, with the new floor cb
    set sl' := ((markIgnored ht m1).set m1
      (some (Slot.mk (allocHuffmanCompositeNode s1.t s2.t) false))).set m2 none with hsl'
    have hwf' : ∀ t ∈ activeTrees sl', wfTree t ∧ fibOK t := by
      intro t htmem
      obtain ⟨j, s, hj, hig, hst⟩ := mem_activeTrees.1 htmem
      rcases hidx j s hj hig with ⟨_, hsc⟩ | ⟨hjm1, hjm2, hj1⟩
      · rw [← hst, hsc]
        exact ⟨hwfc, hfibc⟩
      · rw [markIgnored_get_ne hjm1] at hj1
        have : t ∈ activeTrees ht := mem_activeTrees.2 ⟨j, s, hj1, hig, hst⟩
        exact hwf t this
    have hm' : ∀ t ∈ activeTrees sl', s2.t.count ≤ t.count := by
      intro t htmem
      obtain ⟨j, s, hj, hig, hst⟩ := mem_activeTrees.1 htmem
      rcases hidx j s hj hig with ⟨_, hsc⟩ | ⟨hjm1, hjm2, hj1⟩
      · have hteq : t = allocHuffmanCompositeNode s1.t s2.t := by
          rw [← hst, hsc]
        rw [hteq]
        show s2.t.count ≤ (s1.t.count + s2.t.count) % UINT_MOD
        rw [hcc]
        omega
      · have := hmin2 j s hj1 hig
        simp only [lexLt, skey] at this
        rw [← hst]
        omega
    have hm2' : ∀ t ∈ activeTrees sl', 1 ≤ t.level → Nat.fib t.level ≤ s2.t.count := by
      intro t htmem hlv
      obtain ⟨j, s, hj, hig, hst⟩ := mem_activeTrees.1 htmem
      rcases hidx j s hj hig with ⟨_, hsc⟩ | ⟨hjm1, hjm2, hj1⟩
      · have hteq : t = allocHuffmanCompositeNode s1.t s2.t := by
          rw [← hst, hsc]
        rw [hteq]
        show Nat.fib (max s1.t.level s2.t.level + 1) ≤ s2.t.count
        rcases Nat.le_total s1.t.level s2.t.level with hle | hle
        · rw [Nat.max_eq_right hle]
          exact fibOK_count_ge (hwf s2.t hs2mem).2
        · rw [Nat.max_eq_left hle]
          exact le_trans (fibOK_count_ge (hwf s1.t hs1mem).2) hcacb
      · rw [markIgnored_get_ne hjm1] at hj1
        have hmemA : t ∈ activeTrees ht := mem_activeTrees.2 ⟨j, s, hj1, hig, hst⟩
        exact le_trans (hm2 t hmemA hlv) hmcb
    -- recursive call
    obtain ⟨tr, hbr, hwfr, hfibr, hpermr, hcntr, hcompr⟩ :=
      IH (n - 1) (by omega) sl' s2.t.count (by omega) (by omega) hwf'
        (by rw [hsumA]; exact hsum) hm' hm2'
    refine ⟨tr, ?_, hwfr, hfibr, hpermr.trans hflatA, by rw [hcntr, hsumA],
      ?_⟩
    · rw [buildHuffmanTree_step hfm hfm2 (markIgnored_get_self hs1) hs2]
      exact hbr
    · rw [hcompr]
      omega

/-! ### MakeCodeList and the traditional decode walk -/

/-- The iterative tree walk of `MakeCodeList` (huffman.c) enumerates the
leaves left-first; descending left shifts a 0 into the code, descending
right a 1.  Each visited leaf is recorded with the bit path from the root:
the code array holds exactly these bits (left-justified after the final
shift) and `codeLen` is the depth.  A root that is itself a leaf is
recorded with `depth = 0` and an all-zero code (MakeCodeList has no
single-leaf special case, unlike BuildCanonicalCode). -/
def makeCodeListWalk : HTree → List Bool → List (Nat × List Bool)
  | .leaf v _, path => [(v, path)]
  | .comp _ _ l r, path =>
      makeCodeListWalk l (path ++ [false]) ++ makeCodeListWalk r (path ++ [true])

/-- Following bits from a node down to a leaf carrying value `c`
(0 descends left, 1 descends right). -/
def pathToLeaf : HTree → List Bool → Nat → Prop
  | .leaf v _, [], c => v = c
  | .leaf _ _, _ :: _, _ => False
  | .comp _ _ _ _, [], _ => False
  | .comp _ _ l _, false :: p, c => pathToLeaf l p c
  | .comp _ _ _ r, true :: p, c => pathToLeaf r p c

theorem walk_mem : ∀ (t : HTree) (pre : List Bool) (v : Nat) (p : List Bool),
    (v, p) ∈ makeCodeListWalk t pre ↔ ∃ q, p = pre ++ q ∧ pathToLeaf t q v := by
  intro t
  induction t with
  | leaf v0 c0 =>
    intro pre v p
    simp only [makeCodeListWalk, List.mem_singleton, Prod.mk.injEq]
    constructor
    · rintro ⟨rfl, rfl⟩
      exact ⟨[], by simp, by simp [pathToLeaf]⟩
    · rintro ⟨q, rfl, hq⟩
      cases q with
      | nil =>
        have hv : v0 = v := by simpa [pathToLeaf] using hq
        exact ⟨hv.symm, by simp⟩
      | cons b bs => exact absurd hq (by simp [pathToLeaf])
  | comp c0 lv l r ihl ihr =>
    intro pre v p
    simp only [makeCodeListWalk, List.mem_append, ihl, ihr]
    constructor
    · rintro (⟨q, rfl, hq⟩ | ⟨q, rfl, hq⟩)
      · exact ⟨false :: q, by simp, hq⟩
      · exact ⟨true :: q, by simp, hq⟩
    · rintro ⟨q, rfl, hq⟩
      cases q with
      | nil => exact absurd hq (by simp [pathToLeaf])
      | cons b bs =>
        cases b with
        | false => exact Or.inl ⟨bs, by simp, hq⟩
        | true => exact Or.inr ⟨bs, by simp, hq⟩

theorem walk_map_fst (t : HTree) : ∀ pre,
    (makeCodeListWalk t pre).map Prod.fst = t.leafSeq.map Prod.fst := by
  induction t with
  | leaf v c => intro pre; rfl
  | comp c lv l r ihl ihr =>
    intro pre
    simp [makeCodeListWalk, HTree.leafSeq, ihl, ihr]

theorem path_length_le_level {t : HTree} (hwf : wfTree t) :
    ∀ {q : List Bool} {v : Nat}, pathToLeaf t q v → q.length ≤ t.level := by
  induction t with
  | leaf v0 c0 =>
    intro q v hq
    cases q with
    | nil => simp
    | cons b bs => exact absurd hq (by simp [pathToLeaf])
  | comp c0 lv l r ihl ihr =>
    intro q v hq
    rcases hwf with ⟨_, hlv, hwl, hwr⟩
    cases q with
    | nil => exact absurd hq (by simp [pathToLeaf])
    | cons b bs =>
      cases b with
      | false =>
        have h1 := ihl hwl hq
        show bs.length + 1 ≤ lv
        rw [hlv]
        have h2 : l.level ≤ max l.level r.level := Nat.le_max_left _ _
        omega
      | true =>
        have h1 := ihr hwr hq
        show bs.length + 1 ≤ lv
        rw [hlv]
        have h2 : r.level ≤ max l.level r.level := Nat.le_max_right _ _
        omega

/-- Prefix relation on bit lists: `p` is an initial segment of `q`. -/
def listPre (p q : List Bool) : Prop := q.take p.length = p

instance (p q : List Bool) : Decidable (listPre p q) := by
  unfold listPre; infer_instance

theorem listPre_append_iff (pre p q : List Bool) :
    listPre (pre ++ p) (pre ++ q) ↔ listPre p q := by
  unfold listPre
  rw [List.length_append, List.take_append_eq_append_take]
  rw [List.take_of_length_le (by omega), Nat.add_comm, Nat.add_sub_cancel]
  constructor
  · intro h
    exact List.append_cancel_left h
  · intro h
    rw [h]

/-- Codes recorded by the MakeCodeList walk are mutually prefix-free: the
walk of any composite tree assigns paths such that neither of two distinct
entries is an initial segment of the other. -/
theorem walk_pairwise_no_pre (t : HTree) : ∀ (pre : List Bool),
    List.Pairwise (fun a b : Nat × List Bool =>
      ¬ listPre a.2 b.2 ∧ ¬ listPre b.2 a.2) (makeCodeListWalk t pre) := by
  induction t with
  | leaf v c => intro pre; simp [makeCodeListWalk]
  | comp c lv l r ihl ihr =>
    intro pre
    simp only [makeCodeListWalk]
    rw [List.pairwise_append]
    refine ⟨ihl _, ihr _, ?_⟩
    intro a ha b hb
    obtain ⟨qa, hqa, _⟩ := (walk_mem l (pre ++ [false]) a.1 a.2).1 (by
      rcases a with ⟨a1, a2⟩; exact ha)
    obtain ⟨qb, hqb, _⟩ := (walk_mem r (pre ++ [true]) b.1 b.2).1 (by
      rcases b with ⟨b1, b2⟩; exact hb)
    rw [hqa, hqb]
    simp only [List.append_assoc, List.singleton_append]
    constructor
    · rw [listPre_append_iff pre (false :: qa) (true :: qb)]
      intro h
      unfold listPre at h
      simp only [List.length_cons, List.take_succ_cons] at h
      exact absurd (List.head_eq_of_cons_eq h) (by simp)
    · rw [listPre_append_iff pre (true :: qb) (false :: qa)]
      intro h
      unfold listPre at h
      simp only [List.length_cons, List.take_succ_cons] at h
      exact absurd (List.head_eq_of_cons_eq h) (by simp)

/-- The decode walk of `HuffmanDecodeFile`: read bits, go left on 0 and
right on 1; on reaching a leaf emit its value (or stop at EOF_CHAR); when
the bit supply ends the loop exits and the routine still reports success
(`TRUE`).  The third component of the result records whether the EOF leaf
was reached.  Stepping below a leaf dereferences a NULL child in the C
code; that crash is modelled by `none`. -/
def decodeWalk (root : HTree) : HTree → List Bool → List Nat →
    Option (Bool × List Nat × Bool)
  | _, [], out => some (true, out.reverse, false)
  | .leaf _ _, _ :: _, _ => none
  | .comp _ _ l r, b :: bs, out =>
    match (if b then r else l) with
    | .leaf v _ =>
      if v = EOF_CHAR then some (true, out.reverse, true)
      else decodeWalk root root bs (v :: out)
    | .comp cc clv cl cr => decodeWalk root (.comp cc clv cl cr) bs out

/-- Walking the decoder along the path of a leaf consumes exactly those bits
and performs the leaf action. -/
theorem decodeWalk_one (root : HTree) : ∀ (q : List Bool) (sub : HTree)
    (v : Nat) (rest : List Bool) (out : List Nat),
    pathToLeaf sub q v → q ≠ [] →
    (v ≠ EOF_CHAR → decodeWalk root sub (q ++ rest) out
        = decodeWalk root root rest (v :: out)) ∧
    (v = EOF_CHAR → decodeWalk root sub (q ++ rest) out
        = some (true, out.reverse, true)) := by
  intro q
  induction q with
  | nil => intro sub v rest out _ hne; exact absurd rfl hne
  | cons b bs ih =>
    intro sub v rest out hpath _
    match sub with
    | .leaf v0 c0 => exact absurd hpath (by cases b <;> simp [pathToLeaf])
    | .comp c0 lv l r =>
      have hchild : pathToLeaf (if b then r else l) bs v := by
        cases b with
        | false => simpa [pathToLeaf] using hpath
        | true => simpa [pathToLeaf] using hpath
      cases bs with
      | nil =>
        -- the child is the target leaf
        match hc : (if b then r else l) with
        | .leaf v1 c1 =>
          rw [hc] at hchild
          have hv : v1 = v := by simpa [pathToLeaf] using hchild
          subst hv
          constructor
          · intro hne
            simp only [List.cons_append, List.nil_append, decodeWalk, hc, if_neg hne,
              List.append_eq]
          · intro heq
            simp only [List.cons_append, List.nil_append, decodeWalk, hc, if_pos heq,
              List.append_eq]
        | .comp c1 lv1 l1 r1 =>
          rw [hc] at hchild
          exact absurd hchild (by simp [pathToLeaf])
      | cons b2 bs2 =>
        match hc : (if b then r else l) with
        | .leaf v1 c1 =>
          rw [hc] at hchild
          exact absurd hchild (by cases b2 <;> simp [pathToLeaf])
        | .comp c1 lv1 l1 r1 =>
          rw [hc] at hchild
          have := ih (.comp c1 lv1 l1 r1) v rest out hchild (by simp)
          constructor
          · intro hne
            rw [List.cons_append, show decodeWalk root (.comp c0 lv l r)
              (b :: ((b2 :: bs2) ++ rest)) out = decodeWalk root (.comp c1 lv1 l1 r1)
              ((b2 :: bs2) ++ rest) out from by
                simp only [decodeWalk, hc]]
            exact this.1 hne
          · intro heq
            rw [List.cons_append, show decodeWalk root (.comp c0 lv l r)
              (b :: ((b2 :: bs2) ++ rest)) out = decodeWalk root (.comp c1 lv1 l1 r1)
              ((b2 :: bs2) ++ rest) out from by
                simp only [decodeWalk, hc]]
            exact this.2 heq

/-- Decoding the concatenated codes of a byte list consumes them all,
emitting the bytes. -/
theorem decodeWalk_multi (root : HTree) (code : Nat → List Bool) :
    ∀ (xs : List Nat) (rest : List Bool) (out : List Nat),
    (∀ c ∈ xs, pathToLeaf root (code c) c ∧ code c ≠ [] ∧ c ≠ EOF_CHAR) →
    decodeWalk root root ((xs.map code).flatten ++ rest) out
      = decodeWalk root root rest (xs.reverse ++ out) := by
  intro xs
  induction xs with
  | nil => intro rest out _; simp
  | cons x xs ih =>
    intro rest out hall
    obtain ⟨hp, hne, hneof⟩ := hall x (by simp)
    simp only [List.map_cons, List.flatten_cons, List.append_assoc]
    rw [(decodeWalk_one root (code x) root x _ out hp hne).1 hneof]
    rw [ih _ (x :: out) (by intro c hc; exact hall c (by simp [hc]))]
    simp

/-! ### Canonical Huffman code (chuffman.c) -/

/-- An entry of `canonical_list_t`: symbol value, code length, and the
256-bit left-justified code, read as a big-endian natural number below
2^256 (`NULL` is `none`). -/
structure CEntry where
  value : Nat
  codeLen : Nat
  code : Option Nat
deriving DecidableEq

/-- Modulus of a 256-bit `bit_array_t`. -/
def B256 : Nat := 2 ^ 256

/-- Sum of `2^(256 - codeLen)` over a list of entries: the total "interval
width" of their codes, scaled to 256 bits. -/
def S256 (l : List CEntry) : Nat := (l.map (fun e => 2 ^ (256 - e.codeLen))).sum

theorem S256_nil : S256 [] = 0 := rfl

theorem S256_cons (e : CEntry) (l : List CEntry) :
    S256 (e :: l) = 2 ^ (256 - e.codeLen) + S256 l := by
  simp [S256]

/-- The loop of `AssignCanonicalCodes` (chuffman.c).  The C loop runs from
index NUM_CHARS-1 down to 0 over the (len, value)-sorted list; here it
receives the reversed list and processes it front-first, which is the same
order.  It breaks at the first zero-length entry; otherwise, when the
current length is shorter than the previous one it right-shifts the
accumulator by the difference, then stores the accumulator left-justified
(shifted left by `256 - length` in the 256-bit array) and increments it. -/
def assignStep : Nat → Nat → List CEntry → List CEntry
  | _, _, [] => []
  | acc, length, e :: rest =>
    if e.codeLen = 0 then e :: rest
    else
      (CEntry.mk e.value e.codeLen
        (some ((if e.codeLen < length then acc / 2 ^ (length - e.codeLen) else acc)
          * 2 ^ (256 - (if e.codeLen < length then e.codeLen else length)) % B256)))
        :: assignStep
            (((if e.codeLen < length then acc / 2 ^ (length - e.codeLen) else acc) + 1) % B256)
            (if e.codeLen < length then e.codeLen else length) rest

/-- `AssignCanonicalCodes` (chuffman.c): `length` starts as the code length
of entry NUM_CHARS-1 (the last, longest one), and the loop walks backwards
over the list. -/
def assignCanonicalCodes (cl : List CEntry) : List CEntry :=
  (assignStep 0 (((cl.get? (NUM_CHARS - 1)).getD (CEntry.mk 0 0 none)).codeLen)
    cl.reverse).reverse

/-- Functional description of the codes the loop hands out: the entry at
position `k` (in the processed, longest-first order) receives the 256-bit
value `2^256` minus the suffix interval sum starting at `k`. -/
def canonSpec : List CEntry → List CEntry
  | [] => []
  | e :: rest =>
      CEntry.mk e.value e.codeLen (some (B256 - S256 (e :: rest))) :: canonSpec rest

/-- Each power dividing condition: if all code lengths in `l` are at most
`L ≤ 256`, then `2^(256-L)` divides the interval sum of `l`. -/
theorem pow_dvd_S256 {l : List CEntry} {L : Nat} (hL : L ≤ 256)
    (h : ∀ e ∈ l, e.codeLen ≤ L) : 2 ^ (256 - L) ∣ S256 l := by
  induction l with
  | nil => simp [S256]
  | cons e rest ih =>
    rw [S256_cons]
    refine Nat.dvd_add ?_ (ih (by intro x hx; exact h x (by simp [hx])))
    exact pow_dvd_pow 2 (by have := h e (by simp); omega)

/-- The assignment loop computes exactly `canonSpec` on a longest-first list
of nonzero lengths whose interval sums tile `2^256` exactly from the
incoming accumulator state, and leaves everything from the first
zero-length entry on untouched. -/
theorem assignStep_spec : ∀ (ds rest : List CEntry) (acc length : Nat),
    List.Pairwise (fun a b : CEntry => b.codeLen ≤ a.codeLen) ds →
    (∀ e ∈ ds, 1 ≤ e.codeLen ∧ e.codeLen ≤ 255) →
    (∀ e ∈ ds, e.codeLen ≤ length) →
    length ≤ 256 →
    acc * 2 ^ (256 - length) + S256 ds = B256 →
    (rest = [] ∨ ∃ z zs, rest = z :: zs ∧ z.codeLen = 0) →
    assignStep acc length (ds ++ rest) = canonSpec ds ++ rest := by
  intro ds
  induction ds with
  | nil =>
    intro rest acc length _ _ _ _ _ hrest
    rcases hrest with rfl | ⟨z, zs, rfl, hz⟩
    · rfl
    · simp [assignStep, hz, canonSpec]
  | cons e ds ih =>
    intro rest acc length hsort hlen hle hL hexact hrest
    have he1 : 1 ≤ e.codeLen := (hlen e (by simp)).1
    have he255 : e.codeLen ≤ 255 := (hlen e (by simp)).2
    have heL : e.codeLen ≤ length := hle e (by simp)
    have hpc := List.pairwise_cons.1 hsort
    -- the exact division of the accumulator by the length drop
    have hdvd : 2 ^ (256 - e.codeLen) ∣ acc * 2 ^ (256 - length) := by
      have h1 : 2 ^ (256 - e.codeLen) ∣ B256 :=
        pow_dvd_pow 2 (by omega)
      have h2 : 2 ^ (256 - e.codeLen) ∣ S256 (e :: ds) := by
        apply pow_dvd_S256 (by omega)
        intro x hx
        rcases List.mem_cons.1 hx with rfl | hx
        · exact le_refl _
        · exact hpc.1 x hx
      have h3 : acc * 2 ^ (256 - length) = B256 - S256 (e :: ds) := by omega
      rw [h3]
      exact Nat.dvd_sub' h1 h2
    have hacc2 : (if e.codeLen < length then acc / 2 ^ (length - e.codeLen) else acc)
        * 2 ^ (256 - e.codeLen) = acc * 2 ^ (256 - length) := by
      by_cases hc : e.codeLen < length
      · rw [if_pos hc]
        have hsplit : 2 ^ (256 - e.codeLen)
            = 2 ^ (256 - length) * 2 ^ (length - e.codeLen) := by
          rw [← pow_add]
          congr 1
          omega
        have hdvd' : 2 ^ (length - e.codeLen) ∣ acc := by
          -- cancel the common factor 2^(256-length)
          rcases hdvd with ⟨k, hk⟩
          rw [hsplit] at hk
          have hpos : 0 < 2 ^ (256 - length) := Nat.pos_pow_of_pos _ (by omega)
          have : acc = 2 ^ (length - e.codeLen) * k := by
            have h2 : acc * 2 ^ (256 - length)
                = (2 ^ (length - e.codeLen) * k) * 2 ^ (256 - length) := by
              rw [hk]; ring
            exact Nat.eq_of_mul_eq_mul_right hpos h2
          exact ⟨k, this⟩
        rcases hdvd' with ⟨k, hk⟩
        rw [hk, Nat.mul_div_cancel_left _ (Nat.pos_pow_of_pos _ (by omega)), hsplit]
        ring
      · rw [if_neg hc]
        have : length = e.codeLen := by omega
        rw [this]
    have hS : S256 (e :: ds) ≤ B256 := by omega
    have hcode : (if e.codeLen < length then acc / 2 ^ (length - e.codeLen) else acc)
        * 2 ^ (256 - (if e.codeLen < length then e.codeLen else length)) % B256
        = B256 - S256 (e :: ds) := by
      have hlen2 : (if e.codeLen < length then e.codeLen else length) = e.codeLen := by
        by_cases hc : e.codeLen < length
        · rw [if_pos hc]
        · rw [if_neg hc]; omega
      rw [hlen2, hacc2]
      have hpos : 0 < S256 (e :: ds) := by
        rw [S256_cons]
        have : 0 < 2 ^ (256 - e.codeLen) := Nat.pos_pow_of_pos _ (by omega)
        omega
      have h3 : acc * 2 ^ (256 - length) = B256 - S256 (e :: ds) := by omega
      rw [h3]
      apply Nat.mod_eq_of_lt
      omega
    have hne : ¬ e.codeLen = 0 := by omega
    show assignStep acc length ((e :: ds) ++ rest) = canonSpec (e :: ds) ++ rest
    rw [List.cons_append]
    rw [show assignStep acc length (e :: (ds ++ rest))
        = (CEntry.mk e.value e.codeLen
            (some ((if e.codeLen < length then acc / 2 ^ (length - e.codeLen) else acc)
              * 2 ^ (256 - (if e.codeLen < length then e.codeLen else length)) % B256)))
          :: assignStep
            (((if e.codeLen < length then acc / 2 ^ (length - e.codeLen) else acc) + 1) % B256)
            (if e.codeLen < length then e.codeLen else length) (ds ++ rest) from by
          simp [assignStep, hne]]
    rw [hcode]
    have hlen2 : (if e.codeLen < length then e.codeLen else length) = e.codeLen := by
      by_cases hc : e.codeLen < length
      · rw [if_pos hc]
      · rw [if_neg hc]; omega
    rw [hlen2]
    -- re-establish the invariant for the tail
    have hacc1mod : ((if e.codeLen < length then acc / 2 ^ (length - e.codeLen) else acc) + 1)
        % B256
        = (if e.codeLen < length then acc / 2 ^ (length - e.codeLen) else acc) + 1 := by
      apply Nat.mod_eq_of_lt
      have h1 : ((if e.codeLen < length then acc / 2 ^ (length - e.codeLen) else acc) + 1)
          * 2 ^ (256 - e.codeLen)
          = acc * 2 ^ (256 - length) + 2 ^ (256 - e.codeLen) := by
        rw [Nat.add_mul, hacc2, one_mul]
      have h2 : acc * 2 ^ (256 - length) + 2 ^ (256 - e.codeLen) ≤ B256 := by
        rw [S256_cons] at hexact
        omega
      have hp2 : 2 ≤ 2 ^ (256 - e.codeLen) := by
        calc 2 = 2 ^ 1 := rfl
        _ ≤ 2 ^ (256 - e.codeLen) := Nat.pow_le_pow_right (by omega) (by omega)
      have h6 : ((if e.codeLen < length then acc / 2 ^ (length - e.codeLen) else acc) + 1) * 2
          ≤ B256 := by
        calc ((if e.codeLen < length then acc / 2 ^ (length - e.codeLen) else acc) + 1) * 2
            ≤ ((if e.codeLen < length then acc / 2 ^ (length - e.codeLen) else acc) + 1)
              * 2 ^ (256 - e.codeLen) := Nat.mul_le_mul_left _ hp2
          _ = acc * 2 ^ (256 - length) + 2 ^ (256 - e.codeLen) := h1
          _ ≤ B256 := h2
      have hB : 0 < B256 := Nat.pos_pow_of_pos _ (by omega)
      omega
    rw [hacc1mod]
    rw [ih rest _ e.codeLen hpc.2
      (by intro x hx; exact hlen x (by simp [hx]))
      (by intro x hx; exact hpc.1 x hx)
      (by omega)
      (by
        rw [Nat.add_mul, hacc2, one_mul]
        rw [S256_cons] at hexact
        omega)
      hrest]
    rfl

theorem canonSpec_length (ds : List CEntry) : (canonSpec ds).length = ds.length := by
  induction ds with
  | nil => rfl
  | cons e rest ih => simp [canonSpec, ih]

theorem S256_append (a b : List CEntry) : S256 (a ++ b) = S256 a + S256 b := by
  simp [S256]

/-- The entry at position `k` of `canonSpec ds` keeps its value and length and
receives the code `2^256` minus the interval sum of the suffix from `k`. -/
theorem canonSpec_get? : ∀ (ds : List CEntry) (k : Nat) (e : CEntry),
    ds.get? k = some e →
    (canonSpec ds).get? k
      = some (CEntry.mk e.value e.codeLen (some (B256 - S256 (ds.drop k)))) := by
  intro ds
  induction ds with
  | nil => intro k e h; simp at h
  | cons x rest ih =>
    intro k e h
    cases k with
    | zero =>
      simp only [List.get?] at h
      injection h with h
      subst h
      rfl
    | succ n =>
      simp only [List.get?] at h
      show (canonSpec (x :: rest)).get? (n + 1) = _
      simp only [canonSpec, List.get?]
      rw [ih n e h]
      rfl

theorem S256_drop_succ {ds : List CEntry} {k : Nat} {e : CEntry}
    (h : ds.get? k = some e) :
    S256 (ds.drop k) = 2 ^ (256 - e.codeLen) + S256 (ds.drop (k + 1)) := by
  have hk : k < ds.length := get?_lt_length h
  have hdrop : ds.drop k = ds.get ⟨k, hk⟩ :: ds.drop (k + 1) := by
    rw [List.drop_eq_getElem_cons hk]
    rfl
  have hget : ds.get ⟨k, hk⟩ = e := by
    have := List.get?_eq_get hk
    rw [this] at h
    injection h
  rw [hdrop, hget, S256_cons]

theorem S256_drop_mono (ds : List CEntry) {i j : Nat} (h : i ≤ j) :
    S256 (ds.drop j) ≤ S256 (ds.drop i) := by
  have hsplit : ds.drop i = (ds.drop i).take (j - i) ++ ds.drop j := by
    have h1 : (ds.drop i).drop (j - i) = ds.drop j := by
      rw [List.drop_drop]
      congr 1
      omega
    conv_lhs => rw [← List.take_append_drop (j - i) (ds.drop i)]
    rw [h1]
  rw [hsplit, S256_append]
  omega

/-- In a list sorted by descending code length, the entry at position `j`
dominates every entry of the suffix starting at `j`. -/
theorem sorted_drop_head_le : ∀ (ds : List CEntry) (j : Nat) (b : CEntry),
    List.Pairwise (fun a b : CEntry => b.codeLen ≤ a.codeLen) ds →
    ds.get? j = some b →
    ∀ e ∈ ds.drop j, e.codeLen ≤ b.codeLen := by
  intro ds
  induction ds with
  | nil => intro j b _ h; simp at h
  | cons x rest ih =>
    intro j b hsort h
    have hpc := List.pairwise_cons.1 hsort
    cases j with
    | zero =>
      simp only [List.get?] at h
      injection h with h
      subst h
      intro e he
      simp only [List.drop] at he
      rcases List.mem_cons.1 he with rfl | he
      · exact le_refl _
      · exact hpc.1 e he
    | succ n =>
      simp only [List.get?] at h
      intro e he
      exact ih n b hpc.2 h e he

/-- Ordered pairs of `canonSpec` output on a descending, exactly-bounded list:
the later (shorter) entry's code is larger even after discarding the bits
beyond its own length, and is aligned to its length. -/
theorem canonSpec_pairs {ds : List CEntry}
    (hsort : List.Pairwise (fun a b : CEntry => b.codeLen ≤ a.codeLen) ds)
    (hlen : ∀ e ∈ ds, 1 ≤ e.codeLen ∧ e.codeLen ≤ 255)
    (hS : S256 ds ≤ B256) :
    ∀ i j a b, i < j →
      (canonSpec ds).get? i = some a → (canonSpec ds).get? j = some b →
      b.codeLen ≤ a.codeLen ∧ a.codeLen ≤ 255 ∧ 1 ≤ b.codeLen ∧
      ∃ ca cb, a.code = some ca ∧ b.code = some cb ∧
        ca < B256 ∧ cb < B256 ∧
        2 ^ (256 - b.codeLen) ∣ cb ∧
        ca / 2 ^ (256 - b.codeLen) < cb / 2 ^ (256 - b.codeLen) := by
  intro i j a b hij ha hb
  -- recover the source entries
  have hia : i < ds.length := by
    have := get?_lt_length ha
    rwa [canonSpec_length] at this
  have hjb : j < ds.length := by
    have := get?_lt_length hb
    rwa [canonSpec_length] at this
  obtain ⟨ea, hea⟩ : ∃ ea, ds.get? i = some ea :=
    ⟨ds.get ⟨i, hia⟩, List.get?_eq_get hia⟩
  obtain ⟨eb, heb⟩ : ∃ eb, ds.get? j = some eb :=
    ⟨ds.get ⟨j, hjb⟩, List.get?_eq_get hjb⟩
  rw [canonSpec_get? ds i ea hea] at ha
  rw [canonSpec_get? ds j eb heb] at hb
  injection ha with ha
  injection hb with hb
  subst ha
  subst hb
  have hma : ea ∈ ds := List.get?_mem hea
  have hmb : eb ∈ ds := List.get?_mem heb
  have hba : eb.codeLen ≤ ea.codeLen := by
    have hd := sorted_drop_head_le ds i ea hsort hea
    apply hd
    have : ds.drop i = ds.get ⟨i, hia⟩ :: ds.drop (i + 1) := by
      rw [List.drop_eq_getElem_cons hia]; rfl
    rw [this]
    have h2 : (i + 1 : Nat) ≤ j := hij
    have h3 : eb ∈ ds.drop (i + 1) := by
      have h4 : S256 (ds.drop (i+1)) = S256 (ds.drop (i+1)) := rfl
      -- membership: eb is at position j - (i+1) of the suffix
      have h5 : (ds.drop (i + 1)).get? (j - (i + 1)) = some eb := by
        rw [List.get?_drop]
        have : i + 1 + (j - (i + 1)) = j := by omega
        rw [this]
        exact heb
      exact List.get?_mem h5
    exact List.mem_cons_of_mem _ h3
  refine ⟨hba, (hlen ea hma).2, (hlen eb hmb).1, ?_⟩
  -- sums of the two suffixes
  have hSi : S256 (ds.drop i) = 2 ^ (256 - ea.codeLen) + S256 (ds.drop (i + 1)) :=
    S256_drop_succ hea
  have hSj_le : S256 (ds.drop j) ≤ S256 (ds.drop (i + 1)) :=
    S256_drop_mono ds (by omega)
  have hSi_le : S256 (ds.drop i) ≤ B256 := by
    have := S256_drop_mono ds (Nat.zero_le i)
    simp only [List.drop] at this
    omega
  have hSjpos : 0 < S256 (ds.drop j) := by
    rw [S256_drop_succ heb]
    have : 0 < 2 ^ (256 - eb.codeLen) := Nat.pos_pow_of_pos _ (by omega)
    omega
  have hSipos : 0 < S256 (ds.drop i) := by
    rw [hSi]
    have : 0 < 2 ^ (256 - ea.codeLen) := Nat.pos_pow_of_pos _ (by omega)
    omega
  have hB : 0 < B256 := Nat.pos_pow_of_pos _ (by omega)
  have hdvd : 2 ^ (256 - eb.codeLen) ∣ (B256 - S256 (ds.drop j)) := by
    apply Nat.dvd_sub'
    · exact pow_dvd_pow 2 (by have := (hlen eb hmb).1; omega)
    · apply pow_dvd_S256 (by have := (hlen eb hmb).2; omega)
      exact sorted_drop_head_le ds j eb hsort heb
  have hquot : (B256 - S256 (ds.drop i)) / 2 ^ (256 - eb.codeLen)
      < (B256 - S256 (ds.drop j)) / 2 ^ (256 - eb.codeLen) := by
    have hpos : 0 < 2 ^ (256 - ea.codeLen) := Nat.pos_pow_of_pos _ (by omega)
    have hlt : (B256 - S256 (ds.drop i)) < B256 - S256 (ds.drop j) := by omega
    rcases hdvd with ⟨q, hq⟩
    have hdpos : 0 < 2 ^ (256 - eb.codeLen) := Nat.pos_pow_of_pos _ (by omega)
    rw [hq, Nat.mul_div_cancel_left _ hdpos]
    rw [Nat.div_lt_iff_lt_mul hdpos]
    rw [mul_comm, ← hq]
    exact hlt
  show ∃ ca cb, (some (B256 - S256 (ds.drop i)) : Option Nat) = some ca ∧
      (some (B256 - S256 (ds.drop j)) : Option Nat) = some cb ∧
      ca < B256 ∧ cb < B256 ∧
      2 ^ (256 - eb.codeLen) ∣ cb ∧
      ca / 2 ^ (256 - eb.codeLen) < cb / 2 ^ (256 - eb.codeLen)
  exact ⟨B256 - S256 (ds.drop i), B256 - S256 (ds.drop j), rfl, rfl,
    Nat.sub_lt hB hSipos, Nat.sub_lt hB hSjpos, hdvd, hquot⟩

/-! ### Bits of a 256-bit left-justified code -/

/-- `BitArrayTestBit` on the 256-bit code array: bit `i` counts from the most
significant end (bit 0 is written first by `BitFilePutBits`). -/
def natBit256 (c i : Nat) : Bool := decide ((c / 2 ^ (255 - i)) % 2 = 1)

/-- The first `len` bits of a 256-bit code array, in emission order. -/
def codeBits (c len : Nat) : List Bool := (List.range len).map (natBit256 c)

/-- The bit string a canonical list entry contributes to the stream. -/
def cBits (e : CEntry) : List Bool := codeBits (e.code.getD 0) e.codeLen

theorem codeBits_length (c len : Nat) : (codeBits c len).length = len := by
  simp [codeBits]

theorem codeBits_get? {c len i : Nat} (h : i < len) :
    (codeBits c len).get? i = some (natBit256 c i) := by
  show ((List.range len).map (natBit256 c)).get? i = some (natBit256 c i)
  rw [List.get?_map, List.get?_range h]
  rfl

/-- Sharing the first `k` bits forces equal quotients by `2^(256-k)` (both
codes being 256-bit values). -/
theorem div_eq_of_bits_eq : ∀ (k : Nat), k ≤ 256 → ∀ (ca cb : Nat),
    ca < B256 → cb < B256 →
    (∀ i, i < k → natBit256 ca i = natBit256 cb i) →
    ca / 2 ^ (256 - k) = cb / 2 ^ (256 - k) := by
  intro k
  induction k with
  | zero =>
    intro _ ca cb hca hcb _
    show ca / B256 = cb / B256
    rw [Nat.div_eq_of_lt hca, Nat.div_eq_of_lt hcb]
  | succ k ih =>
    intro hk ca cb hca hcb hbits
    have hq := ih (by omega) ca cb hca hcb (by intro i hi; exact hbits i (by omega))
    have hm : 256 - (k + 1) = 255 - k := by omega
    rw [hm]
    have hsplit : ∀ c : Nat, c / 2 ^ (255 - k)
        = 2 * (c / 2 ^ (256 - k)) + (c / 2 ^ (255 - k)) % 2 := by
      intro c
      have hd : c / 2 ^ (255 - k) / 2 = c / 2 ^ (256 - k) := by
        rw [Nat.div_div_eq_div_mul]
        congr 1
        rw [← pow_succ]
        congr 1
        omega
      omega
    rw [hsplit ca, hsplit cb, hq]
    have hbit := hbits k (by omega)
    simp only [natBit256, decide_eq_decide] at hbit
    have h2a : ca / 2 ^ (255 - k) % 2 < 2 := Nat.mod_lt _ (by omega)
    have h2b : cb / 2 ^ (255 - k) % 2 < 2 := Nat.mod_lt _ (by omega)
    omega

/-- Equal quotients by `2^(256-k)` force equal first `k` bits. -/
theorem bits_eq_of_div {k ca cb : Nat} (hk : k ≤ 256)
    (h : ca / 2 ^ (256 - k) = cb / 2 ^ (256 - k)) :
    ∀ i, i < k → natBit256 ca i = natBit256 cb i := by
  intro i hi
  have hsplit : ∀ c : Nat, c / 2 ^ (255 - i)
      = c / 2 ^ (256 - k) / 2 ^ (k - 1 - i) := by
    intro c
    rw [Nat.div_div_eq_div_mul, ← pow_add]
    congr 2
    omega
  simp only [natBit256]
  rw [hsplit ca, hsplit cb, h]

/-- Distinct quotients at the shorter length rule out a prefix relation in
either direction between the two emitted bit strings. -/
theorem no_pre_of_div_ne {ca cb la lb : Nat} (hba : lb ≤ la) (h256 : la ≤ 256)
    (hca : ca < B256) (hcb : cb < B256)
    (hne : ca / 2 ^ (256 - lb) ≠ cb / 2 ^ (256 - lb)) :
    ¬ listPre (codeBits ca la) (codeBits cb lb) ∧
    ¬ listPre (codeBits cb lb) (codeBits ca la) := by
  have hbits : ¬ (∀ i, i < lb → natBit256 ca i = natBit256 cb i) := by
    intro hb
    exact hne (div_eq_of_bits_eq lb (by omega) ca cb hca hcb hb)
  constructor
  · intro hpre
    apply hbits
    intro i hi
    -- the take equality forces la ≤ lb, hence la = lb, and pointwise agreement
    have hlen : la ≤ lb := by
      have := congrArg List.length hpre
      simp only [List.length_take, codeBits_length] at this
      omega
    have hla : la = lb := by omega
    subst hla
    have hg : ((codeBits cb la).take ((codeBits ca la).length)).get? i
        = (codeBits ca la).get? i := by rw [hpre]
    rw [List.get?_take (show i < (codeBits ca la).length by
      rw [codeBits_length]; exact hi)] at hg
    rw [codeBits_get? hi, codeBits_get? hi] at hg
    exact (Option.some.inj hg).symm
  · intro hpre
    apply hbits
    intro i hi
    have hg : ((codeBits ca la).take ((codeBits cb lb).length)).get? i
        = (codeBits cb lb).get? i := by rw [hpre]
    rw [List.get?_take (show i < (codeBits cb lb).length by
      rw [codeBits_length]; exact hi)] at hg
    rw [codeBits_get? (show i < la by omega), codeBits_get? hi] at hg
    exact Option.some.inj hg

/-- Prefix-freeness of the canonical assignment: any two distinct entries of
`canonSpec` on a descending, bounded list of positive lengths with interval
sum at most `2^256` have bit strings that are not prefixes of one another. -/
theorem canonSpec_no_pre {ds : List CEntry}
    (hsort : List.Pairwise (fun a b : CEntry => b.codeLen ≤ a.codeLen) ds)
    (hlen : ∀ e ∈ ds, 1 ≤ e.codeLen ∧ e.codeLen ≤ 255)
    (hS : S256 ds ≤ B256) :
    ∀ i j a b, i < j →
      (canonSpec ds).get? i = some a → (canonSpec ds).get? j = some b →
      ¬ listPre (cBits a) (cBits b) ∧ ¬ listPre (cBits b) (cBits a) := by
  intro i j a b hij ha hb
  obtain ⟨hba, h255, hb1, ca, cb, hca, hcb, hcaB, hcbB, _, hlt⟩ :=
    canonSpec_pairs hsort hlen hS i j a b hij ha hb
  have hres : ¬ listPre (codeBits ca a.codeLen) (codeBits cb b.codeLen) ∧
      ¬ listPre (codeBits cb b.codeLen) (codeBits ca a.codeLen) :=
    no_pre_of_div_ne hba (by omega) hcaB hcbB (by omega)
  simp only [cBits, hca, hcb, Option.getD] at *
  exact hres

/-! ### BuildCanonicalCode: code lengths from the tree -/

/-- The code-length extraction of `BuildCanonicalCode` (chuffman.c): the
left-first traversal records each leaf's depth, with the one-symbol-tree
fix `if (depth == 0) depth++` applied at a leaf reached at depth 0 (which
can only be the root). -/
def canonWalkLens : HTree → Nat → List (Nat × Nat)
  | .leaf v _, d => [(v, if d = 0 then 1 else d)]
  | .comp _ _ l r, d => canonWalkLens l (d + 1) ++ canonWalkLens r (d + 1)

theorem canonWalkLens_fst (t : HTree) : ∀ d,
    (canonWalkLens t d).map Prod.fst = t.leafSeq.map Prod.fst := by
  induction t with
  | leaf v c => intro d; rfl
  | comp c lv l r ihl ihr =>
    intro d
    simp [canonWalkLens, HTree.leafSeq, ihl, ihr]

theorem canonWalkLens_bounds : ∀ (t : HTree), wfTree t → ∀ d, 1 ≤ d →
    ∀ p ∈ canonWalkLens t d, d ≤ p.2 ∧ p.2 ≤ d + t.level := by
  intro t
  induction t with
  | leaf v c =>
    intro _ d hd p hp
    simp only [canonWalkLens, List.mem_singleton] at hp
    subst hp
    show d ≤ (if d = 0 then 1 else d) ∧ (if d = 0 then 1 else d) ≤ d + _
    rw [if_neg (by omega)]
    omega
  | comp c lv l r ihl ihr =>
    intro hwf d hd p hp
    rcases hwf with ⟨_, hlv, hwl, hwr⟩
    simp only [canonWalkLens, List.mem_append] at hp
    show d ≤ p.2 ∧ p.2 ≤ d + lv
    rcases hp with hp | hp
    · have h1 := ihl hwl (d + 1) (by omega) p hp
      have h2 : l.level ≤ max l.level r.level := Nat.le_max_left _ _
      omega
    · have h1 := ihr hwr (d + 1) (by omega) p hp
      have h2 : r.level ≤ max l.level r.level := Nat.le_max_right _ _
      omega

theorem canonWalkLens_bounds_root (t : HTree) (hwf : wfTree t) :
    ∀ p ∈ canonWalkLens t 0, 1 ≤ p.2 ∧ p.2 ≤ max t.level 1 := by
  cases t with
  | leaf v c =>
    intro p hp
    simp only [canonWalkLens, List.mem_singleton] at hp
    subst hp
    show 1 ≤ (if (0 : Nat) = 0 then 1 else 0) ∧ (if (0 : Nat) = 0 then 1 else 0) ≤ _
    rw [if_pos rfl]
    exact ⟨le_refl 1, Nat.le_max_right _ _⟩
  | comp c lv l r =>
    intro p hp
    rcases hwf with ⟨_, hlv, hwl, hwr⟩
    simp only [canonWalkLens, List.mem_append] at hp
    have hmax : lv ≤ max lv 1 := Nat.le_max_left _ _
    rcases hp with hp | hp
    · have h1 := canonWalkLens_bounds l hwl 1 (le_refl 1) p hp
      have h2 : l.level ≤ max l.level r.level := Nat.le_max_left _ _
      constructor
      · omega
      · show p.2 ≤ max lv 1
        omega
    · have h1 := canonWalkLens_bounds r hwr 1 (le_refl 1) p hp
      have h2 : r.level ≤ max l.level r.level := Nat.le_max_right _ _
      constructor
      · omega
      · show p.2 ≤ max lv 1
        omega

/-- Kraft equality for the extracted code lengths: starting at depth
`d ≥ 1`, the scaled interval widths of the leaves below sum to the full
interval of depth `d`. -/
theorem kraft_canonWalk : ∀ (t : HTree), wfTree t → ∀ (d : Nat), 1 ≤ d →
    d + t.level ≤ 256 →
    ((canonWalkLens t d).map (fun p => 2 ^ (256 - p.2))).sum = 2 ^ (256 - d) := by
  intro t
  induction t with
  | leaf v c =>
    intro _ d hd _
    simp only [canonWalkLens, List.map_cons, List.map_nil, List.sum_cons,
      List.sum_nil, Nat.add_zero]
    rw [if_neg (by omega)]
  | comp c lv l r ihl ihr =>
    intro hwf d hd h256
    rcases hwf with ⟨_, hlv, hwl, hwr⟩
    have hlev : (HTree.comp c lv l r).level = lv := rfl
    rw [hlev] at h256
    have h2 : l.level ≤ max l.level r.level := Nat.le_max_left _ _
    have h3 : r.level ≤ max l.level r.level := Nat.le_max_right _ _
    show ((canonWalkLens l (d + 1) ++ canonWalkLens r (d + 1)).map
      (fun p => 2 ^ (256 - p.2))).sum = 2 ^ (256 - d)
    rw [List.map_append, List.sum_append]
    rw [ihl hwl (d + 1) (by omega) (by omega), ihr hwr (d + 1) (by omega) (by omega)]
    have hde : 256 - d = (256 - (d + 1)) + 1 := by omega
    rw [hde, pow_succ]
    omega

/-- At the root of a composite tree the Kraft sum is exactly `2^256`. -/
theorem kraft_canonWalk_root {c lv : Nat} {l r : HTree}
    (hwf : wfTree (.comp c lv l r)) (h256 : lv ≤ 256) :
    ((canonWalkLens (.comp c lv l r) 0).map (fun p => 2 ^ (256 - p.2))).sum
      = B256 := by
  rcases hwf with ⟨_, hlv, hwl, hwr⟩
  have h2 : l.level ≤ max l.level r.level := Nat.le_max_left _ _
  have h3 : r.level ≤ max l.level r.level := Nat.le_max_right _ _
  show ((canonWalkLens l 1 ++ canonWalkLens r 1).map
    (fun p => 2 ^ (256 - p.2))).sum = B256
  rw [List.map_append, List.sum_append]
  rw [kraft_canonWalk l hwl 1 (le_refl 1) (by omega),
      kraft_canonWalk r hwr 1 (le_refl 1) (by omega)]
  show 2 ^ 255 + 2 ^ 255 = B256
  have hb : B256 = 2 ^ 255 * 2 := by
    show (2 : Nat) ^ 256 = 2 ^ 255 * 2
    rw [← pow_succ]
  omega

/-! ### The canonical list: initialization and length fill -/

/-- The `canonical_list_t` initialization loop: `cl[i].value = i`,
`cl[i].codeLen = 0`, `cl[i].code = NULL` for `i < NUM_CHARS`. -/
def initCanonList : List CEntry :=
  (List.range NUM_CHARS).map (fun i => CEntry.mk i 0 none)

/-- One header/traversal store `cl[v].codeLen = d` on the array. -/
def setCodeLen (cl : List CEntry) (v d : Nat) : List CEntry :=
  match cl.get? v with
  | some e => cl.set v (CEntry.mk e.value d e.code)
  | none => cl

/-- Fold all `cl[value].codeLen = len` stores of a traversal result. -/
def fillLens (cl : List CEntry) (ls : List (Nat × Nat)) : List CEntry :=
  ls.foldl (fun acc p => setCodeLen acc p.1 p.2) cl

/-- The code length a traversal result assigns to symbol `v` (0 if the
symbol does not occur). -/
def lensFun (ls : List (Nat × Nat)) (v : Nat) : Nat :=
  ((ls.find? (fun p => p.1 == v)).map Prod.snd).getD 0

theorem setCodeLen_length (cl : List CEntry) (v d : Nat) :
    (setCodeLen cl v d).length = cl.length := by
  unfold setCodeLen
  cases cl.get? v <;> simp

theorem fillLens_length (ls : List (Nat × Nat)) : ∀ (cl : List CEntry),
    (fillLens cl ls).length = cl.length := by
  induction ls with
  | nil => intro cl; rfl
  | cons p rest ih =>
    intro cl
    show (fillLens (setCodeLen cl p.1 p.2) rest).length = cl.length
    rw [ih, setCodeLen_length]

theorem setCodeLen_get?_ne {cl : List CEntry} {v d i : Nat} (h : i ≠ v) :
    (setCodeLen cl v d).get? i = cl.get? i := by
  unfold setCodeLen
  cases cl.get? v with
  | none => rfl
  | some e => rw [List.get?_set_ne _ _ (fun he => h he.symm)]

theorem setCodeLen_get?_self {cl : List CEntry} {v d : Nat} {e : CEntry}
    (h : cl.get? v = some e) :
    (setCodeLen cl v d).get? v = some (CEntry.mk e.value d e.code) := by
  unfold setCodeLen
  rw [h]
  exact List.get?_set_eq_of_lt _ (get?_lt_length h)

theorem fillLens_get?_notmem : ∀ (ls : List (Nat × Nat)) (cl : List CEntry)
    (i : Nat), (∀ p ∈ ls, p.1 ≠ i) → (fillLens cl ls).get? i = cl.get? i := by
  intro ls
  induction ls with
  | nil => intro cl i _; rfl
  | cons p rest ih =>
    intro cl i h
    show (fillLens (setCodeLen cl p.1 p.2) rest).get? i = cl.get? i
    rw [ih _ i (by intro q hq; exact h q (by simp [hq]))]
    exact setCodeLen_get?_ne (fun he => h p (by simp) he.symm)

theorem fillLens_get?_mem : ∀ (ls : List (Nat × Nat)) (cl : List CEntry)
    (v d : Nat) (e : CEntry), (ls.map Prod.fst).Nodup → (v, d) ∈ ls →
    cl.get? v = some e →
    (fillLens cl ls).get? v = some (CEntry.mk e.value d e.code) := by
  intro ls
  induction ls with
  | nil => intro cl v d e _ hm; simp at hm
  | cons p rest ih =>
    intro cl v d e hnd hm hget
    rw [List.map_cons] at hnd
    have hndc := List.nodup_cons.1 hnd
    rcases List.mem_cons.1 hm with rfl | hm
    · show (fillLens (setCodeLen cl v d) rest).get? v = _
      rw [fillLens_get?_notmem rest _ v (by
        intro q hq he
        exact hndc.1 (he ▸ List.mem_map.2 ⟨q, hq, rfl⟩))]
      exact setCodeLen_get?_self hget
    · have hvne : p.1 ≠ v := by
        intro he
        apply hndc.1
        rw [he]
        exact List.mem_map.2 ⟨(v, d), hm, rfl⟩
      show (fillLens (setCodeLen cl p.1 p.2) rest).get? v = _
      exact ih _ v d e hndc.2 hm (by rw [setCodeLen_get?_ne (fun he => hvne he.symm)]; exact hget)

/-- A `find?` on the first components returns the unique pair. -/
theorem find?_of_mem_nodup {β : Type} : ∀ (ls : List (Nat × β)) (v : Nat) (d : β),
    (ls.map Prod.fst).Nodup → (v, d) ∈ ls →
    ls.find? (fun p => p.1 == v) = some (v, d) := by
  intro ls
  induction ls with
  | nil => intro v d _ hm; simp at hm
  | cons p rest ih =>
    intro v d hnd hm
    rw [List.map_cons] at hnd
    have hndc := List.nodup_cons.1 hnd
    rcases List.mem_cons.1 hm with rfl | hm
    · rw [List.find?_cons_of_pos _ (by simp)]
    · have hvne : p.1 ≠ v := by
        intro he
        apply hndc.1
        rw [he]
        exact List.mem_map.2 ⟨(v, d), hm, rfl⟩
      rw [List.find?_cons_of_neg _ (by simpa using hvne)]
      exact ih v d hndc.2 hm

theorem initCanonList_get? {i : Nat} (h : i < NUM_CHARS) :
    initCanonList.get? i = some (CEntry.mk i 0 none) := by
  show ((List.range NUM_CHARS).map (fun i => CEntry.mk i 0 none)).get? i = _
  rw [List.get?_map, List.get?_range h]
  rfl

theorem initCanonList_length : initCanonList.length = NUM_CHARS := by
  show ((List.range NUM_CHARS).map (fun i => CEntry.mk i 0 none)).length = _
  rw [List.length_map, List.length_range]

/-- Filling the initialized list with a traversal's lengths yields, entry
by entry, symbol `i` with length `lensFun ls i` and a NULL code. -/
theorem fill_init_eq (ls : List (Nat × Nat))
    (h1 : (ls.map Prod.fst).Nodup) (h2 : ∀ p ∈ ls, p.1 < NUM_CHARS) :
    fillLens initCanonList ls
      = (List.range NUM_CHARS).map (fun i => CEntry.mk i (lensFun ls i) none) := by
  apply List.ext_get?
  intro i
  by_cases hi : i < NUM_CHARS
  · rw [show ((List.range NUM_CHARS).map
      (fun i => CEntry.mk i (lensFun ls i) none)).get? i
        = some (CEntry.mk i (lensFun ls i) none) from by
        rw [List.get?_map, List.get?_range hi]; rfl]
    by_cases hmem : ∃ d, (i, d) ∈ ls
    · rcases hmem with ⟨d, hd⟩
      rw [fillLens_get?_mem ls _ i d _ h1 hd (initCanonList_get? hi)]
      have hf := find?_of_mem_nodup ls i d h1 hd
      show some (CEntry.mk i d none) = _
      unfold lensFun
      rw [hf]
      rfl
    · rw [fillLens_get?_notmem ls _ i (by
        intro p hp he
        exact hmem ⟨p.2, by rw [← he]; exact hp⟩)]
      rw [initCanonList_get? hi]
      have hf : ls.find? (fun p => p.1 == i) = none := by
        rw [List.find?_eq_none]
        intro p hp
        simp only [beq_iff_eq]
        intro he
        exact hmem ⟨p.2, by rw [← he]; exact hp⟩
      unfold lensFun
      rw [hf]
      rfl
  · have hl1 : (fillLens initCanonList ls).length ≤ i := by
      rw [fillLens_length, initCanonList_length]
      omega
    have hl2 : (((List.range NUM_CHARS).map
        (fun i => CEntry.mk i (lensFun ls i) none)).length : Nat) ≤ i := by
      rw [List.length_map, List.length_range]
      omega
    rw [List.get?_eq_none.2 hl1, List.get?_eq_none.2 hl2]

/-! ### The two qsort orders -/

/-- The ascending order established by `CompareByCodeLen`: by code length,
ties broken by symbol value.  The comparator never reports equality for
entries with distinct `(codeLen, value)`, so qsort's result is the unique
sorted permutation; we model it with insertion sort. -/
def canonLe (a b : CEntry) : Prop :=
  a.codeLen < b.codeLen ∨ (a.codeLen = b.codeLen ∧ a.value ≤ b.value)

instance : DecidableRel canonLe := fun a b => by unfold canonLe; infer_instance

instance : IsTotal CEntry canonLe := ⟨by intro a b; unfold canonLe; omega⟩

instance : IsTrans CEntry canonLe := ⟨by intro a b c; unfold canonLe; omega⟩

/-- The ascending order established by `CompareBySymbolValue`. -/
def valueLe (a b : CEntry) : Prop := a.value ≤ b.value

instance : DecidableRel valueLe := fun a b => by unfold valueLe; infer_instance

instance : IsTotal CEntry valueLe := ⟨by intro a b; unfold valueLe; omega⟩

instance : IsTrans CEntry valueLe := ⟨by intro a b c; unfold valueLe; omega⟩

def sortByLen (cl : List CEntry) : List CEntry := cl.insertionSort canonLe

def sortByValue (cl : List CEntry) : List CEntry := cl.insertionSort valueLe

/-- A list sorted by `CompareByCodeLen` is its zero-length entries followed
by its nonzero-length entries. -/
theorem sorted_zero_split : ∀ (L : List CEntry), List.Pairwise canonLe L →
    L = L.filter (fun e => e.codeLen == 0) ++ L.filter (fun e => !(e.codeLen == 0)) := by
  intro L
  induction L with
  | nil => intro _; rfl
  | cons x rest ih =>
    intro hs
    have hpc := List.pairwise_cons.1 hs
    by_cases hx : x.codeLen = 0
    · rw [List.filter_cons_of_pos (by simp [hx]),
        List.filter_cons_of_neg (by simp [hx])]
      rw [List.cons_append]
      rw [← ih hpc.2]
    · rw [List.filter_cons_of_neg (by simp [hx]),
        List.filter_cons_of_pos (by simp [hx])]
      have hrest0 : ∀ e ∈ rest, e.codeLen ≠ 0 := by
        intro e he h0
        have := hpc.1 e he
        unfold canonLe at this
        omega
      rw [show rest.filter (fun e => e.codeLen == 0) = [] from
        List.filter_eq_nil.2 (by intro e he; simpa using hrest0 e he)]
      rw [show rest.filter (fun e => !(e.codeLen == 0)) = rest from
        List.filter_eq_self.2 (by intro e he; simpa using hrest0 e he)]
      rfl

theorem S256_reverse (l : List CEntry) : S256 l.reverse = S256 l := by
  unfold S256
  rw [List.map_reverse, List.sum_reverse]

/-- `AssignCanonicalCodes` on a `CompareByCodeLen`-sorted full list whose
nonzero lengths are in `[1,255]` and satisfy the exact Kraft equality:
the zero-length prefix is untouched and the nonzero entries receive the
`canonSpec` codes of the reversed (longest-first) nonzero list. -/
theorem assign_sorted (L : List CEntry) (hlen : L.length = NUM_CHARS)
    (hsort : List.Pairwise canonLe L)
    (h255 : ∀ e ∈ L, e.codeLen ≤ 255)
    (hkraft : S256 (L.filter (fun e => !(e.codeLen == 0))) = B256) :
    assignCanonicalCodes L
      = L.filter (fun e => e.codeLen == 0)
        ++ (canonSpec ((L.filter (fun e => !(e.codeLen == 0))).reverse)).reverse := by
  set zs := L.filter (fun e => e.codeLen == 0) with hzs
  set nz := L.filter (fun e => !(e.codeLen == 0)) with hnz
  have hsplit : L = zs ++ nz := sorted_zero_split L hsort
  have hnzne : nz ≠ [] := by
    intro h
    rw [h] at hkraft
    have : S256 [] = 0 := rfl
    rw [this] at hkraft
    have : 0 < B256 := Nat.pos_pow_of_pos _ (by omega)
    omega
  -- the last element of L is the last element of nz
  have hlast : L.getLast? = nz.getLast? := by
    rw [hsplit]
    exact List.getLast?_append_of_ne_nil _ hnzne
  obtain ⟨e0, he0⟩ : ∃ e0, nz.getLast? = some e0 := by
    cases h : nz.getLast? with
    | none => exact absurd (List.getLast?_eq_none.1 h) hnzne
    | some e => exact ⟨e, rfl⟩
  have hget : L.get? (NUM_CHARS - 1) = some e0 := by
    have h1 : L.get? (L.length - 1) = L.getLast? := (List.getLast?_eq_get? L).symm
    rw [hlen] at h1
    rw [h1, hlast, he0]
  -- facts about the nonzero part
  have hnzmem : ∀ e ∈ nz, 1 ≤ e.codeLen ∧ e.codeLen ≤ 255 := by
    intro e he
    rw [hnz] at he
    have h1 := List.of_mem_filter he
    have h2 := List.mem_of_mem_filter he
    simp only [Bool.not_eq_true', beq_eq_false_iff_ne, ne_eq] at h1
    exact ⟨by omega, h255 e h2⟩
  have hnzsort : List.Pairwise canonLe nz := by
    rw [hnz]
    exact List.Pairwise.filter _ hsort
  have hdesc : List.Pairwise (fun a b : CEntry => b.codeLen ≤ a.codeLen) nz.reverse := by
    rw [List.pairwise_reverse]
    apply List.Pairwise.imp _ hnzsort
    intro a b h
    unfold canonLe at h
    omega
  -- the reversed head is e0, the maximal length
  have hrevne : nz.reverse ≠ [] := by
    intro h
    exact hnzne (by rw [← List.reverse_reverse nz, h]; rfl)
  have hhead : nz.reverse.head? = some e0 := by
    rw [List.head?_reverse]
    exact he0
  obtain ⟨tl, htl⟩ : ∃ tl, nz.reverse = e0 :: tl := by
    cases h : nz.reverse with
    | nil => exact absurd h hrevne
    | cons a tla =>
      rw [h] at hhead
      injection hhead with hh
      subst hh
      exact ⟨tla, rfl⟩
  have hdom : ∀ e ∈ nz.reverse, e.codeLen ≤ e0.codeLen := by
    intro e he
    rw [htl] at he hdesc
    rcases List.mem_cons.1 he with rfl | he
    · exact le_refl _
    · exact (List.pairwise_cons.1 hdesc).1 e he
  -- apply the loop characterization
  have hspec := assignStep_spec nz.reverse zs.reverse 0 e0.codeLen
    hdesc
    (by intro e he; exact hnzmem e (List.mem_reverse.1 he))
    hdom
    (by have := hnzmem e0 (by
          have : e0 ∈ nz.reverse := by rw [htl]; exact List.mem_cons_self _ _
          exact List.mem_reverse.1 this)
        omega)
    (by rw [Nat.zero_mul, Nat.zero_add, S256_reverse]; exact hkraft)
    (by
      cases h : zs.reverse with
      | nil => exact Or.inl rfl
      | cons z ztl =>
        refine Or.inr ⟨z, ztl, rfl, ?_⟩
        have hz : z ∈ zs := by
          rw [← List.reverse_reverse zs, h]
          simp
        rw [hzs] at hz
        have := List.of_mem_filter hz
        simpa using this)
  unfold assignCanonicalCodes
  rw [hget]
  show (assignStep 0 e0.codeLen L.reverse).reverse = _
  rw [show L.reverse = nz.reverse ++ zs.reverse from by rw [hsplit, List.reverse_append]]
  rw [hspec]
  rw [List.reverse_append, List.reverse_reverse]

/-! ### The canonical decoder (CHuffmanDecodeFile) -/

/-- The inner scan of `CHuffmanDecodeFile`: walk the contiguous block of
entries whose `codeLen` equals the current length (the loop guard
`canonicalList[i].codeLen == length`), comparing each 256-bit code with the
accumulated register (`BitArrayCompare == 0`), and return the first
matching entry's value. -/
def scanBlock : List CEntry → Nat → Nat → Option Nat
  | [], _, _ => none
  | e :: rest, len, acc =>
    if e.codeLen = len then
      if e.code = some acc then some e.value else scanBlock rest len acc
    else none

/-- `lenIndex[length]` lookup followed by the block scan: `lenIndex` holds
the first index at which each code length occurs (`NUM_CHARS`, i.e. no
scan, when it does not occur), so the search starts at the first entry of
the current length and stops at the end of its block. -/
def lenScan : List CEntry → Nat → Nat → Option Nat
  | [], _, _ => none
  | e :: rest, len, acc =>
    if e.codeLen = len then scanBlock (e :: rest) len acc
    else lenScan rest len acc

theorem scanBlock_none : ∀ (A : List CEntry) (len acc : Nat),
    (∀ e ∈ A, e.codeLen = len → ¬ e.code = some acc) →
    scanBlock A len acc = none := by
  intro A
  induction A with
  | nil => intro len acc _; rfl
  | cons e rest ih =>
    intro len acc h
    show (if e.codeLen = len then
      if e.code = some acc then some e.value else scanBlock rest len acc
      else none) = none
    by_cases h1 : e.codeLen = len
    · rw [if_pos h1, if_neg (h e (by simp) h1)]
      exact ih len acc (fun x hx => h x (by simp [hx]))
    · rw [if_neg h1]

theorem lenScan_none : ∀ (A : List CEntry) (len acc : Nat),
    (∀ e ∈ A, e.codeLen = len → ¬ e.code = some acc) →
    lenScan A len acc = none := by
  intro A
  induction A with
  | nil => intro len acc _; rfl
  | cons e rest ih =>
    intro len acc h
    show (if e.codeLen = len then scanBlock (e :: rest) len acc
      else lenScan rest len acc) = none
    by_cases h1 : e.codeLen = len
    · rw [if_pos h1]
      exact scanBlock_none _ len acc h
    · rw [if_neg h1]
      exact ih len acc (fun x hx => h x (by simp [hx]))

theorem scanBlock_found : ∀ (A : List CEntry) (len acc v : Nat),
    List.Pairwise (fun a b : CEntry => a.codeLen ≤ b.codeLen) A →
    (∀ e ∈ A, len ≤ e.codeLen) →
    (∀ e ∈ A, e.codeLen = len → e.code = some acc → e.value = v) →
    (∃ s ∈ A, s.codeLen = len ∧ s.code = some acc) →
    scanBlock A len acc = some v := by
  intro A
  induction A with
  | nil => intro len acc v _ _ _ hex; simp at hex
  | cons e rest ih =>
    intro len acc v hsort hge huniq hex
    have hpc := List.pairwise_cons.1 hsort
    show (if e.codeLen = len then
      if e.code = some acc then some e.value else scanBlock rest len acc
      else none) = some v
    by_cases h1 : e.codeLen = len
    · rw [if_pos h1]
      by_cases h2 : e.code = some acc
      · rw [if_pos h2, huniq e (by simp) h1 h2]
      · rw [if_neg h2]
        rcases hex with ⟨s, hs, hsl, hsc⟩
        rcases List.mem_cons.1 hs with rfl | hs
        · exact absurd hsc h2
        · exact ih len acc v hpc.2 (fun x hx => hge x (by simp [hx]))
            (fun x hx => huniq x (by simp [hx])) ⟨s, hs, hsl, hsc⟩
    · exfalso
      rcases hex with ⟨s, hs, hsl, hsc⟩
      rcases List.mem_cons.1 hs with rfl | hs
      · exact h1 hsl
      · have hle := hpc.1 s hs
        have hgee := hge e (by simp)
        omega

theorem lenScan_found : ∀ (A : List CEntry) (len acc v : Nat),
    List.Pairwise (fun a b : CEntry => a.codeLen ≤ b.codeLen) A →
    (∀ e ∈ A, e.codeLen = len → e.code = some acc → e.value = v) →
    (∃ s ∈ A, s.codeLen = len ∧ s.code = some acc) →
    lenScan A len acc = some v := by
  intro A
  induction A with
  | nil => intro len acc v _ _ hex; simp at hex
  | cons e rest ih =>
    intro len acc v hsort huniq hex
    have hpc := List.pairwise_cons.1 hsort
    show (if e.codeLen = len then scanBlock (e :: rest) len acc
      else lenScan rest len acc) = some v
    by_cases h1 : e.codeLen = len
    · rw [if_pos h1]
      apply scanBlock_found _ len acc v hsort
      · intro x hx
        rcases List.mem_cons.1 hx with rfl | hx
        · omega
        · have := hpc.1 x hx; omega
      · exact huniq
      · exact hex
    · rw [if_neg h1]
      rcases hex with ⟨s, hs, hsl, hsc⟩
      rcases List.mem_cons.1 hs with rfl | hs
      · exact absurd hsl h1
      · exact ih len acc v hpc.2 (fun x hx => huniq x (by simp [hx]))
          ⟨s, hs, hsl, hsc⟩

/-- The decode loop of `CHuffmanDecodeFile`: for each bit, set bit
`length` of the 256-bit register on a 1, increment `length`, and search
the block of codes of that length; on a match emit the decoded value and
reset the register (or stop after decoding EOF).  When the bit supply is
exhausted the loop ends and the routine reports success. -/
def cdecodeLoop (A : List CEntry) : List Bool → Nat → Nat → List Nat → List Nat
  | [], _, _, out => out.reverse
  | b :: bs, acc, len, out =>
    match lenScan A (len + 1) (if b then acc + 2 ^ (255 - len) else acc) with
    | some v =>
        if v = EOF_CHAR then out.reverse
        else cdecodeLoop A bs 0 0 (v :: out)
    | none => cdecodeLoop A bs (if b then acc + 2 ^ (255 - len) else acc) (len + 1) out

theorem cdecodeLoop_cons (A : List CEntry) (b : Bool) (bs : List Bool)
    (acc len : Nat) (out : List Nat) :
    cdecodeLoop A (b :: bs) acc len out
      = match lenScan A (len + 1) (if b then acc + 2 ^ (255 - len) else acc) with
        | some v =>
            if v = EOF_CHAR then out.reverse
            else cdecodeLoop A bs 0 0 (v :: out)
        | none =>
            cdecodeLoop A bs (if b then acc + 2 ^ (255 - len) else acc)
              (len + 1) out := rfl

/-- Setting bit `k` (counted from the most significant end) in the register
holding the top `k` bits of `cs` yields the top `k+1` bits of `cs`. -/
theorem topBits_succ (c k : Nat) (hk : k ≤ 255) :
    (if natBit256 c k then c / 2 ^ (256 - k) * 2 ^ (256 - k) + 2 ^ (255 - k)
      else c / 2 ^ (256 - k) * 2 ^ (256 - k))
    = c / 2 ^ (255 - k) * 2 ^ (255 - k) := by
  have hsub : 256 - k = (255 - k) + 1 := by omega
  rw [hsub, pow_succ, ← Nat.div_div_eq_div_mul]
  have h1 : 2 * (c / 2 ^ (255 - k) / 2) + c / 2 ^ (255 - k) % 2
      = c / 2 ^ (255 - k) := Nat.div_add_mod _ 2
  have h2 : c / 2 ^ (255 - k) % 2 < 2 := Nat.mod_lt _ (by omega)
  unfold natBit256
  by_cases hbit : c / 2 ^ (255 - k) % 2 = 1
  · rw [if_pos (by simpa using hbit)]
    have hq : c / 2 ^ (255 - k) = 2 * (c / 2 ^ (255 - k) / 2) + 1 := by omega
    conv_rhs => rw [hq]
    ring
  · rw [if_neg (by simpa using hbit)]
    have hq : c / 2 ^ (255 - k) = 2 * (c / 2 ^ (255 - k) / 2) := by omega
    conv_rhs => rw [hq]
    ring

theorem codeBits_drop_cons {c ls k : Nat} (h : k < ls) :
    (codeBits c ls).drop k = natBit256 c k :: (codeBits c ls).drop (k + 1) := by
  have hk : k < (codeBits c ls).length := by rw [codeBits_length]; exact h
  rw [List.drop_eq_getElem_cons hk]
  congr 1
  have h3 : (codeBits c ls).get? k = some (natBit256 c k) := codeBits_get? h
  rw [List.get?_eq_get hk] at h3
  exact Option.some.inj h3

/-- Stepping the decode loop along the bits of an assigned code: no block
matches a strict prefix, and the full code matches with value `v`. -/
theorem cdecode_steps (A : List CEntry) (cs ls v : Nat) (rest : List Bool)
    (hls255 : ls ≤ 255)
    (hdvd : 2 ^ (256 - ls) ∣ cs)
    (hnom : ∀ k, 1 ≤ k → k < ls →
      lenScan A k (cs / 2 ^ (256 - k) * 2 ^ (256 - k)) = none)
    (hm : lenScan A ls cs = some v) :
    ∀ (j k : Nat), j = ls - k → k < ls → ∀ (out : List Nat),
    cdecodeLoop A ((codeBits cs ls).drop k ++ rest)
        (cs / 2 ^ (256 - k) * 2 ^ (256 - k)) k out
      = (if v = EOF_CHAR then out.reverse else cdecodeLoop A rest 0 0 (v :: out)) := by
  intro j
  induction j with
  | zero => intro k hj hk out; omega
  | succ j ih =>
    intro k hj hk out
    rw [codeBits_drop_cons hk, List.cons_append, cdecodeLoop_cons]
    rw [topBits_succ cs k (by omega)]
    by_cases hkl : k + 1 < ls
    · have hn := hnom (k + 1) (by omega) hkl
      rw [show (256 - (k + 1) : Nat) = 255 - k from by omega] at hn
      rw [hn]
      show cdecodeLoop A ((codeBits cs ls).drop (k + 1) ++ rest)
        (cs / 2 ^ (255 - k) * 2 ^ (255 - k)) (k + 1) out = _
      have := ih (k + 1) (by omega) hkl out
      rw [show (256 - (k + 1) : Nat) = 255 - k from by omega] at this
      exact this
    · have hkeq : k + 1 = ls := by omega
      have hcs : cs / 2 ^ (255 - k) * 2 ^ (255 - k) = cs := by
        rw [show (255 - k : Nat) = 256 - ls from by omega]
        exact Nat.div_mul_cancel hdvd
      rw [hcs, hkeq, hm,
        List.drop_eq_nil_of_le (by rw [codeBits_length] : (codeBits cs ls).length ≤ ls),
        List.nil_append]

/-- Feeding one assigned code from the reset state decodes exactly its
value (or ends the loop if that value is EOF). -/
theorem cdecode_symbol (A : List CEntry) (cs ls v : Nat) (rest : List Bool)
    (hls1 : 1 ≤ ls) (hls255 : ls ≤ 255)
    (hdvd : 2 ^ (256 - ls) ∣ cs) (hcs : cs < B256)
    (hnom : ∀ k, 1 ≤ k → k < ls →
      lenScan A k (cs / 2 ^ (256 - k) * 2 ^ (256 - k)) = none)
    (hm : lenScan A ls cs = some v) (out : List Nat) :
    cdecodeLoop A (codeBits cs ls ++ rest) 0 0 out
      = (if v = EOF_CHAR then out.reverse else cdecodeLoop A rest 0 0 (v :: out)) := by
  have h0 : cs / 2 ^ (256 - 0) * 2 ^ (256 - 0) = 0 := by
    rw [Nat.div_eq_of_lt (by exact hcs), Nat.zero_mul]
  have := cdecode_steps A cs ls v rest hls255 hdvd hnom hm (ls - 0) 0 rfl (by omega) out
  rw [h0] at this
  rw [show (codeBits cs ls).drop 0 = codeBits cs ls from rfl] at this
  exact this

/-! ### Decoder hypotheses for the assigned table -/

theorem listPre_codeBits_of_div {ca cb la lb : Nat} (hab : la ≤ lb)
    (h256 : la ≤ 256)
    (hdiv : ca / 2 ^ (256 - la) = cb / 2 ^ (256 - la)) :
    listPre (codeBits ca la) (codeBits cb lb) := by
  unfold listPre
  rw [codeBits_length]
  apply List.ext_get?
  intro i
  by_cases hi : i < la
  · rw [List.get?_take hi]
    rw [codeBits_get? (by omega), codeBits_get? hi]
    have := bits_eq_of_div h256 hdiv i hi
    rw [this]
  · have h1 : ((codeBits cb lb).take la).get? i = none := by
      rw [List.get?_eq_none]
      rw [List.length_take, codeBits_length]
      omega
    have h2 : (codeBits ca la).get? i = none := by
      rw [List.get?_eq_none, codeBits_length]
      omega
    rw [h1, h2]

theorem canonSpec_pairwise_len {ds : List CEntry}
    (h : List.Pairwise (fun a b : CEntry => b.codeLen ≤ a.codeLen) ds) :
    List.Pairwise (fun a b : CEntry => b.codeLen ≤ a.codeLen) (canonSpec ds) := by
  induction ds with
  | nil => exact List.Pairwise.nil
  | cons e rest ih =>
    have hpc := List.pairwise_cons.1 h
    show List.Pairwise _ (CEntry.mk e.value e.codeLen _ :: canonSpec rest)
    rw [List.pairwise_cons]
    constructor
    · intro e' he'
      obtain ⟨m, hm⟩ := List.get?_of_mem he'
      have hmlt : m < rest.length := by
        have := get?_lt_length hm
        rwa [canonSpec_length] at this
      obtain ⟨em, hem⟩ : ∃ em, rest.get? m = some em :=
        ⟨rest.get ⟨m, hmlt⟩, List.get?_eq_get hmlt⟩
      rw [canonSpec_get? rest m em hem] at hm
      injection hm with hm
      subst hm
      exact hpc.1 em (List.get?_mem hem)
    · exact ih hpc.2

/-- The full decoder list (zero-length prefix, then assigned codes in
ascending order) is sorted by code length. -/
theorem table_pairwise (ds zs : List CEntry)
    (hsort : List.Pairwise (fun a b : CEntry => b.codeLen ≤ a.codeLen) ds)
    (hzs : ∀ e ∈ zs, e.codeLen = 0) :
    List.Pairwise (fun a b : CEntry => a.codeLen ≤ b.codeLen)
      (zs ++ (canonSpec ds).reverse) := by
  rw [List.pairwise_append]
  refine ⟨?_, ?_, ?_⟩
  · apply List.pairwise_of_forall_mem_list
    intro a ha b hb
    rw [hzs a ha]
    omega
  · rw [List.pairwise_reverse]
    exact canonSpec_pairwise_len hsort
  · intro a ha b hb
    rw [hzs a ha]
    omega

/-- The code at position `k` is divisible by its own alignment and lies
below `2^256`. -/
theorem canonSpec_self_facts {ds : List CEntry}
    (hsort : List.Pairwise (fun a b : CEntry => b.codeLen ≤ a.codeLen) ds)
    (hlen : ∀ e ∈ ds, 1 ≤ e.codeLen ∧ e.codeLen ≤ 255)
    (hS : S256 ds ≤ B256) {k : Nat} {ek : CEntry} (hk : ds.get? k = some ek) :
    2 ^ (256 - ek.codeLen) ∣ (B256 - S256 (ds.drop k)) ∧
    S256 (ds.drop k) ≤ B256 ∧ 0 < S256 (ds.drop k) := by
  have hmem : ek ∈ ds := List.get?_mem hk
  have hSk : S256 (ds.drop k) ≤ B256 := by
    have := S256_drop_mono ds (Nat.zero_le k)
    have h0 : ds.drop 0 = ds := rfl
    rw [h0] at this
    omega
  have hpos : 0 < S256 (ds.drop k) := by
    rw [S256_drop_succ hk]
    have : 0 < 2 ^ (256 - ek.codeLen) := Nat.pos_pow_of_pos _ (by omega)
    omega
  refine ⟨?_, hSk, hpos⟩
  apply Nat.dvd_sub'
  · exact pow_dvd_pow 2 (by have := (hlen ek hmem).1; omega)
  · apply pow_dvd_S256 (by have := (hlen ek hmem).2; omega)
    exact sorted_drop_head_le ds k ek hsort hk

/-- No proper prefix of an assigned code matches any block in the table. -/
theorem table_nomatch {ds zs : List CEntry}
    (hsort : List.Pairwise (fun a b : CEntry => b.codeLen ≤ a.codeLen) ds)
    (hlen : ∀ e ∈ ds, 1 ≤ e.codeLen ∧ e.codeLen ≤ 255)
    (hS : S256 ds ≤ B256)
    (hzs : ∀ e ∈ zs, e.codeLen = 0)
    {k : Nat} {ek : CEntry} (hk : ds.get? k = some ek) :
    ∀ k', 1 ≤ k' → k' < ek.codeLen →
    lenScan (zs ++ (canonSpec ds).reverse) k'
      ((B256 - S256 (ds.drop k)) / 2 ^ (256 - k') * 2 ^ (256 - k')) = none := by
  intro k' hk1 hk2
  apply lenScan_none
  intro e he hel hec
  rcases List.mem_append.1 he with he | he
  · have := hzs e he
    omega
  · have he' : e ∈ canonSpec ds := List.mem_reverse.1 he
    obtain ⟨m, hm⟩ := List.get?_of_mem he'
    have hmlt : m < ds.length := by
      have := get?_lt_length hm
      rwa [canonSpec_length] at this
    obtain ⟨em, hem⟩ : ∃ em, ds.get? m = some em :=
      ⟨ds.get ⟨m, hmlt⟩, List.get?_eq_get hmlt⟩
    have hmspec := canonSpec_get? ds m em hem
    rw [hmspec] at hm
    injection hm with hm
    have hkspec := canonSpec_get? ds k ek hk
    -- the matched entry's bits are the first k' bits of the target code
    set cs := B256 - S256 (ds.drop k) with hcs
    set ce := B256 - S256 (ds.drop m) with hce
    have hel' : em.codeLen = k' := by
      rw [← hm] at hel
      exact hel
    have hec' : ce = cs / 2 ^ (256 - k') * 2 ^ (256 - k') := by
      rw [← hm] at hec
      simp only [Option.some.injEq] at hec
      exact hec
    have hdivs : ce / 2 ^ (256 - k') = cs / 2 ^ (256 - k') := by
      rw [hec']
      exact Nat.mul_div_cancel _ (Nat.pos_pow_of_pos _ (by omega))
    have hmk : m ≠ k := by
      intro h
      subst h
      rw [hem] at hk
      injection hk with h2
      subst h2
      omega
    have hpre : listPre (cBits (CEntry.mk em.value em.codeLen (some ce)))
        (cBits (CEntry.mk ek.value ek.codeLen (some cs))) := by
      show listPre (codeBits ce em.codeLen) (codeBits cs ek.codeLen)
      rw [hel']
      have h255 := (hlen ek (List.get?_mem hk)).2
      exact listPre_codeBits_of_div (by omega) (by omega) hdivs
    rcases Nat.lt_or_ge m k with hmk2 | hmk2
    · have := canonSpec_no_pre hsort hlen hS m k _ _ hmk2 hmspec hkspec
      exact this.1 hpre
    · have hkm : k < m := by omega
      have := canonSpec_no_pre hsort hlen hS k m _ _ hkm hkspec hmspec
      exact this.2 hpre

/-- The complete assigned code matches, and only its own entry matches. -/
theorem table_match {ds zs : List CEntry}
    (hsort : List.Pairwise (fun a b : CEntry => b.codeLen ≤ a.codeLen) ds)
    (hlen : ∀ e ∈ ds, 1 ≤ e.codeLen ∧ e.codeLen ≤ 255)
    (hS : S256 ds ≤ B256)
    (hzs : ∀ e ∈ zs, e.codeLen = 0)
    {k : Nat} {ek : CEntry} (hk : ds.get? k = some ek) :
    lenScan (zs ++ (canonSpec ds).reverse) ek.codeLen
      (B256 - S256 (ds.drop k)) = some ek.value := by
  have hkspec := canonSpec_get? ds k ek hk
  apply lenScan_found _ _ _ _ (table_pairwise ds zs hsort hzs)
  · intro e he hel hec
    rcases List.mem_append.1 he with he | he
    · have h0 := hzs e he
      have h1 := (hlen ek (List.get?_mem hk)).1
      omega
    · have he' : e ∈ canonSpec ds := List.mem_reverse.1 he
      obtain ⟨m, hm⟩ := List.get?_of_mem he'
      have hmlt : m < ds.length := by
        have := get?_lt_length hm
        rwa [canonSpec_length] at this
      obtain ⟨em, hem⟩ : ∃ em, ds.get? m = some em :=
        ⟨ds.get ⟨m, hmlt⟩, List.get?_eq_get hmlt⟩
      have hmspec := canonSpec_get? ds m em hem
      rw [hmspec] at hm
      injection hm with hm
      by_cases hmk : m = k
      · subst hmk
        rw [hem] at hk
        injection hk with h2
        subst h2
        rw [← hm]
      · exfalso
        have hcodes : B256 - S256 (ds.drop m) = B256 - S256 (ds.drop k) := by
          rw [← hm] at hec
          simp only [Option.some.injEq] at hec
          exact hec
        rcases Nat.lt_or_ge m k with hmk2 | hmk2
        · obtain ⟨_, _, _, ca, cb, hca, hcb, _, _, _, hlt⟩ :=
            canonSpec_pairs hsort hlen hS m k _ _ hmk2 hmspec hkspec
          simp only [Option.some.injEq] at hca hcb
          rw [← hca, ← hcb, hcodes] at hlt
          exact lt_irrefl _ hlt
        · have hkm : k < m := by omega
          obtain ⟨_, _, _, ca, cb, hca, hcb, _, _, _, hlt⟩ :=
            canonSpec_pairs hsort hlen hS k m _ _ hkm hkspec hmspec
          simp only [Option.some.injEq] at hca hcb
          rw [← hca, ← hcb, hcodes] at hlt
          exact lt_irrefl _ hlt
  · refine ⟨CEntry.mk ek.value ek.codeLen (some (B256 - S256 (ds.drop k))), ?_, rfl, rfl⟩
    apply List.mem_append.2
    right
    exact List.mem_reverse.2 (List.get?_mem hkspec)

/-! ### Bit files: bytes as 8 MSB-first bits, 32-bit counts as 4 bytes -/

/-- `BitFilePutChar`: one byte, most significant bit first. -/
def byteBits (c : Nat) : List Bool :=
  (List.range 8).map (fun i => decide (c / 2 ^ (7 - i) % 2 = 1))

/-- `BitFileGetChar`: reassemble 8 bits into a byte. -/
def bitsByte (bs : List Bool) : Nat :=
  bs.foldl (fun acc b => 2 * acc + (if b then 1 else 0)) 0

/-- Read one byte (8 bits) from the stream. -/
def getChar8 (bs : List Bool) : Option (Nat × List Bool) :=
  if 8 ≤ bs.length then some (bitsByte (bs.take 8), bs.drop 8) else none

/-- A `count_t` as stored in memory and written lowest-address byte first
by `BitFilePutBits(bfp, &count, 8 * sizeof(count_t))` (little-endian
layout); `BitFileGetBits` reads it back the same way, so the byte order
cancels in the round trip. -/
def le4 (n : Nat) : List Nat :=
  [n % 256, n / 256 % 256, n / 256 ^ 2 % 256, n / 256 ^ 3 % 256]

def unle4 (b0 b1 b2 b3 : Nat) : Nat := b0 + 256 * b1 + 256 ^ 2 * b2 + 256 ^ 3 * b3

/-- Read a 32-bit count (4 bytes). -/
def get32 (bs : List Bool) : Option (Nat × List Bool) :=
  match getChar8 bs with
  | none => none
  | some (b0, r0) =>
    match getChar8 r0 with
    | none => none
    | some (b1, r1) =>
      match getChar8 r1 with
      | none => none
      | some (b2, r2) =>
        match getChar8 r2 with
        | none => none
        | some (b3, r3) => some (unle4 b0 b1 b2 b3, r3)

/-- `BitFileClose` pads the final partial byte with 0 bits. -/
def pad8 (bs : List Bool) : List Bool :=
  bs ++ List.replicate ((8 - bs.length % 8) % 8) false

theorem byteBits_length (c : Nat) : (byteBits c).length = 8 := by
  simp [byteBits]

set_option maxRecDepth 4096 in
theorem bitsByte_byteBits : ∀ c, c < 256 → bitsByte (byteBits c) = c := by
  decide

theorem getChar8_byte {c : Nat} (hc : c < 256) (rest : List Bool) :
    getChar8 (byteBits c ++ rest) = some (c, rest) := by
  unfold getChar8
  rw [if_pos (by rw [List.length_append, byteBits_length]; omega)]
  rw [List.take_append_of_le_length (by rw [byteBits_length])]
  rw [List.drop_append_of_le_length (by rw [byteBits_length])]
  rw [show (byteBits c).take 8 = byteBits c from by
    apply List.take_of_length_le
    rw [byteBits_length]]
  rw [show (byteBits c).drop 8 = [] from by
    apply List.drop_eq_nil_of_le
    rw [byteBits_length]]
  rw [bitsByte_byteBits c hc, List.nil_append]

theorem unle4_le4 {n : Nat} (h : n < 2 ^ 32) :
    unle4 (n % 256) (n / 256 % 256) (n / 256 ^ 2 % 256) (n / 256 ^ 3 % 256) = n := by
  unfold unle4
  omega

theorem le4_lt (n : Nat) : ∀ b ∈ le4 n, b < 256 := by
  intro b hb
  unfold le4 at hb
  simp only [List.mem_cons, List.not_mem_nil, or_false] at hb
  rcases hb with rfl | rfl | rfl | rfl
  all_goals exact Nat.mod_lt _ (by omega)

theorem get32_le4 {n : Nat} (h : n < 2 ^ 32) (rest : List Bool) :
    get32 (((le4 n).map byteBits).flatten ++ rest) = some (n, rest) := by
  have h0 : n % 256 < 256 := Nat.mod_lt _ (by omega)
  have h1 : n / 256 % 256 < 256 := Nat.mod_lt _ (by omega)
  have h2 : n / 256 ^ 2 % 256 < 256 := Nat.mod_lt _ (by omega)
  have h3 : n / 256 ^ 3 % 256 < 256 := Nat.mod_lt _ (by omega)
  simp only [le4, List.map_cons, List.map_nil, List.flatten_cons, List.flatten_nil,
    List.append_assoc, List.append_nil, get32,
    getChar8_byte h0, getChar8_byte h1, getChar8_byte h2, getChar8_byte h3]
  rw [unle4_le4 h]

/-! ### Leaf arrays and frequency counting (GenerateTreeFromFile) -/

/-- The leaf array `AllocHuffmanNode(i)` for `i < NUM_CHARS`: count 0,
ignore TRUE. -/
def initSlots : List (Option Slot) :=
  (List.range NUM_CHARS).map (fun i => some (Slot.mk (HTree.leaf i 0) true))

/-- `huffmanArray[EOF_CHAR]->count = 1; huffmanArray[EOF_CHAR]->ignore = FALSE`. -/
def setEOFSlot (arr : List (Option Slot)) : List (Option Slot) :=
  arr.set EOF_CHAR (some (Slot.mk (HTree.leaf EOF_CHAR 1) false))

/-- One iteration of the counting loop: if `count < COUNT_T_MAX` increment
it and clear `ignore`, otherwise the routine fails (input too large). -/
def bumpSlot (arr : List (Option Slot)) (c : Nat) : Option (List (Option Slot)) :=
  match arr.get? c with
  | some (some s) =>
    match s.t with
    | .leaf v cnt =>
      if cnt < COUNT_T_MAX then
        some (arr.set c (some (Slot.mk (HTree.leaf v (cnt + 1)) false)))
      else none
    | .comp _ _ _ _ => none
  | _ => none

def generateCountsLoop : List Nat → List (Option Slot) → Option (List (Option Slot))
  | [], arr => some arr
  | c :: rest, arr =>
    match bumpSlot arr c with
    | some arr2 => generateCountsLoop rest arr2
    | none => none

/-- `GenerateTreeFromFile` (huffman.c) up to the call of `BuildHuffmanTree`:
assume one EOF, then count every input byte with per-symbol saturation. -/
def generateTreeSlots (x : List Nat) : Option (List (Option Slot)) :=
  generateCountsLoop x (setEOFSlot initSlots)

/-- A leaf array determined by a count function and an ignore function. -/
def slotArr (cnt : Nat → Nat) (ig : Nat → Bool) : List (Option Slot) :=
  (List.range NUM_CHARS).map (fun i => some (Slot.mk (HTree.leaf i (cnt i)) (ig i)))

theorem map_range_set {α : Type} (n c : Nat) (f g : Nat → α) (hc : c < n)
    (h : ∀ i, i < n → ¬ i = c → f i = g i) :
    ((List.range n).map f).set c (g c) = (List.range n).map g := by
  apply List.ext_get?
  intro i
  by_cases hi : i < n
  · by_cases hic : i = c
    · subst hic
      rw [List.get?_set_eq_of_lt _ (by rw [List.length_map, List.length_range]; exact hi)]
      rw [List.get?_map, List.get?_range hi]
      rfl
    · rw [List.get?_set_ne _ _ (fun he => hic he.symm)]
      rw [List.get?_map, List.get?_map, List.get?_range hi]
      show some (f i) = some (g i)
      rw [h i hi hic]
  · have hlen1 : (((List.range n).map f).set c (g c)).length ≤ i := by
      rw [List.length_set, List.length_map, List.length_range]; omega
    have hlen2 : ((List.range n).map g).length ≤ i := by
      rw [List.length_map, List.length_range]; omega
    rw [List.get?_eq_none.2 hlen1, List.get?_eq_none.2 hlen2]

theorem slotArr_congr {cnt cnt' : Nat → Nat} {ig ig' : Nat → Bool}
    (h1 : ∀ i, i < NUM_CHARS → cnt i = cnt' i)
    (h2 : ∀ i, i < NUM_CHARS → ig i = ig' i) :
    slotArr cnt ig = slotArr cnt' ig' := by
  unfold slotArr
  apply List.map_congr_left
  intro i hi
  have hi' := List.mem_range.1 hi
  rw [h1 i hi', h2 i hi']

theorem slotArr_get? {cnt : Nat → Nat} {ig : Nat → Bool} {i : Nat}
    (h : i < NUM_CHARS) :
    (slotArr cnt ig).get? i = some (some (Slot.mk (HTree.leaf i (cnt i)) (ig i))) := by
  unfold slotArr
  rw [List.get?_map, List.get?_range h]
  rfl

theorem initSlots_eq : initSlots = slotArr (fun _ => 0) (fun _ => true) := rfl

theorem setEOF_slotArr (cnt : Nat → Nat) (ig : Nat → Bool) :
    setEOFSlot (slotArr cnt ig)
      = slotArr (fun i => if i = EOF_CHAR then 1 else cnt i)
          (fun i => if i = EOF_CHAR then false else ig i) := by
  unfold setEOFSlot slotArr
  dsimp only
  rw [show (some (Slot.mk (HTree.leaf EOF_CHAR 1) false))
      = (fun i => some (Slot.mk (HTree.leaf i (if i = EOF_CHAR then 1 else cnt i))
          (if i = EOF_CHAR then false else ig i))) EOF_CHAR from by simp]
  exact map_range_set NUM_CHARS EOF_CHAR _
    (fun i => some (Slot.mk (HTree.leaf i (if i = EOF_CHAR then 1 else cnt i))
      (if i = EOF_CHAR then false else ig i)))
    (by unfold EOF_CHAR NUM_CHARS; omega)
    (by intro i _ hic; simp [hic])

theorem bumpSlot_slotArr {cnt : Nat → Nat} {ig : Nat → Bool} {c : Nat}
    (hc : c < NUM_CHARS) (hcnt : cnt c < COUNT_T_MAX) :
    bumpSlot (slotArr cnt ig) c
      = some (slotArr (fun i => if i = c then cnt c + 1 else cnt i)
          (fun i => if i = c then false else ig i)) := by
  unfold bumpSlot
  rw [slotArr_get? hc]
  show (if cnt c < COUNT_T_MAX then
    some ((slotArr cnt ig).set c (some (Slot.mk (HTree.leaf c (cnt c + 1)) false)))
    else none) = _
  rw [if_pos hcnt]
  congr 1
  unfold slotArr
  dsimp only
  rw [show some (Slot.mk (HTree.leaf c (cnt c + 1)) false)
      = (fun i => some (Slot.mk (HTree.leaf i (if i = c then cnt c + 1 else cnt i))
          (if i = c then false else ig i))) c from by simp]
  exact map_range_set NUM_CHARS c _
    (fun i => some (Slot.mk (HTree.leaf i (if i = c then cnt c + 1 else cnt i))
      (if i = c then false else ig i)))
    hc
    (by intro i _ hic; simp [hic])

theorem bumpSlot_slotArr_max {cnt : Nat → Nat} {ig : Nat → Bool} {c : Nat}
    (hc : c < NUM_CHARS) (hcnt : ¬ cnt c < COUNT_T_MAX) :
    bumpSlot (slotArr cnt ig) c = none := by
  unfold bumpSlot
  rw [slotArr_get? hc]
  show (if cnt c < COUNT_T_MAX then
    some ((slotArr cnt ig).set c (some (Slot.mk (HTree.leaf c (cnt c + 1)) false)))
    else none) = _
  rw [if_neg hcnt]

/-- Success characterization of the counting loop. -/
theorem genLoop_spec : ∀ (x : List Nat) (cnt : Nat → Nat) (ig : Nat → Bool),
    (∀ c ∈ x, c < NUM_CHARS) →
    (∀ c, c < NUM_CHARS → x.count c + cnt c ≤ COUNT_T_MAX) →
    ∀ (cnt' : Nat → Nat) (ig' : Nat → Bool),
    (∀ i, i < NUM_CHARS → cnt' i = cnt i + x.count i) →
    (∀ i, i < NUM_CHARS → ig' i = (ig i && !(decide (i ∈ x)))) →
    generateCountsLoop x (slotArr cnt ig) = some (slotArr cnt' ig') := by
  intro x
  induction x with
  | nil =>
    intro cnt ig _ _ cnt' ig' h1 h2
    show some (slotArr cnt ig) = some (slotArr cnt' ig')
    refine congrArg some (slotArr_congr ?_ ?_)
    · intro i hi
      rw [h1 i hi]
      simp
    · intro i hi
      rw [h2 i hi]
      simp
  | cons c rest ih =>
    intro cnt ig hx hbound cnt' ig' h1 h2
    have hc : c < NUM_CHARS := hx c (by simp)
    have hccnt : cnt c < COUNT_T_MAX := by
      have := hbound c hc
      rw [List.count_cons_self] at this
      omega
    show (match bumpSlot (slotArr cnt ig) c with
      | some arr2 => generateCountsLoop rest arr2
      | none => none) = some (slotArr cnt' ig')
    rw [bumpSlot_slotArr hc hccnt]
    apply ih
    · intro a ha; exact hx a (by simp [ha])
    · intro a ha
      by_cases hac : a = c
      · subst hac
        have := hbound a ha
        rw [List.count_cons_self] at this
        rw [if_pos rfl]
        omega
      · have := hbound a ha
        rw [List.count_cons_of_ne hac] at this
        rw [if_neg hac]
        omega
    · intro i hi
      rw [h1 i hi]
      by_cases hic : i = c
      · subst hic
        rw [if_pos rfl, List.count_cons_self]
        omega
      · rw [if_neg hic, List.count_cons_of_ne hic]
    · intro i hi
      rw [h2 i hi]
      by_cases hic : i = c
      · subst hic
        rw [if_pos rfl]
        simp
      · rw [if_neg hic]
        have : decide (i ∈ c :: rest) = decide (i ∈ rest) := by
          apply decide_eq_decide.2
          constructor
          · intro h
            rcases List.mem_cons.1 h with h | h
            · exact absurd h hic
            · exact h
          · intro h
            exact List.mem_cons_of_mem _ h
        rw [this]

/-- Failure characterization: some symbol's count would pass the cap. -/
theorem genLoop_none : ∀ (x : List Nat) (cnt : Nat → Nat) (ig : Nat → Bool),
    (∀ c ∈ x, c < NUM_CHARS) →
    (∀ c, cnt c ≤ COUNT_T_MAX) →
    (∃ c, c < NUM_CHARS ∧ COUNT_T_MAX < x.count c + cnt c) →
    generateCountsLoop x (slotArr cnt ig) = none := by
  intro x
  induction x with
  | nil =>
    intro cnt ig _ hle hex
    rcases hex with ⟨c, _, hc⟩
    have h0 : List.count c ([] : List Nat) = 0 := rfl
    rw [h0] at hc
    have := hle c
    omega
  | cons c rest ih =>
    intro cnt ig hx hle hex
    have hc : c < NUM_CHARS := hx c (by simp)
    show (match bumpSlot (slotArr cnt ig) c with
      | some arr2 => generateCountsLoop rest arr2
      | none => none) = none
    by_cases hccnt : cnt c < COUNT_T_MAX
    · rw [bumpSlot_slotArr hc hccnt]
      apply ih
      · intro a ha; exact hx a (by simp [ha])
      · intro a
        by_cases hac : a = c
        · subst hac; rw [if_pos rfl]; omega
        · rw [if_neg hac]; exact hle a
      · rcases hex with ⟨a, ha, hcount⟩
        refine ⟨a, ha, ?_⟩
        by_cases hac : a = c
        · subst hac
          rw [List.count_cons_self] at hcount
          rw [if_pos rfl]
          omega
        · rw [List.count_cons_of_ne hac] at hcount
          rw [if_neg hac]
          omega
    · rw [bumpSlot_slotArr_max hc hccnt]

/-- The active trees of a leaf array are the leaves at non-ignored indices. -/
theorem activeTrees_slotArr (cnt : Nat → Nat) (ig : Nat → Bool) :
    activeTrees (slotArr cnt ig)
      = ((List.range NUM_CHARS).filter (fun i => !(ig i))).map
          (fun i => HTree.leaf i (cnt i)) := by
  unfold activeTrees slotArr
  generalize List.range NUM_CHARS = l
  induction l with
  | nil => rfl
  | cons i rest ih =>
    rw [List.map_cons, List.flatMap_cons, ih]
    cases hig : ig i with
    | true =>
      rw [List.filter_cons_of_neg (by simp [hig])]
      show actOf (some (Slot.mk (HTree.leaf i (cnt i)) true)) ++ _ = _
      rw [show actOf (some (Slot.mk (HTree.leaf i (cnt i)) true)) = [] from rfl]
      rw [List.nil_append]
    | false =>
      rw [List.filter_cons_of_pos (by simp [hig])]
      show actOf (some (Slot.mk (HTree.leaf i (cnt i)) false)) ++ _ = _
      rw [show actOf (some (Slot.mk (HTree.leaf i (cnt i)) false))
        = [HTree.leaf i (cnt i)] from rfl]
      rw [List.map_cons]
      rfl

/-- Dropping zero-valued indices does not change a sum over a range. -/
theorem filter_map_sum_eq (l : List Nat) (p : Nat → Bool) (f : Nat → Nat)
    (h : ∀ i ∈ l, p i = false → f i = 0) :
    ((l.filter p).map f).sum = (l.map f).sum := by
  induction l with
  | nil => rfl
  | cons i rest ih =>
    rw [List.map_cons, List.sum_cons]
    cases hp : p i with
    | true =>
      rw [List.filter_cons_of_pos hp, List.map_cons, List.sum_cons]
      rw [ih (fun a ha hpa => h a (by simp [ha]) hpa)]
    | false =>
      rw [List.filter_cons_of_neg (by simp [hp])]
      rw [ih (fun a ha hpa => h a (by simp [ha]) hpa)]
      rw [h i (by simp) hp]
      omega

/-- Total of the per-symbol counts over the byte range is the input length. -/
theorem counts_sum : ∀ (x : List Nat) (n : Nat), (∀ c ∈ x, c < n) →
    ((List.range n).map (fun i => x.count i)).sum = x.length := by
  intro x
  induction x with
  | nil =>
    intro n _
    have : ∀ i ∈ List.range n, List.count i ([] : List Nat) = 0 := by
      intro i _; rfl
    rw [List.map_congr_left this]
    simp
  | cons c rest ih =>
    intro n hx
    have hc : c < n := hx c (by simp)
    have hsplit : ∀ i ∈ List.range n,
        List.count i (c :: rest) = rest.count i + (if i = c then 1 else 0) := by
      intro i _
      by_cases hic : i = c
      · subst hic
        rw [List.count_cons_self, if_pos rfl]
      · rw [List.count_cons_of_ne hic, if_neg hic]
        omega
    rw [List.map_congr_left hsplit]
    have hsum : ∀ (l : List Nat) (g h : Nat → Nat),
        (l.map (fun i => g i + h i)).sum = (l.map g).sum + (l.map h).sum := by
      intro l g h
      induction l with
      | nil => rfl
      | cons a as iha =>
        simp only [List.map_cons, List.sum_cons, iha]
        omega
    rw [hsum]
    rw [ih n (fun a ha => hx a (by simp [ha]))]
    have hind : ∀ (n : Nat), c < n →
        ((List.range n).map (fun i => if i = c then 1 else 0)).sum = 1 := by
      intro n
      induction n with
      | zero => intro h; omega
      | succ m ihm =>
        intro h
        rw [List.range_succ, List.map_append, List.sum_append]
        by_cases hmc : m = c
        · subst hmc
          have hz : ((List.range m).map (fun i => if i = m then 1 else 0)).sum = 0 := by
            have : ∀ i ∈ List.range m, (if i = m then 1 else 0) = 0 := by
              intro i hi
              rw [if_neg (by have := List.mem_range.1 hi; omega)]
            rw [List.map_congr_left this]
            simp
          rw [hz]
          simp
        · rw [ihm (by omega)]
          simp [hmc]
    rw [hind n hc]
    rfl

/-! ### The traditional header (WriteHeader / ReadHeader, huffman.c) -/

/-- `WriteHeader`: the left-first tree walk emits, for every leaf that is
neither composite nor EOF, its value byte followed by the four bytes of
its count; then the `(0, 0)` terminator. -/
def writeHeader (t : HTree) : List Nat :=
  (t.leafSeq.filter (fun p => !(p.1 == EOF_CHAR))).flatMap (fun p => p.1 :: le4 p.2)
    ++ 0 :: le4 0

/-- `ht[c]->count = count; ht[c]->ignore = FALSE` in `ReadHeader`. -/
def setSlotCount (arr : List (Option Slot)) (c cnt : Nat) : List (Option Slot) :=
  match arr.get? c with
  | some (some s) =>
    match s.t with
    | .leaf v _ => arr.set c (some (Slot.mk (HTree.leaf v cnt) false))
    | .comp _ _ _ _ => arr
  | _ => arr

/-- All header stores, in order. -/
def fillSlots (arr : List (Option Slot)) (pairs : List (Nat × Nat)) :
    List (Option Slot) :=
  pairs.foldl (fun a p => setSlotCount a p.1 p.2) arr

/-- The `ReadHeader` loop: read a symbol byte and a 32-bit count until the
`(0, 0)` terminator.  `none` models the malformed-header failure path
(character read hits EOF before the terminator) and a count truncated
mid-read (whose value the C code would leave unspecified). -/
def readHeaderLoop : Nat → List Bool → List (Option Slot) →
    Option (List (Option Slot) × List Bool)
  | 0, _, _ => none
  | fuel + 1, bs, arr =>
    match getChar8 bs with
    | none => none
    | some (c, bs1) =>
      match get32 bs1 with
      | none => none
      | some (cnt, bs2) =>
        if cnt = 0 ∧ c = 0 then some (arr, bs2)
        else readHeaderLoop fuel bs2 (setSlotCount arr c cnt)

/-- `MakeCodeList` produces the code array indexed by symbol; the encoder
reads `codeList[c]`.  `none` models the NULL code of a symbol that is not
in the tree (`BitArrayGetBits(NULL)` dereferences NULL). -/
def findCode (cl : List (Nat × List Bool)) (c : Nat) : Option (List Bool) :=
  (cl.find? (fun p => p.1 == c)).map Prod.snd

/-- The encoder's emission loop: write each input byte's code bits. -/
def encodeData (cl : List (Nat × List Bool)) : List Nat → Option (List Bool)
  | [] => some []
  | c :: rest =>
    match findCode cl c, encodeData cl rest with
    | some code, some bits => some (code ++ bits)
    | _, _ => none

/-- `HuffmanEncodeFile` on a byte sequence: generate the tree, the code
list, then emit header bytes, the data bits, the in-band EOF code, and the
zero padding of `BitFileClose`.  `none` collects the failure paths
(tree generation failure and NULL-code dereference). -/
def huffmanEncodeFile (x : List Nat) : Option (List Bool) :=
  match generateTreeSlots x with
  | none => none
  | some slots =>
    match buildHuffmanTree slots with
    | none => none
    | some tree =>
      match encodeData (makeCodeListWalk tree []) x,
            findCode (makeCodeListWalk tree []) EOF_CHAR with
      | some dataBits, some eofCode =>
          some (pad8 ((((writeHeader tree).map byteBits).flatten
            ++ dataBits) ++ eofCode))
      | _, _ => none

/-- `HuffmanDecodeFile` on a bit stream: rebuild the leaf array from the
header (plus the assumed EOF), rebuild the tree, and walk it bit by bit.
`none` models header failure, tree failure, and the NULL dereference of
stepping below a leaf; otherwise the routine returns TRUE with the decoded
bytes. -/
def huffmanDecodeFile (f : List Bool) : Option (List Nat) :=
  match readHeaderLoop f.length f initSlots with
  | none => none
  | some (arr, data) =>
    match buildHuffmanTree (setEOFSlot arr) with
    | none => none
    | some tree =>
      match decodeWalk tree tree data [] with
      | none => none
      | some (_, out, _) => some out

theorem encodeData_eq (cl : List (Nat × List Bool)) (g : Nat → List Bool) :
    ∀ (x : List Nat), (∀ c ∈ x, findCode cl c = some (g c)) →
    encodeData cl x = some ((x.map g).flatten) := by
  intro x
  induction x with
  | nil => intro _; rfl
  | cons c rest ih =>
    intro h
    show (match findCode cl c, encodeData cl rest with
      | some code, some bits => some (code ++ bits)
      | _, _ => none) = _
    rw [h c (by simp), ih (fun a ha => h a (by simp [ha]))]
    rfl

/-- Reading back a written header: the stream of encoded `(symbol, count)`
pairs followed by the terminator parses into the corresponding stores. -/
theorem readHeader_pairs : ∀ (pairs : List (Nat × Nat)) (fuel : Nat)
    (rest : List Bool) (arr : List (Option Slot)),
    pairs.length < fuel →
    (∀ p ∈ pairs, p.1 < 256 ∧ p.2 < 2 ^ 32 ∧ ¬ (p.1 = 0 ∧ p.2 = 0)) →
    readHeaderLoop fuel
      (((pairs.flatMap (fun p => p.1 :: le4 p.2) ++ 0 :: le4 0).map byteBits).flatten
        ++ rest) arr
      = some (fillSlots arr pairs, rest) := by
  intro pairs
  induction pairs with
  | nil =>
    intro fuel rest arr hfuel _
    match fuel, hfuel with
    | fuel + 1, _ =>
    show readHeaderLoop (fuel + 1)
      ((((0 :: le4 0 : List Nat)).map byteBits).flatten ++ rest) arr = some (arr, rest)
    show (match getChar8 ((byteBits 0 ++ ((le4 0).map byteBits).flatten) ++ rest) with
      | none => none
      | some (c, bs1) =>
        match get32 bs1 with
        | none => none
        | some (cnt, bs2) =>
          if cnt = 0 ∧ c = 0 then some (arr, bs2)
          else readHeaderLoop fuel bs2 (setSlotCount arr c cnt)) = some (arr, rest)
    rw [List.append_assoc, getChar8_byte (by omega)]
    show (match get32 (((le4 0).map byteBits).flatten ++ rest) with
      | none => none
      | some (cnt, bs2) =>
        if cnt = 0 ∧ (0 : Nat) = 0 then some (arr, bs2)
        else readHeaderLoop fuel bs2 (setSlotCount arr 0 cnt)) = some (arr, rest)
    rw [get32_le4 (by omega)]
    show (if (0 : Nat) = 0 ∧ (0 : Nat) = 0 then some (arr, rest)
      else readHeaderLoop fuel rest (setSlotCount arr 0 0)) = some (arr, rest)
    rw [if_pos ⟨rfl, rfl⟩]
  | cons p ps ih =>
    intro fuel rest arr hfuel hp
    match fuel, hfuel with
    | fuel + 1, hfuel =>
    obtain ⟨hp1, hp2, hp3⟩ := hp p (by simp)
    show (match getChar8 ((((p.1 :: le4 p.2) ++ (ps.flatMap (fun p => p.1 :: le4 p.2)
        ++ 0 :: le4 0)).map byteBits).flatten ++ rest) with
      | none => none
      | some (c, bs1) =>
        match get32 bs1 with
        | none => none
        | some (cnt, bs2) =>
          if cnt = 0 ∧ c = 0 then some (arr, bs2)
          else readHeaderLoop fuel bs2 (setSlotCount arr c cnt)) = _
    rw [show (((p.1 :: le4 p.2) ++ (ps.flatMap (fun p => p.1 :: le4 p.2)
        ++ 0 :: le4 0)).map byteBits).flatten ++ rest
      = byteBits p.1 ++ (((le4 p.2).map byteBits).flatten
        ++ ((((ps.flatMap (fun p => p.1 :: le4 p.2) ++ 0 :: le4 0)).map byteBits).flatten
          ++ rest)) from by
      simp [List.map_append, List.flatten_append, List.append_assoc]]
    rw [getChar8_byte hp1]
    show (match get32 (((le4 p.2).map byteBits).flatten
        ++ ((((ps.flatMap (fun p => p.1 :: le4 p.2) ++ 0 :: le4 0)).map byteBits).flatten
          ++ rest)) with
      | none => none
      | some (cnt, bs2) =>
        if cnt = 0 ∧ p.1 = 0 then some (arr, bs2)
        else readHeaderLoop fuel bs2 (setSlotCount arr p.1 cnt)) = _
    rw [get32_le4 hp2]
    show (if p.2 = 0 ∧ p.1 = 0 then _ else readHeaderLoop fuel
      ((((ps.flatMap (fun p => p.1 :: le4 p.2) ++ 0 :: le4 0)).map byteBits).flatten
        ++ rest) (setSlotCount arr p.1 p.2)) = _
    rw [if_neg (by intro ⟨h2, h1⟩; exact hp3 ⟨h1, h2⟩)]
    rw [ih fuel rest _ (by simp at hfuel; omega)
      (fun q hq => hp q (by simp [hq]))]
    rfl

theorem setSlotCount_slotArr {cnt : Nat → Nat} {ig : Nat → Bool} {c k : Nat}
    (hc : c < NUM_CHARS) :
    setSlotCount (slotArr cnt ig) c k
      = slotArr (fun i => if i = c then k else cnt i)
          (fun i => if i = c then false else ig i) := by
  unfold setSlotCount
  rw [slotArr_get? hc]
  show (slotArr cnt ig).set c (some (Slot.mk (HTree.leaf c k) false)) = _
  unfold slotArr
  dsimp only
  rw [show some (Slot.mk (HTree.leaf c k) false)
      = (fun i => some (Slot.mk (HTree.leaf i (if i = c then k else cnt i))
          (if i = c then false else ig i))) c from by simp]
  exact map_range_set NUM_CHARS c _
    (fun i => some (Slot.mk (HTree.leaf i (if i = c then k else cnt i))
      (if i = c then false else ig i)))
    hc
    (by intro i _ hic; simp [hic])

theorem fillSlots_slotArr : ∀ (pairs : List (Nat × Nat)) (cnt : Nat → Nat)
    (ig : Nat → Bool),
    (∀ p ∈ pairs, p.1 < NUM_CHARS) →
    (pairs.map Prod.fst).Nodup →
    ∀ (cnt' : Nat → Nat) (ig' : Nat → Bool),
    (∀ i, i < NUM_CHARS →
      cnt' i = ((pairs.find? (fun p => p.1 == i)).map Prod.snd).getD (cnt i)) →
    (∀ i, i < NUM_CHARS →
      ig' i = if (pairs.find? (fun p => p.1 == i)).isSome then false else ig i) →
    fillSlots (slotArr cnt ig) pairs = slotArr cnt' ig' := by
  intro pairs
  induction pairs with
  | nil =>
    intro cnt ig _ _ cnt' ig' h1 h2
    show slotArr cnt ig = slotArr cnt' ig'
    apply slotArr_congr
    · intro i hi
      rw [h1 i hi]
      rfl
    · intro i hi
      rw [h2 i hi]
      rfl
  | cons p ps ih =>
    intro cnt ig hlt hnd cnt' ig' h1 h2
    rw [List.map_cons] at hnd
    have hndc := List.nodup_cons.1 hnd
    have hp1 : p.1 < NUM_CHARS := (hlt p (by simp))
    show fillSlots (setSlotCount (slotArr cnt ig) p.1 p.2) ps = _
    rw [setSlotCount_slotArr hp1]
    apply ih _ _ (fun q hq => hlt q (by simp [hq])) hndc.2
    · intro i hi
      rw [h1 i hi]
      by_cases hic : i = p.1
      · rw [List.find?_cons_of_pos _ (by simp [hic])]
        have hnone : ps.find? (fun q => q.1 == i) = none := by
          rw [List.find?_eq_none]
          intro q hq
          simp only [beq_iff_eq]
          intro he
          apply hndc.1
          rw [← hic, ← he]
          exact List.mem_map.2 ⟨q, hq, rfl⟩
        rw [hnone]
        show p.2 = if i = p.1 then p.2 else cnt i
        rw [if_pos hic]
      · rw [List.find?_cons_of_neg _ (by simpa using fun he => hic he.symm)]
        cases hf : ps.find? (fun q => q.1 == i) with
        | none =>
          show cnt i = if i = p.1 then p.2 else cnt i
          rw [if_neg hic]
        | some q => rfl
    · intro i hi
      rw [h2 i hi]
      by_cases hic : i = p.1
      · rw [List.find?_cons_of_pos _ (by simp [hic])]
        show false = if (ps.find? (fun q => q.1 == i)).isSome = true then false
          else (if i = p.1 then false else ig i)
        by_cases hs : (ps.find? (fun q => q.1 == i)).isSome = true
        · rw [if_pos hs]
        · rw [if_neg hs, if_pos hic]
      · rw [List.find?_cons_of_neg _ (by simpa using fun he => hic he.symm)]
        show (if (ps.find? (fun q => q.1 == i)).isSome = true then false else ig i)
          = if (ps.find? (fun q => q.1 == i)).isSome = true then false
            else (if i = p.1 then false else ig i)
        rw [if_neg hic]

theorem flatten_leafSeq_map (cnt : Nat → Nat) : ∀ (l : List Nat),
    ((l.map (fun i => HTree.leaf i (cnt i))).map HTree.leafSeq).flatten
      = l.map (fun i => (i, cnt i)) := by
  intro l
  induction l with
  | nil => rfl
  | cons i rest ih =>
    simp only [List.map_cons, List.flatten_cons, ih]
    rfl

theorem flatten_byteBits_length : ∀ (l : List Nat),
    ((l.map byteBits).flatten).length = 8 * l.length := by
  intro l
  induction l with
  | nil => rfl
  | cons c rest ih =>
    simp only [List.map_cons, List.flatten_cons, List.length_append, ih,
      byteBits_length, List.length_cons]
    omega

theorem flatMap_pairs_length : ∀ (pairs : List (Nat × Nat)),
    (pairs.flatMap (fun p => p.1 :: le4 p.2)).length = 5 * pairs.length := by
  intro pairs
  induction pairs with
  | nil => rfl
  | cons p ps ih =>
    simp only [List.flatMap_cons, List.length_append, ih, List.length_cons]
    show (le4 p.2).length + 1 + 5 * ps.length = 5 * (ps.length + 1)
    show 4 + 1 + 5 * ps.length = 5 * (ps.length + 1)
    omega

theorem two_le_length {α : Type} {l : List α} {a b : α}
    (ha : a ∈ l) (hb : b ∈ l) (hne : a ≠ b) : 2 ≤ l.length := by
  match l with
  | [] => simp at ha
  | [x] =>
    rw [List.mem_singleton] at ha hb
    exact absurd (ha.trans hb.symm) hne
  | x :: y :: rest =>
    simp only [List.length_cons]
    omega

/-! ### Encoder-side slot characterization -/

/-- Final counts after `GenerateTreeFromFile`: one assumed EOF, plus the
occurrence count of each byte. -/
def cntE (x : List Nat) : Nat → Nat := fun i => if i = EOF_CHAR then 1 else x.count i

/-- Final ignore flags: EOF and every occurring byte are active. -/
def igE (x : List Nat) : Nat → Bool :=
  fun i => (if i = EOF_CHAR then false else true) && !(decide (i ∈ x))

/-- Indices of the active leaves, in order. -/
def activeIdx (x : List Nat) : List Nat :=
  (List.range NUM_CHARS).filter (fun i => !(igE x i))

theorem encSlots (x : List Nat) (hx : ∀ c ∈ x, c < 256)
    (hlen : x.length ≤ COUNT_T_MAX) :
    generateTreeSlots x = some (slotArr (cntE x) (igE x)) := by
  unfold generateTreeSlots
  rw [initSlots_eq, setEOF_slotArr]
  apply genLoop_spec x _ _
    (by intro c hc; have := hx c hc; unfold NUM_CHARS; omega)
  · intro c _
    have h1 : x.count c ≤ x.length := List.count_le_length c x
    by_cases hc : c = EOF_CHAR
    · rw [if_pos hc]
      have h256 : (256 : Nat) ∉ x := by
        intro hm
        have := hx 256 hm
        omega
      have h0 : x.count c = 0 := by
        rw [hc]
        exact List.count_eq_zero.mpr h256
      unfold COUNT_T_MAX
      omega
    · rw [if_neg hc]
      omega
  · intro i _
    unfold cntE
    by_cases hi : i = EOF_CHAR
    · rw [if_pos hi, if_pos hi]
      have h256 : (256 : Nat) ∉ x := by
        intro hmem
        have := hx 256 hmem
        omega
      have : x.count i = 0 := by
        apply List.count_eq_zero.mpr
        rw [hi]
        exact h256
      omega
    · rw [if_neg hi, if_neg hi]
      omega
  · intro i _
    rfl

theorem mem_activeIdx {x : List Nat} {i : Nat} :
    i ∈ activeIdx x ↔ (i = EOF_CHAR ∨ i ∈ x) ∧ i < NUM_CHARS := by
  unfold activeIdx
  rw [List.mem_filter, List.mem_range]
  unfold igE
  constructor
  · rintro ⟨hlt, hcond⟩
    refine ⟨?_, hlt⟩
    by_cases hi : i = EOF_CHAR
    · exact Or.inl hi
    · right
      rw [if_neg hi] at hcond
      simp only [Bool.true_and, Bool.not_not] at hcond
      exact of_decide_eq_true hcond
  · rintro ⟨hor, hlt⟩
    refine ⟨hlt, ?_⟩
    rcases hor with hi | hi
    · rw [if_pos hi]
      simp
    · by_cases he : i = EOF_CHAR
      · rw [if_pos he]; simp
      · rw [if_neg he]
        simp only [Bool.true_and, Bool.not_not]
        exact decide_eq_true hi

theorem activeIdx_nodup (x : List Nat) : (activeIdx x).Nodup :=
  List.Nodup.filter _ (List.nodup_range NUM_CHARS)

theorem activeTrees_enc (x : List Nat) :
    activeTrees (slotArr (cntE x) (igE x))
      = (activeIdx x).map (fun i => HTree.leaf i (cntE x i)) :=
  activeTrees_slotArr _ _

theorem cntE_pos (x : List Nat) {i : Nat} (h : i ∈ activeIdx x) :
    1 ≤ cntE x i := by
  rcases (mem_activeIdx.1 h).1 with hi | hi
  · unfold cntE
    rw [if_pos hi]
  · unfold cntE
    by_cases he : i = EOF_CHAR
    · rw [if_pos he]
    · rw [if_neg he]
      exact List.count_pos_iff_mem.2 hi

theorem sum_active (x : List Nat) (hx : ∀ c ∈ x, c < 256) :
    ((activeIdx x).map (cntE x)).sum = x.length + 1 := by
  unfold activeIdx
  rw [filter_map_sum_eq _ _ _ ?_]
  · have hsplit : List.range NUM_CHARS = List.range 256 ++ [256] := by
      show List.range (256 + 1) = _
      rw [List.range_succ]
    rw [hsplit, List.map_append, List.sum_append]
    have h1 : (List.range 256).map (cntE x) = (List.range 256).map (fun i => x.count i) := by
      apply List.map_congr_left
      intro i hi
      have := List.mem_range.1 hi
      unfold cntE
      rw [if_neg (by unfold EOF_CHAR; omega)]
    rw [h1, counts_sum x 256 hx]
    show x.length + (cntE x 256 + 0) = x.length + 1
    unfold cntE EOF_CHAR
    rw [if_pos rfl]
  · intro i hi hp
    have hi' := List.mem_range.1 hi
    have hni : ¬ (i = EOF_CHAR ∨ i ∈ x) := by
      intro hor
      have : i ∈ activeIdx x := mem_activeIdx.2 ⟨hor, hi'⟩
      unfold activeIdx at this
      rw [List.mem_filter] at this
      rw [this.2] at hp
      exact absurd hp (by simp)
    push_neg at hni
    unfold cntE
    rw [if_neg hni.1]
    exact List.count_eq_zero.mpr hni.2

theorem numLeaves_pos (t : HTree) : 1 ≤ t.numLeaves := by
  induction t with
  | leaf v c => exact le_refl 1
  | comp c lv l r ihl ihr =>
    show 1 ≤ l.numLeaves + r.numLeaves
    omega

theorem leafSeq_singleton {t : HTree} {v c : Nat} (h : t.leafSeq = [(v, c)]) :
    t = HTree.leaf v c := by
  cases t with
  | leaf v' c' =>
    have : ((v', c') : Nat × Nat) = (v, c) := by
      have h2 : [((v' : Nat), (c' : Nat))] = [(v, c)] := h
      injection h2
    injection this with h1 h2
    rw [h1, h2]
  | comp c0 lv l r =>
    exfalso
    have h1 : (HTree.comp c0 lv l r).leafSeq.length = 1 := by rw [h]; rfl
    have h2 : (HTree.comp c0 lv l r).leafSeq.length
        = l.leafSeq.length + r.leafSeq.length := by
      show (l.leafSeq ++ r.leafSeq).length = _
      rw [List.length_append]
    have h3 := numLeaves_pos l
    have h4 := numLeaves_pos r
    rw [← leafSeq_length l] at h3
    rw [← leafSeq_length r] at h4
    omega

set_option maxRecDepth 8192 in
/-- Round trip of the traditional coder when the total count fits below
`INT_MAX`: encoding succeeds and decoding its output returns the input
bytes with a success status. -/
theorem traditional_roundtrip (x : List Nat) (hx : ∀ c ∈ x, c < 256)
    (hlen : x.length + 1 ≤ INT_MAX) :
    ∃ f, huffmanEncodeFile x = some f ∧ huffmanDecodeFile f = some x := by
  have hlenM : x.length ≤ COUNT_T_MAX := by
    unfold COUNT_T_MAX
    unfold INT_MAX at hlen
    omega
  have hslots := encSlots x hx hlenM
  have hAT := activeTrees_enc x
  have hEOFmem : EOF_CHAR ∈ activeIdx x :=
    mem_activeIdx.2 ⟨Or.inl rfl, by unfold EOF_CHAR NUM_CHARS; omega⟩
  have hn1 : 1 ≤ (activeTrees (slotArr (cntE x) (igE x))).length := by
    rw [hAT, List.length_map]
    have hne : activeIdx x ≠ [] := List.ne_nil_of_mem hEOFmem
    have := List.length_pos.mpr hne
    omega
  have hsum : ((activeTrees (slotArr (cntE x) (igE x))).map HTree.count).sum
      = x.length + 1 := by
    rw [hAT, List.map_map]
    rw [show (HTree.count ∘ fun i => HTree.leaf i (cntE x i)) = cntE x from rfl]
    exact sum_active x hx
  obtain ⟨t, htree, hwf, hfib, hperm0, hcnt, hcomps⟩ :=
    buildHuffmanTree_spec (activeTrees (slotArr (cntE x) (igE x))).length
      (slotArr (cntE x) (igE x)) 0 rfl hn1
      (by
        intro u hu
        rw [hAT] at hu
        obtain ⟨i, hi, rfl⟩ := List.mem_map.1 hu
        exact ⟨trivial, cntE_pos x hi⟩)
      (by rw [hsum]; exact hlen)
      (by intro u _; exact Nat.zero_le _)
      (by
        intro u hu hl
        rw [hAT] at hu
        obtain ⟨i, hi, rfl⟩ := List.mem_map.1 hu
        have h0 : (HTree.leaf i (cntE x i)).level = 0 := rfl
        omega)
  have hperm : List.Perm t.leafSeq ((activeIdx x).map (fun i => (i, cntE x i))) := by
    have h1 := hperm0
    rw [hAT, flatten_leafSeq_map] at h1
    exact h1
  -- the code list produced by the MakeCodeList walk
  have hwalkfst : (makeCodeListWalk t []).map Prod.fst = t.leafSeq.map Prod.fst :=
    walk_map_fst t []
  have hleaffst : List.Perm (t.leafSeq.map Prod.fst) (activeIdx x) := by
    have h1 := hperm.map Prod.fst
    rw [List.map_map] at h1
    rw [show (Prod.fst ∘ fun i => ((i : Nat), cntE x i)) = id from rfl] at h1
    rw [List.map_id] at h1
    exact h1
  have hndleaf : (t.leafSeq.map Prod.fst).Nodup :=
    List.Perm.nodup hleaffst.symm (activeIdx_nodup x)
  have hndwalk : ((makeCodeListWalk t []).map Prod.fst).Nodup := by
    rw [hwalkfst]
    exact hndleaf
  have hfind : ∀ c ∈ activeIdx x, ∃ p,
      findCode (makeCodeListWalk t []) c = some p ∧ pathToLeaf t p c := by
    intro c hc
    have hcmem : c ∈ (makeCodeListWalk t []).map Prod.fst := by
      rw [hwalkfst]
      exact hleaffst.mem_iff.2 hc
    obtain ⟨pr, hpr, hfst⟩ := List.mem_map.1 hcmem
    have hprm : ((c, pr.2) : Nat × List Bool) ∈ makeCodeListWalk t [] := by
      rw [← hfst]
      exact hpr
    have hf := find?_of_mem_nodup _ c pr.2 hndwalk hprm
    refine ⟨pr.2, ?_, ?_⟩
    · unfold findCode
      rw [hf]
      rfl
    · obtain ⟨q, hq, hpath⟩ := (walk_mem t [] c pr.2).1 hprm
      rw [List.nil_append] at hq
      rw [hq]
      exact hpath
  have hfindg : ∀ c ∈ activeIdx x,
      findCode (makeCodeListWalk t []) c
        = some ((findCode (makeCodeListWalk t []) c).getD [])
      ∧ pathToLeaf t ((findCode (makeCodeListWalk t []) c).getD []) c := by
    intro c hc
    obtain ⟨p, hp1, hp2⟩ := hfind c hc
    rw [hp1]
    exact ⟨rfl, hp2⟩
  have hxactive : ∀ c ∈ x, c ∈ activeIdx x := by
    intro c hc
    exact mem_activeIdx.2 ⟨Or.inr hc, by have := hx c hc; unfold NUM_CHARS; omega⟩
  have hdata : encodeData (makeCodeListWalk t []) x
      = some ((x.map (fun c => (findCode (makeCodeListWalk t []) c).getD [])).flatten) :=
    encodeData_eq _ _ x (fun c hc => (hfindg c (hxactive c hc)).1)
  have heof : findCode (makeCodeListWalk t []) EOF_CHAR
      = some ((findCode (makeCodeListWalk t []) EOF_CHAR).getD []) :=
    (hfindg EOF_CHAR hEOFmem).1
  have henc : huffmanEncodeFile x
      = some (pad8 (((((writeHeader t).map byteBits).flatten)
          ++ (x.map (fun c => (findCode (makeCodeListWalk t []) c).getD [])).flatten)
          ++ (findCode (makeCodeListWalk t []) EOF_CHAR).getD [])) := by
    unfold huffmanEncodeFile
    rw [hslots]
    show (match buildHuffmanTree (slotArr (cntE x) (igE x)) with
      | none => none
      | some tree =>
        match encodeData (makeCodeListWalk tree []) x,
              findCode (makeCodeListWalk tree []) EOF_CHAR with
        | some dataBits, some eofCode =>
            some (pad8 ((((writeHeader tree).map byteBits).flatten
              ++ dataBits) ++ eofCode))
        | _, _ => none) = _
    rw [htree]
    show (match encodeData (makeCodeListWalk t []) x,
              findCode (makeCodeListWalk t []) EOF_CHAR with
        | some dataBits, some eofCode =>
            some (pad8 ((((writeHeader t).map byteBits).flatten
              ++ dataBits) ++ eofCode))
        | _, _ => none) = _
    rw [hdata, heof]
    rfl
  refine ⟨_, henc, ?_⟩
  -- parse the header back
  set g : Nat → List Bool := fun c => (findCode (makeCodeListWalk t []) c).getD []
    with hgdef
  set hb : List Bool := ((writeHeader t).map byteBits).flatten with hhb
  set f : List Bool := pad8 ((hb ++ (x.map g).flatten) ++ g EOF_CHAR) with hfdef
  set pairs : List (Nat × Nat) := t.leafSeq.filter (fun p => !(p.1 == EOF_CHAR))
    with hpairs
  set padding : List Bool :=
    List.replicate ((8 - ((hb ++ (x.map g).flatten) ++ g EOF_CHAR).length % 8) % 8)
      false with hpad
  have hwrite : writeHeader t = pairs.flatMap (fun p => p.1 :: le4 p.2) ++ 0 :: le4 0 :=
    rfl
  have hpairmem : ∀ p ∈ pairs, p ∈ t.leafSeq ∧ p.1 ≠ EOF_CHAR := by
    intro p hp
    rw [hpairs] at hp
    refine ⟨List.mem_of_mem_filter hp, ?_⟩
    have := List.of_mem_filter hp
    simpa using this
  have hpair_shape : ∀ p ∈ pairs, ∃ i, i ∈ activeIdx x ∧ p = (i, cntE x i) := by
    intro p hp
    have hm := (hpairmem p hp).1
    have h2 := hperm.mem_iff.1 hm
    obtain ⟨i, hi, hpe⟩ := List.mem_map.1 h2
    exact ⟨i, hi, hpe.symm⟩
  have hpaircond : ∀ p ∈ pairs, p.1 < 256 ∧ p.2 < 2 ^ 32 ∧ ¬ (p.1 = 0 ∧ p.2 = 0) := by
    intro p hp
    obtain ⟨i, hi, rfl⟩ := hpair_shape p hp
    have hne : i ≠ EOF_CHAR := (hpairmem _ hp).2
    have hiA := mem_activeIdx.1 hi
    have hilt : i < 256 := by
      rcases hiA.1 with h | h
      · exact absurd h hne
      · exact hx i h
    have hcnt1 : 1 ≤ cntE x i := cntE_pos x hi
    have hcntle : cntE x i ≤ x.length := by
      show (if i = EOF_CHAR then 1 else x.count i) ≤ x.length
      rw [if_neg hne]
      exact List.count_le_length i x
    refine ⟨hilt, by unfold INT_MAX at hlen; omega, ?_⟩
    rintro ⟨_, h2⟩
    omega
  have hndpairs : (pairs.map Prod.fst).Nodup := by
    have hsub : (pairs.map Prod.fst).Sublist (t.leafSeq.map Prod.fst) := by
      rw [hpairs]
      exact (List.filter_sublist _).map _
    exact hsub.nodup hndleaf
  have hfdecomp : f = hb ++ ((x.map g).flatten ++ (g EOF_CHAR ++ padding)) := by
    rw [hfdef]
    unfold pad8
    rw [hpad]
    simp [List.append_assoc]
  have hheadlen : hb.length = 8 * (5 * pairs.length + 5) := by
    rw [hhb, flatten_byteBits_length, hwrite, List.length_append, flatMap_pairs_length]
    rfl
  have hfuel : pairs.length < f.length := by
    have hge : hb.length ≤ f.length := by
      rw [hfdecomp, List.length_append]
      omega
    omega
  have hbexp : hb = ((pairs.flatMap (fun p => p.1 :: le4 p.2) ++ 0 :: le4 0).map
      byteBits).flatten := by
    rw [hhb, hwrite]
  have hfeq : f.length
      = (hb ++ ((x.map g).flatten ++ (g EOF_CHAR ++ padding))).length :=
    congrArg List.length hfdecomp
  have hread : readHeaderLoop f.length f initSlots
      = some (fillSlots initSlots pairs, (x.map g).flatten ++ (g EOF_CHAR ++ padding)) := by
    conv_lhs => rw [hfdecomp, hbexp]
    apply readHeader_pairs pairs _ _ initSlots ?_ hpaircond
    rw [← hbexp, ← hfeq]
    exact hfuel
  -- the decoder's array equals the encoder's
  have hfill : setEOFSlot (fillSlots initSlots pairs) = slotArr (cntE x) (igE x) := by
    rw [initSlots_eq]
    rw [fillSlots_slotArr pairs _ _
      (by intro p hp; have := (hpaircond p hp).1; unfold NUM_CHARS; omega)
      hndpairs
      (fun i => ((pairs.find? (fun p => p.1 == i)).map Prod.snd).getD 0)
      (fun i => if (pairs.find? (fun p => p.1 == i)).isSome then false else true)
      (fun i _ => rfl) (fun i _ => rfl)]
    rw [setEOF_slotArr]
    have hfindpairs : ∀ i, i ∈ x →
        pairs.find? (fun p => p.1 == i) = some (i, cntE x i) := by
      intro i hmem
      apply find?_of_mem_nodup pairs i (cntE x i) hndpairs
      rw [hpairs]
      apply List.mem_filter.2
      refine ⟨hperm.mem_iff.2 (List.mem_map.2 ⟨i, hxactive i hmem, rfl⟩), ?_⟩
      have hie : i ≠ EOF_CHAR := by
        have := hx i hmem
        unfold EOF_CHAR
        omega
      simpa using hie
    have hfindnone : ∀ i, ¬ i ∈ x →
        pairs.find? (fun p => p.1 == i) = none := by
      intro i hmem
      rw [List.find?_eq_none]
      intro p hp
      simp only [beq_iff_eq]
      intro he
      obtain ⟨j, hj, hpe⟩ := hpair_shape p hp
      have hji : j = i := by
        rw [hpe] at he
        exact he
      rw [hji] at hj
      rcases (mem_activeIdx.1 hj).1 with h | h
      · exact (hpairmem p hp).2 (by rw [hpe]; show j = EOF_CHAR; omega)
      · exact hmem h
    apply slotArr_congr
    · intro i hi
      by_cases hie : i = EOF_CHAR
      · rw [if_pos hie]
        show 1 = cntE x i
        unfold cntE
        rw [if_pos hie]
      · rw [if_neg hie]
        by_cases hmem : i ∈ x
        · rw [hfindpairs i hmem]
          show cntE x i = cntE x i
          rfl
        · rw [hfindnone i hmem]
          show (0 : Nat) = cntE x i
          unfold cntE
          rw [if_neg hie, List.count_eq_zero.mpr hmem]
    · intro i hi
      by_cases hie : i = EOF_CHAR
      · rw [if_pos hie]
        show false = igE x i
        unfold igE
        rw [if_pos hie]
        simp
      · rw [if_neg hie]
        by_cases hmem : i ∈ x
        · rw [hfindpairs i hmem]
          show false = igE x i
          unfold igE
          rw [if_neg hie]
          simp [hmem]
        · rw [hfindnone i hmem]
          show true = igE x i
          unfold igE
          rw [if_neg hie]
          simp [hmem]
  -- run the decoder
  show huffmanDecodeFile f = some x
  unfold huffmanDecodeFile
  rw [hread]
  show (match buildHuffmanTree (setEOFSlot (fillSlots initSlots pairs)) with
    | none => none
    | some tree =>
      match decodeWalk tree tree ((x.map g).flatten ++ (g EOF_CHAR ++ padding)) [] with
      | none => none
      | some (_, out, _) => some out) = some x
  rw [hfill, htree]
  show (match decodeWalk t t ((x.map g).flatten ++ (g EOF_CHAR ++ padding)) [] with
    | none => none
    | some (_, out, _) => some out) = some x
  by_cases hxe : x = []
  · subst hxe
    have hA : activeIdx [] = [EOF_CHAR] := by rfl
    have hperm1 : List.Perm t.leafSeq [(EOF_CHAR, 1)] := by
      have h1 := hperm
      rw [hA] at h1
      exact h1
    have hteq : t = HTree.leaf EOF_CHAR 1 :=
      leafSeq_singleton (List.Perm.eq_singleton hperm1)
    subst hteq
    show (match decodeWalk (HTree.leaf EOF_CHAR 1) (HTree.leaf EOF_CHAR 1)
        ((([] : List Nat).map g).flatten
          ++ (g EOF_CHAR ++ padding)) [] with
      | none => none
      | some (_, out, _) => some out) = some []
    have hgeof : g EOF_CHAR = [] := by
      rw [hgdef]
      rfl
    have hpadnil : padding = [] := by
      rw [hpad, hgeof, hhb]
      show List.replicate
        ((8 - ((((writeHeader (HTree.leaf EOF_CHAR 1)).map byteBits).flatten
          ++ ([] : List Bool)) ++ []).length % 8) % 8) false = []
      decide
    rw [hgeof, hpadnil]
    show (match decodeWalk (HTree.leaf EOF_CHAR 1) (HTree.leaf EOF_CHAR 1)
        (([] : List Bool) ++ ([] ++ [])) [] with
      | none => none
      | some (_, out, _) => some out) = some ([] : List Nat)
    rfl
  · obtain ⟨c0, hc0⟩ := List.exists_mem_of_ne_nil x hxe
    have hc0act := hxactive c0 hc0
    have hn2 : 2 ≤ (activeIdx x).length :=
      two_le_length hc0act hEOFmem (by have := hx c0 hc0; unfold EOF_CHAR; omega)
    have hcompn : 1 ≤ t.numComps := by
      rw [hcomps]
      have hzero : ((activeTrees (slotArr (cntE x) (igE x))).map HTree.numComps).sum
          = 0 := by
        rw [hAT, List.map_map]
        rw [show (HTree.numComps ∘ fun i => HTree.leaf i (cntE x i))
          = (fun _ => 0) from rfl]
        simp
      rw [hzero, hAT, List.length_map]
      omega
    obtain ⟨cc, clv, cl, cr, hteq⟩ : ∃ cc clv cl cr, t = HTree.comp cc clv cl cr := by
      cases t with
      | leaf v c =>
        exfalso
        have h0 : (HTree.leaf v c).numComps = 0 := rfl
        omega
      | comp a b c d => exact ⟨a, b, c, d, rfl⟩
    have hnonempty : ∀ c ∈ activeIdx x, g c ≠ [] := by
      intro c hc hgnil
      have hpath := (hfindg c hc).2
      rw [show ((findCode (makeCodeListWalk t []) c).getD []) = g c from rfl] at hpath
      rw [hgnil, hteq] at hpath
      exact hpath
    have hmulti := decodeWalk_multi t g x (g EOF_CHAR ++ padding) []
      (by
        intro c hc
        refine ⟨(hfindg c (hxactive c hc)).2, hnonempty c (hxactive c hc), ?_⟩
        have := hx c hc
        unfold EOF_CHAR
        omega)
    rw [hmulti]
    have heofstep := (decodeWalk_one t (g EOF_CHAR) t EOF_CHAR padding (x.reverse ++ []))
        (hfindg EOF_CHAR hEOFmem).2 (hnonempty EOF_CHAR hEOFmem)
    rw [heofstep.2 rfl]
    show some (x.reverse ++ []).reverse = some x
    rw [List.append_nil, List.reverse_reverse]

/-! ### Canonical multi-symbol decoding -/

theorem canonSpec_map_vl : ∀ (ds : List CEntry),
    (canonSpec ds).map (fun e => (e.value, e.codeLen))
      = ds.map (fun e => (e.value, e.codeLen)) := by
  intro ds
  induction ds with
  | nil => rfl
  | cons e rest ih =>
    show ((e.value, e.codeLen) :: (canonSpec rest).map _) = _
    rw [ih]
    rfl

theorem cdecode_multi2 {ds zs : List CEntry}
    (hsort : List.Pairwise (fun a b : CEntry => b.codeLen ≤ a.codeLen) ds)
    (hlen : ∀ e ∈ ds, 1 ≤ e.codeLen ∧ e.codeLen ≤ 255)
    (hS : S256 ds ≤ B256)
    (hzs : ∀ e ∈ zs, e.codeLen = 0) :
    ∀ (xs : List Nat) (kOf : Nat → Nat) (eOf : Nat → CEntry)
      (rest : List Bool) (out : List Nat),
    (∀ c ∈ xs, ds.get? (kOf c) = some (eOf c) ∧ (eOf c).value = c ∧ c ≠ EOF_CHAR) →
    cdecodeLoop (zs ++ (canonSpec ds).reverse)
      ((xs.map (fun c => codeBits (B256 - S256 (ds.drop (kOf c)))
        (eOf c).codeLen)).flatten ++ rest) 0 0 out
      = cdecodeLoop (zs ++ (canonSpec ds).reverse) rest 0 0 (xs.reverse ++ out) := by
  intro xs
  induction xs with
  | nil => intro kOf eOf rest out _; simp
  | cons c cs ih =>
    intro kOf eOf rest out hall
    obtain ⟨hget, hval, hne⟩ := hall c (by simp)
    have hmem := List.get?_mem hget
    have hl := hlen _ hmem
    obtain ⟨hdvd, hSle, hSpos⟩ := canonSpec_self_facts hsort hlen hS hget
    have hB : 0 < B256 := Nat.pos_pow_of_pos _ (by omega)
    simp only [List.map_cons, List.flatten_cons, List.append_assoc]
    rw [cdecode_symbol _ _ _ ((eOf c).value) _ hl.1 hl.2 hdvd (by omega)
      (table_nomatch hsort hlen hS hzs hget)
      (table_match hsort hlen hS hzs hget) out]
    rw [if_neg (by rw [hval]; exact hne)]
    rw [hval]
    rw [ih kOf eOf rest (c :: out) (fun a ha => hall a (by simp [ha]))]
    simp

/-! ### Canonical top-level (CHuffmanEncodeFile / CHuffmanDecodeFile) -/

/-- `BuildCanonicalCode`: initialize the canonical list, record the code
lengths from the tree walk, sort by `CompareByCodeLen`, assign canonical
codes, and re-sort by symbol value for use by the encoder. -/
def buildCanonicalCode (t : HTree) : List CEntry :=
  sortByValue (assignCanonicalCodes (sortByLen
    (fillLens initCanonList (canonWalkLens t 0))))

/-- `WriteHeader` (chuffman): one code-length byte per symbol, EOF
included, `NUM_CHARS` bytes in total. -/
def writeCHeader (cl : List CEntry) : List Nat := cl.map (fun e => e.codeLen)

/-- The canonical encoder's emission loop: for each input byte, the first
`codeLen` bits of its 256-bit left-justified code. `none` models
`BitArrayGetBits(NULL)` for a symbol without a code. -/
def cEncodeData (cl : List CEntry) : List Nat → Option (List Bool)
  | [] => some []
  | c :: rest =>
    match cl.get? c, cEncodeData cl rest with
    | some e, some bits =>
      match e.code with
      | some cv => some (codeBits cv e.codeLen ++ bits)
      | none => none
    | _, _ => none

/-- `CHuffmanEncodeFile`: tree, canonical code, the 257 header bytes, the
data bits, the in-band EOF code, and the closing zero padding. -/
def cHuffmanEncodeFile (x : List Nat) : Option (List Bool) :=
  match generateTreeSlots x with
  | none => none
  | some slots =>
    match buildHuffmanTree slots with
    | none => none
    | some tree =>
      match cEncodeData (buildCanonicalCode tree) x,
            (buildCanonicalCode tree).get? EOF_CHAR with
      | some dataBits, some eEof =>
        match eEof.code with
        | some cv =>
          some (pad8 ((((writeCHeader (buildCanonicalCode tree)).map byteBits).flatten
            ++ dataBits) ++ codeBits cv eEof.codeLen))
        | none => none
      | _, _ => none

/-- `ReadHeader` (chuffman): read `NUM_CHARS` code-length bytes. -/
def readBytes : Nat → List Bool → Option (List Nat × List Bool)
  | 0, bs => some ([], bs)
  | n + 1, bs =>
    match getChar8 bs with
    | none => none
    | some (c, bs1) =>
      match readBytes n bs1 with
      | none => none
      | some (cs, bs2) => some (c :: cs, bs2)

/-- `CHuffmanDecodeFile`: rebuild the canonical list from the header's code
lengths (value `i`, NULL code), sort by code length, assign the same codes
as the encoder, then run the bit-accumulating decode loop; the routine
returns TRUE with whatever was decoded when the bit stream ends or EOF is
decoded. -/
def cHuffmanDecodeFile (f : List Bool) : Option (List Nat) :=
  match readBytes NUM_CHARS f with
  | none => none
  | some (lens, rest) =>
    some (cdecodeLoop
      (assignCanonicalCodes (sortByLen
        ((List.range NUM_CHARS).map (fun i => CEntry.mk i (lens.getD i 0) none))))
      rest 0 0 [])

/-- The values of the assigned entries, in order. -/
theorem canonSpec_map_value : ∀ (ds : List CEntry),
    (canonSpec ds).map (fun e => e.value) = ds.map (fun e => e.value) := by
  intro ds
  induction ds with
  | nil => rfl
  | cons e rest ih =>
    show (e.value :: (canonSpec rest).map _) = _
    rw [ih]
    rfl

/-- Canonical assignment preserves the bound on the code lengths. -/
theorem canonSpec_len_le {ds : List CEntry} (h : ∀ e ∈ ds, e.codeLen ≤ 255) :
    ∀ e ∈ canonSpec ds, e.codeLen ≤ 255 := by
  intro e he
  have h1 : (e.value, e.codeLen) ∈ (canonSpec ds).map (fun e => (e.value, e.codeLen)) :=
    List.mem_map.2 ⟨e, he, rfl⟩
  rw [canonSpec_map_vl] at h1
  obtain ⟨d, hd, hde⟩ := List.mem_map.1 h1
  have h2 : d.codeLen = e.codeLen := congrArg Prod.snd hde
  rw [← h2]
  exact h d hd

/-- `lensFun` returns 0 or the second component of a pair of the list. -/
theorem lensFun_cases (ls : List (Nat × Nat)) (i : Nat) :
    lensFun ls i = 0 ∨ (i, lensFun ls i) ∈ ls := by
  unfold lensFun
  cases hf : ls.find? (fun p => p.1 == i) with
  | none => exact Or.inl rfl
  | some p =>
    right
    have h1 : p.1 = i := by simpa using List.find?_some hf
    have h2 := List.mem_of_find?_eq_some hf
    show ((i, p.2) : Nat × Nat) ∈ ls
    rw [← h1]
    exact h2

theorem lensFun_of_mem {ls : List (Nat × Nat)} {i d : Nat}
    (hnd : (ls.map Prod.fst).Nodup) (h : (i, d) ∈ ls) : lensFun ls i = d := by
  unfold lensFun
  rw [find?_of_mem_nodup ls i d hnd h]
  rfl

/-- The nonzero-length symbols of the rebuilt range list are exactly the
pairs of the traversal result, as a permutation. -/
theorem filter_range_perm (ls : List (Nat × Nat)) (N : Nat)
    (hnd : (ls.map Prod.fst).Nodup)
    (hlt : ∀ p ∈ ls, p.1 < N)
    (hpos : ∀ p ∈ ls, 1 ≤ p.2) :
    List.Perm (((List.range N).filter (fun i => !(lensFun ls i == 0))).map
      (fun i => (i, lensFun ls i))) ls := by
  refine (List.perm_ext_iff_of_nodup ?_ ?_).2 ?_
  · refine List.Nodup.map ?_ (List.Nodup.filter _ (List.nodup_range N))
    intro a b hab
    exact congrArg Prod.fst hab
  · exact List.Nodup.of_map Prod.fst hnd
  · intro p
    constructor
    · intro hp
      obtain ⟨i, hi, hpe⟩ := List.mem_map.1 hp
      have hif := List.mem_filter.1 hi
      have hne : lensFun ls i ≠ 0 := by simpa using hif.2
      rcases lensFun_cases ls i with h | h
      · exact absurd h hne
      · rw [← hpe]
        exact h
    · intro hp
      have hp' : ((p.1, p.2) : Nat × Nat) ∈ ls := by
        rw [Prod.mk.eta]
        exact hp
      have hl2 : lensFun ls p.1 = p.2 := lensFun_of_mem hnd hp'
      refine List.mem_map.2 ⟨p.1, List.mem_filter.2 ⟨List.mem_range.2 (hlt p hp), ?_⟩, ?_⟩
      · rw [hl2]
        have := hpos p hp
        simpa using (by omega : p.2 ≠ 0)
      · rw [hl2]

theorem S256_perm {l1 l2 : List CEntry} (h : List.Perm l1 l2) : S256 l1 = S256 l2 :=
  List.Perm.sum_eq (h.map _)

/-- The canonical emission loop on a table whose entries carry the
`canonSpec` codes of a longest-first list `ds`. -/
theorem cEncodeData_eq2 (cl ds : List CEntry) (kOf : Nat → Nat) (eOf : Nat → CEntry) :
    ∀ (x : List Nat),
    (∀ c ∈ x, cl.get? c
      = some (CEntry.mk c (eOf c).codeLen (some (B256 - S256 (ds.drop (kOf c)))))) →
    cEncodeData cl x
      = some ((x.map (fun c => codeBits (B256 - S256 (ds.drop (kOf c)))
          (eOf c).codeLen)).flatten) := by
  intro x
  induction x with
  | nil => intro _; rfl
  | cons c cs ih =>
    intro hall
    show (match cl.get? c, cEncodeData cl cs with
      | some e, some bits =>
        match e.code with
        | some cv => some (codeBits cv e.codeLen ++ bits)
        | none => none
      | _, _ => none) = _
    rw [hall c (by simp), ih (fun a ha => hall a (by simp [ha]))]
    rfl

theorem readBytes_bytes : ∀ (bytes : List Nat) (rest : List Bool),
    (∀ b ∈ bytes, b < 256) →
    readBytes bytes.length ((bytes.map byteBits).flatten ++ rest)
      = some (bytes, rest) := by
  intro bytes
  induction bytes with
  | nil => intro rest _; rfl
  | cons b bs ih =>
    intro rest h
    rw [show ((b :: bs).map byteBits).flatten ++ rest
      = byteBits b ++ ((bs.map byteBits).flatten ++ rest) from by
        simp [List.append_assoc]]
    show (match getChar8 (byteBits b ++ ((bs.map byteBits).flatten ++ rest)) with
      | none => none
      | some (c, bs1) =>
        match readBytes bs.length bs1 with
        | none => none
        | some (cs, bs2) => some (c :: cs, bs2)) = some (b :: bs, rest)
    rw [getChar8_byte (h b (by simp))]
    show (match readBytes bs.length ((bs.map byteBits).flatten ++ rest) with
      | none => none
      | some (cs, bs2) => some (b :: cs, bs2)) = some (b :: bs, rest)
    rw [ih rest (fun a ha => h a (by simp [ha]))]

/-- Unfolding of the canonical decoder once the header bytes are read. -/
theorem cHuffmanDecodeFile_eq {f : List Bool} {lens : List Nat} {rest : List Bool}
    (h : readBytes NUM_CHARS f = some (lens, rest)) :
    cHuffmanDecodeFile f = some (cdecodeLoop (assignCanonicalCodes (sortByLen
      ((List.range NUM_CHARS).map (fun i => CEntry.mk i (lens.getD i 0) none))))
      rest 0 0 []) := by
  unfold cHuffmanDecodeFile
  rw [h]

set_option maxRecDepth 16384 in
set_option maxHeartbeats 4000000 in
/-- Round trip of the canonical coder when the total count fits below
`INT_MAX`: encoding succeeds and decoding its output returns the input
bytes with a success status. -/
theorem canonical_roundtrip (x : List Nat) (hx : ∀ c ∈ x, c < 256)
    (hlen : x.length + 1 ≤ INT_MAX) :
    ∃ f, cHuffmanEncodeFile x = some f ∧ cHuffmanDecodeFile f = some x := by
  have hlenM : x.length ≤ COUNT_T_MAX := by
    unfold COUNT_T_MAX
    unfold INT_MAX at hlen
    omega
  have hslots := encSlots x hx hlenM
  have hAT := activeTrees_enc x
  have hEOFmem : EOF_CHAR ∈ activeIdx x :=
    mem_activeIdx.2 ⟨Or.inl rfl, by unfold EOF_CHAR NUM_CHARS; omega⟩
  have hn1 : 1 ≤ (activeTrees (slotArr (cntE x) (igE x))).length := by
    rw [hAT, List.length_map]
    have hne : activeIdx x ≠ [] := List.ne_nil_of_mem hEOFmem
    have := List.length_pos.mpr hne
    omega
  have hsum : ((activeTrees (slotArr (cntE x) (igE x))).map HTree.count).sum
      = x.length + 1 := by
    rw [hAT, List.map_map]
    rw [show (HTree.count ∘ fun i => HTree.leaf i (cntE x i)) = cntE x from rfl]
    exact sum_active x hx
  obtain ⟨t, htree, hwf, hfib, hperm0, hcnt, hcomps⟩ :=
    buildHuffmanTree_spec (activeTrees (slotArr (cntE x) (igE x))).length
      (slotArr (cntE x) (igE x)) 0 rfl hn1
      (by
        intro u hu
        rw [hAT] at hu
        obtain ⟨i, hi, rfl⟩ := List.mem_map.1 hu
        exact ⟨trivial, cntE_pos x hi⟩)
      (by rw [hsum]; exact hlen)
      (by intro u _; exact Nat.zero_le _)
      (by
        intro u hu hl
        rw [hAT] at hu
        obtain ⟨i, hi, rfl⟩ := List.mem_map.1 hu
        have h0 : (HTree.leaf i (cntE x i)).level = 0 := rfl
        omega)
  have hperm : List.Perm t.leafSeq ((activeIdx x).map (fun i => (i, cntE x i))) := by
    have h1 := hperm0
    rw [hAT, flatten_leafSeq_map] at h1
    exact h1
  have hleaffst : List.Perm (t.leafSeq.map Prod.fst) (activeIdx x) := by
    have h1 := hperm.map Prod.fst
    rw [List.map_map] at h1
    rw [show (Prod.fst ∘ fun i => ((i : Nat), cntE x i)) = id from rfl] at h1
    rw [List.map_id] at h1
    exact h1
  have hndleaf : (t.leafSeq.map Prod.fst).Nodup :=
    List.Perm.nodup hleaffst.symm (activeIdx_nodup x)
  by_cases hxe : x = []
  · -- empty input: the tree is the single EOF leaf; compute the pipeline
    subst hxe
    have hAe : activeIdx [] = [EOF_CHAR] := rfl
    have hperm1 : List.Perm t.leafSeq [(EOF_CHAR, 1)] := by
      have h1 := hperm
      rw [hAe] at h1
      exact h1
    have hteq : t = HTree.leaf EOF_CHAR 1 :=
      leafSeq_singleton (List.Perm.eq_singleton hperm1)
    subst hteq
    have hbcc0 : assignCanonicalCodes (sortByLen (fillLens initCanonList
        (canonWalkLens (HTree.leaf EOF_CHAR 1) 0)))
        = (List.range 256).map (fun i => CEntry.mk i 0 none)
          ++ [CEntry.mk 256 1 (some 0)] := by decide
    have hbcc : buildCanonicalCode (HTree.leaf EOF_CHAR 1)
        = (List.range 256).map (fun i => CEntry.mk i 0 none)
          ++ [CEntry.mk 256 1 (some 0)] := by
      show sortByValue (assignCanonicalCodes (sortByLen (fillLens initCanonList
        (canonWalkLens (HTree.leaf EOF_CHAR 1) 0)))) = _
      rw [hbcc0]
      decide
    have hget256 : ((List.range 256).map (fun i => CEntry.mk i 0 none)
        ++ [CEntry.mk 256 1 (some 0)]).get? EOF_CHAR
        = some (CEntry.mk 256 1 (some 0)) := by decide
    have hwch : writeCHeader ((List.range 256).map (fun i => CEntry.mk i 0 none)
        ++ [CEntry.mk 256 1 (some 0)])
        = List.replicate 256 0 ++ [1] := by decide
    have henc : cHuffmanEncodeFile []
        = some (pad8 ((((List.replicate 256 0 ++ [1]).map byteBits).flatten ++ [])
            ++ codeBits 0 1)) := by
      unfold cHuffmanEncodeFile
      rw [hslots]
      show (match buildHuffmanTree (slotArr (cntE []) (igE [])) with
        | none => none
        | some tree =>
          match cEncodeData (buildCanonicalCode tree) [],
                (buildCanonicalCode tree).get? EOF_CHAR with
          | some dataBits, some eEof =>
            match eEof.code with
            | some cv =>
              some (pad8 ((((writeCHeader (buildCanonicalCode tree)).map
                byteBits).flatten ++ dataBits) ++ codeBits cv eEof.codeLen))
            | none => none
          | _, _ => none) = _
      rw [htree]
      show (match cEncodeData (buildCanonicalCode (HTree.leaf EOF_CHAR 1)) [],
                (buildCanonicalCode (HTree.leaf EOF_CHAR 1)).get? EOF_CHAR with
          | some dataBits, some eEof =>
            match eEof.code with
            | some cv =>
              some (pad8 ((((writeCHeader
                  (buildCanonicalCode (HTree.leaf EOF_CHAR 1))).map
                byteBits).flatten ++ dataBits) ++ codeBits cv eEof.codeLen))
            | none => none
          | _, _ => none) = _
      rw [hbcc, hget256, hwch]
      rfl
    refine ⟨_, henc, ?_⟩
    have hlensmem : ∀ b ∈ List.replicate 256 0 ++ [(1 : Nat)], b < 256 := by decide
    have hL1 : ((((List.replicate 256 0 ++ [(1 : Nat)]).map byteBits).flatten ++ [])
        ++ codeBits 0 1).length = 2057 := by
      rw [List.length_append, List.length_append, flatten_byteBits_length,
        codeBits_length]
      decide
    have hfd : pad8 ((((List.replicate 256 0 ++ [(1 : Nat)]).map byteBits).flatten ++ [])
        ++ codeBits 0 1)
        = ((List.replicate 256 0 ++ [(1 : Nat)]).map byteBits).flatten
          ++ (codeBits 0 1 ++ List.replicate 7 false) := by
      unfold pad8
      rw [hL1]
      rw [show ((8 - 2057 % 8) % 8 : Nat) = 7 from by norm_num]
      simp [List.append_assoc]
    rw [hfd]
    have hrb : readBytes NUM_CHARS
        (((List.replicate 256 0 ++ [(1 : Nat)]).map byteBits).flatten
          ++ (codeBits 0 1 ++ List.replicate 7 false))
        = some (List.replicate 256 0 ++ [(1 : Nat)],
            codeBits 0 1 ++ List.replicate 7 false) := by
      have h := readBytes_bytes (List.replicate 256 0 ++ [(1 : Nat)])
        (codeBits 0 1 ++ List.replicate 7 false) hlensmem
      have hlen257 : (List.replicate 256 0 ++ [(1 : Nat)]).length = NUM_CHARS := by
        decide
      rw [hlen257] at h
      exact h
    rw [cHuffmanDecodeFile_eq hrb]
    have htabD : assignCanonicalCodes (sortByLen
        ((List.range NUM_CHARS).map (fun i =>
          CEntry.mk i ((List.replicate 256 0 ++ [(1 : Nat)]).getD i 0) none)))
        = (List.range 256).map (fun i => CEntry.mk i 0 none)
          ++ [CEntry.mk 256 1 (some 0)] := by decide
    have hloopD : cdecodeLoop ((List.range 256).map (fun i => CEntry.mk i 0 none)
          ++ [CEntry.mk 256 1 (some 0)])
        (codeBits 0 1 ++ List.replicate 7 false) 0 0 [] = [] := by decide
    rw [htabD, hloopD]
  · -- nonempty input
    have hxactive : ∀ c ∈ x, c ∈ activeIdx x := by
      intro c hc
      exact mem_activeIdx.2 ⟨Or.inr hc, by have := hx c hc; unfold NUM_CHARS; omega⟩
    obtain ⟨c0, hc0⟩ := List.exists_mem_of_ne_nil x hxe
    have hc0act := hxactive c0 hc0
    have hn2 : 2 ≤ (activeIdx x).length :=
      two_le_length hc0act hEOFmem (by have := hx c0 hc0; unfold EOF_CHAR; omega)
    have hcompn : 1 ≤ t.numComps := by
      rw [hcomps]
      have hzero : ((activeTrees (slotArr (cntE x) (igE x))).map HTree.numComps).sum
          = 0 := by
        rw [hAT, List.map_map]
        rw [show (HTree.numComps ∘ fun i => HTree.leaf i (cntE x i))
          = (fun _ => 0) from rfl]
        simp
      rw [hzero, hAT, List.length_map]
      omega
    obtain ⟨cc, clv, cL, cR, hteq⟩ : ∃ cc clv cL cR, t = HTree.comp cc clv cL cR := by
      cases t with
      | leaf v c =>
        exfalso
        have h0 : (HTree.leaf v c).numComps = 0 := rfl
        omega
      | comp a b c d => exact ⟨a, b, c, d, rfl⟩
    -- facts about the traversal's code-length list
    have hlsfst : (canonWalkLens t 0).map Prod.fst = t.leafSeq.map Prod.fst :=
      canonWalkLens_fst t 0
    have hndls : ((canonWalkLens t 0).map Prod.fst).Nodup := by
      rw [hlsfst]
      exact hndleaf
    have hlslt : ∀ p ∈ canonWalkLens t 0, p.1 < NUM_CHARS := by
      intro p hp
      have h1 : p.1 ∈ (canonWalkLens t 0).map Prod.fst := List.mem_map.2 ⟨p, hp, rfl⟩
      rw [hlsfst] at h1
      exact (mem_activeIdx.1 (hleaffst.mem_iff.1 h1)).2
    have hlev : t.level + 1 < 48 := level_small hfib (by rw [hcnt, hsum]; exact hlen)
    have hls255 : ∀ p ∈ canonWalkLens t 0, 1 ≤ p.2 ∧ p.2 ≤ 255 := by
      intro p hp
      have h1 := canonWalkLens_bounds_root t hwf p hp
      have h2 : max t.level 1 ≤ 255 := max_le (by omega) (by omega)
      omega
    have hlfbound : ∀ i, lensFun (canonWalkLens t 0) i ≤ 255 := by
      intro i
      rcases lensFun_cases (canonWalkLens t 0) i with h | h
      · omega
      · exact (hls255 _ h).2
    have hactivelen : ∀ c ∈ activeIdx x, 1 ≤ lensFun (canonWalkLens t 0) c := by
      intro c hc
      have h1 : c ∈ (canonWalkLens t 0).map Prod.fst := by
        rw [hlsfst]
        exact hleaffst.mem_iff.2 hc
      obtain ⟨p, hp, hpe⟩ := List.mem_map.1 h1
      have hp' : ((c, p.2) : Nat × Nat) ∈ canonWalkLens t 0 := by
        rw [← hpe, Prod.mk.eta]
        exact hp
      have h2 := lensFun_of_mem hndls hp'
      have h3 := (hls255 p hp).1
      omega
    have hlfactive : ∀ i, 1 ≤ lensFun (canonWalkLens t 0) i → i ∈ activeIdx x := by
      intro i h1
      rcases lensFun_cases (canonWalkLens t 0) i with h | h
      · omega
      · have h2 : i ∈ (canonWalkLens t 0).map Prod.fst := List.mem_map.2 ⟨_, h, rfl⟩
        rw [hlsfst] at h2
        exact hleaffst.mem_iff.1 h2
    set ls := canonWalkLens t 0 with hlsdef
    set cl0 := fillLens initCanonList ls with hcl0def
    have hcl0 : cl0 = (List.range NUM_CHARS).map (fun i => CEntry.mk i (lensFun ls i) none) := by
      rw [hcl0def]
      exact fill_init_eq ls hndls hlslt
    set L := sortByLen cl0 with hLdef
    have hLperm : List.Perm L cl0 := by
      rw [hLdef]
      exact List.perm_insertionSort _ _
    have hLsort : List.Pairwise canonLe L := by
      rw [hLdef]
      exact List.sorted_insertionSort _ _
    have hcl0len : cl0.length = NUM_CHARS := by
      rw [hcl0, List.length_map, List.length_range]
    have hLlen : L.length = NUM_CHARS := by
      rw [hLperm.length_eq, hcl0len]
    have hmemcl0 : ∀ e ∈ cl0, ∃ i, i < NUM_CHARS ∧ e = CEntry.mk i (lensFun ls i) none := by
      intro e he
      rw [hcl0] at he
      obtain ⟨i, hi, hie⟩ := List.mem_map.1 he
      exact ⟨i, List.mem_range.1 hi, hie.symm⟩
    have hL255 : ∀ e ∈ L, e.codeLen ≤ 255 := by
      intro e he
      obtain ⟨i, _, rfl⟩ := hmemcl0 e (hLperm.mem_iff.1 he)
      exact hlfbound i
    set zs := L.filter (fun e => e.codeLen == 0) with hzsdef
    set nz := L.filter (fun e => !(e.codeLen == 0)) with hnzdef
    set ds := nz.reverse with hdsdef
    -- Kraft equality for the nonzero entries
    have hnzperm : List.Perm nz (cl0.filter (fun e => !(e.codeLen == 0))) := by
      rw [hnzdef]
      exact hLperm.filter _
    have hcl0filter : cl0.filter (fun e => !(e.codeLen == 0))
        = ((List.range NUM_CHARS).filter (fun i => !(lensFun ls i == 0))).map
            (fun i => CEntry.mk i (lensFun ls i) none) := by
      rw [hcl0, List.map_filter]
      rw [show (List.range NUM_CHARS).filter
          ((fun e => !(e.codeLen == 0)) ∘ fun i => CEntry.mk i (lensFun ls i) none)
          = (List.range NUM_CHARS).filter (fun i => !(lensFun ls i == 0)) from
        List.filter_congr' (fun i _ => rfl)]
    have hkraft0 : (ls.map (fun p => 2 ^ (256 - p.2))).sum = B256 := by
      rw [hlsdef, hteq]
      have hwf' : wfTree (HTree.comp cc clv cL cR) := by
        rw [← hteq]
        exact hwf
      have hlev2 := hlev
      rw [hteq] at hlev2
      have hle : (HTree.comp cc clv cL cR).level = clv := rfl
      exact kraft_canonWalk_root hwf' (by omega)
    have hkraftsum : S256 nz = B256 := by
      have h1 : S256 nz = S256 (cl0.filter (fun e => !(e.codeLen == 0))) :=
        S256_perm hnzperm
      rw [hcl0filter] at h1
      have h2 : S256 (((List.range NUM_CHARS).filter
            (fun i => !(lensFun ls i == 0))).map
            (fun i => CEntry.mk i (lensFun ls i) none))
          = (ls.map (fun p => 2 ^ (256 - p.2))).sum := by
        have hp := filter_range_perm ls NUM_CHARS hndls hlslt
          (fun p hp => (hls255 p hp).1)
        have hp2 := (hp.map (fun p : Nat × Nat => 2 ^ (256 - p.2))).sum_eq
        rw [List.map_map] at hp2
        unfold S256
        rw [List.map_map]
        exact hp2
      rw [h2, hkraft0] at h1
      exact h1
    -- the longest-first nonzero list
    have hdsort : List.Pairwise (fun a b : CEntry => b.codeLen ≤ a.codeLen) ds := by
      rw [hdsdef, List.pairwise_reverse]
      exact (List.Pairwise.filter _ hLsort).imp
        (by intro a b hab; unfold canonLe at hab; omega)
    have hdlen : ∀ e ∈ ds, 1 ≤ e.codeLen ∧ e.codeLen ≤ 255 := by
      intro e he
      rw [hdsdef, List.mem_reverse, hnzdef] at he
      have h1 := List.of_mem_filter he
      have h2 := List.mem_of_mem_filter he
      simp only [Bool.not_eq_true', beq_eq_false_iff_ne, ne_eq] at h1
      exact ⟨by omega, hL255 e h2⟩
    have hdS : S256 ds = B256 := by
      rw [hdsdef, S256_reverse]
      exact hkraftsum
    have hdSle : S256 ds ≤ B256 := le_of_eq hdS
    have hzs0 : ∀ e ∈ zs, e.codeLen = 0 := by
      intro e he
      rw [hzsdef] at he
      simpa using List.of_mem_filter he
    set A := assignCanonicalCodes L with hAdef
    have hA : A = zs ++ (canonSpec ds).reverse := by
      rw [hAdef]
      have h1 := assign_sorted L hLlen hLsort hL255 (by rw [← hnzdef]; exact hkraftsum)
      rw [← hzsdef, ← hnzdef, ← hdsdef] at h1
      exact h1
    -- value lists
    have hcl0val : cl0.map (fun e => e.value) = List.range NUM_CHARS := by
      rw [hcl0, List.map_map]
      exact List.map_id _
    have hLval : List.Perm (L.map (fun e => e.value)) (List.range NUM_CHARS) := by
      rw [← hcl0val]
      exact hLperm.map _
    have hAval : A.map (fun e => e.value) = L.map (fun e => e.value) := by
      rw [hA, List.map_append, List.map_reverse, canonSpec_map_value]
      rw [hdsdef, List.map_reverse, List.reverse_reverse]
      rw [← List.map_append, hzsdef, hnzdef]
      conv_rhs => rw [sorted_zero_split L hLsort]
    have hAvalperm : List.Perm (A.map (fun e => e.value)) (List.range NUM_CHARS) := by
      rw [hAval]
      exact hLval
    set E := sortByValue A with hEdef
    have hEperm : List.Perm E A := by
      rw [hEdef]
      exact List.perm_insertionSort _ _
    have hEsort : List.Pairwise valueLe E := by
      rw [hEdef]
      exact List.sorted_insertionSort _ _
    have hEsortv : List.Pairwise (fun a b : Nat => a ≤ b) (E.map (fun e => e.value)) :=
      hEsort.map _ (fun a b hab => hab)
    have hEval : E.map (fun e => e.value) = List.range NUM_CHARS :=
      List.eq_of_perm_of_sorted ((hEperm.map _).trans hAvalperm) hEsortv
        ((List.pairwise_lt_range _).imp le_of_lt)
    have hENodup : (E.map (fun e => e.value)).Nodup := by
      rw [hEval]
      exact List.nodup_range NUM_CHARS
    have hEget : ∀ c, c < NUM_CHARS → ∃ e, E.get? c = some e ∧ e.value = c := by
      intro c hc
      have h1 : (E.map (fun e => e.value)).get? c = some c := by
        rw [hEval]
        exact List.get?_range hc
      rw [List.get?_map] at h1
      cases he : E.get? c with
      | none =>
        rw [he] at h1
        exact absurd h1 (by simp)
      | some e =>
        rw [he] at h1
        exact ⟨e, rfl, by simpa using h1⟩
    -- the position of each active symbol in the longest-first list
    have hactive : ∀ c, ∃ k, c ∈ activeIdx x →
        ds.get? k = some (CEntry.mk c (lensFun ls c) none) := by
      intro c
      by_cases hc : c ∈ activeIdx x
      · have h1 : CEntry.mk c (lensFun ls c) none ∈ cl0 := by
          rw [hcl0]
          exact List.mem_map.2 ⟨c, List.mem_range.2 ((mem_activeIdx.1 hc).2), rfl⟩
        have h2 : CEntry.mk c (lensFun ls c) none ∈ L := hLperm.mem_iff.2 h1
        have h3 : CEntry.mk c (lensFun ls c) none ∈ nz := by
          rw [hnzdef]
          refine List.mem_filter.2 ⟨h2, ?_⟩
          have := hactivelen c hc
          simpa using (by omega : lensFun ls c ≠ 0)
        have h4 : CEntry.mk c (lensFun ls c) none ∈ ds := by
          rw [hdsdef, List.mem_reverse]
          exact h3
        obtain ⟨k, hk⟩ := List.mem_iff_get?.mp h4
        exact ⟨k, fun _ => hk⟩
      · exact ⟨0, fun h => absurd h hc⟩
    choose kOf hkOf using hactive
    -- the entry of the re-sorted list at each active symbol
    have hEentry : ∀ c ∈ activeIdx x,
        E.get? c = some (CEntry.mk c (lensFun ls c)
          (some (B256 - S256 (ds.drop (kOf c))))) := by
      intro c hc
      have hk := hkOf c hc
      have h1 := canonSpec_get? ds (kOf c) _ hk
      have h2 : CEntry.mk c (lensFun ls c) (some (B256 - S256 (ds.drop (kOf c))))
          ∈ canonSpec ds := List.get?_mem h1
      have h3 : CEntry.mk c (lensFun ls c) (some (B256 - S256 (ds.drop (kOf c))))
          ∈ A := by
        rw [hA]
        refine List.mem_append.2 (Or.inr ?_)
        rw [List.mem_reverse]
        exact h2
      have h4 := hEperm.mem_iff.2 h3
      obtain ⟨e, hge, hve⟩ := hEget c (mem_activeIdx.1 hc).2
      have hee : e = CEntry.mk c (lensFun ls c)
          (some (B256 - S256 (ds.drop (kOf c)))) :=
        List.inj_on_of_nodup_map hENodup (List.get?_mem hge) h4 hve
      rw [hge, hee]
    -- the emitted data bits
    have hdata : cEncodeData E x
        = some ((x.map (fun c => codeBits (B256 - S256 (ds.drop (kOf c)))
            ((fun c => CEntry.mk c (lensFun ls c) none) c).codeLen)).flatten) :=
      cEncodeData_eq2 E ds kOf (fun c => CEntry.mk c (lensFun ls c) none) x
        (fun c hc => hEentry c (hxactive c hc))
    have hElen : E.length = NUM_CHARS := by
      have h1 := congrArg List.length hEval
      rw [List.length_map, List.length_range] at h1
      exact h1
    have hwclen : (writeCHeader E).length = NUM_CHARS := by
      show (E.map _).length = NUM_CHARS
      rw [List.length_map]
      exact hElen
    have hE255 : ∀ e ∈ E, e.codeLen ≤ 255 := by
      intro e he
      have h1 := hEperm.mem_iff.1 he
      rw [hA] at h1
      rcases List.mem_append.1 h1 with h | h
      · have := hzs0 e h
        omega
      · rw [List.mem_reverse] at h
        exact canonSpec_len_le (fun d hd => (hdlen d hd).2) e h
    have hwcb : ∀ b ∈ writeCHeader E, b < 256 := by
      intro b hb
      obtain ⟨e, he, rfl⟩ := List.mem_map.1 hb
      have := hE255 e he
      omega
    have hEOFget : E.get? EOF_CHAR = some (CEntry.mk EOF_CHAR (lensFun ls EOF_CHAR)
        (some (B256 - S256 (ds.drop (kOf EOF_CHAR))))) := hEentry EOF_CHAR hEOFmem
    -- the encoder's output
    have henc : cHuffmanEncodeFile x
        = some (pad8 ((((writeCHeader E).map byteBits).flatten
            ++ (x.map (fun c => codeBits (B256 - S256 (ds.drop (kOf c)))
                ((fun c => CEntry.mk c (lensFun ls c) none) c).codeLen)).flatten)
            ++ codeBits (B256 - S256 (ds.drop (kOf EOF_CHAR)))
                (lensFun ls EOF_CHAR))) := by
      unfold cHuffmanEncodeFile
      rw [hslots]
      show (match buildHuffmanTree (slotArr (cntE x) (igE x)) with
        | none => none
        | some tree =>
          match cEncodeData (buildCanonicalCode tree) x,
                (buildCanonicalCode tree).get? EOF_CHAR with
          | some dataBits, some eEof =>
            match eEof.code with
            | some cv =>
              some (pad8 ((((writeCHeader (buildCanonicalCode tree)).map
                byteBits).flatten ++ dataBits) ++ codeBits cv eEof.codeLen))
            | none => none
          | _, _ => none) = _
      rw [htree]
      have hbcceq : buildCanonicalCode t = E := by
        rw [hEdef, hAdef, hLdef, hcl0def, hlsdef]
        rfl
      show (match cEncodeData (buildCanonicalCode t) x,
                (buildCanonicalCode t).get? EOF_CHAR with
          | some dataBits, some eEof =>
            match eEof.code with
            | some cv =>
              some (pad8 ((((writeCHeader (buildCanonicalCode t)).map
                byteBits).flatten ++ dataBits) ++ codeBits cv eEof.codeLen))
            | none => none
          | _, _ => none) = _
      rw [hbcceq, hdata, hEOFget]
    refine ⟨_, henc, ?_⟩
    -- decompose the padded stream
    have hfdecomp : pad8 ((((writeCHeader E).map byteBits).flatten
          ++ (x.map (fun c => codeBits (B256 - S256 (ds.drop (kOf c)))
              ((fun c => CEntry.mk c (lensFun ls c) none) c).codeLen)).flatten)
          ++ codeBits (B256 - S256 (ds.drop (kOf EOF_CHAR))) (lensFun ls EOF_CHAR))
        = ((writeCHeader E).map byteBits).flatten
          ++ ((x.map (fun c => codeBits (B256 - S256 (ds.drop (kOf c)))
              ((fun c => CEntry.mk c (lensFun ls c) none) c).codeLen)).flatten
            ++ (codeBits (B256 - S256 (ds.drop (kOf EOF_CHAR))) (lensFun ls EOF_CHAR)
              ++ List.replicate ((8 - ((((writeCHeader E).map byteBits).flatten
                ++ (x.map (fun c => codeBits (B256 - S256 (ds.drop (kOf c)))
                    ((fun c => CEntry.mk c (lensFun ls c) none) c).codeLen)).flatten)
                ++ codeBits (B256 - S256 (ds.drop (kOf EOF_CHAR)))
                  (lensFun ls EOF_CHAR)).length % 8) % 8) false)) := by
      unfold pad8
      simp [List.append_assoc]
    rw [hfdecomp]
    have hrb2 : readBytes NUM_CHARS (((writeCHeader E).map byteBits).flatten
          ++ ((x.map (fun c => codeBits (B256 - S256 (ds.drop (kOf c)))
              ((fun c => CEntry.mk c (lensFun ls c) none) c).codeLen)).flatten
            ++ (codeBits (B256 - S256 (ds.drop (kOf EOF_CHAR))) (lensFun ls EOF_CHAR)
              ++ List.replicate ((8 - ((((writeCHeader E).map byteBits).flatten
                ++ (x.map (fun c => codeBits (B256 - S256 (ds.drop (kOf c)))
                    ((fun c => CEntry.mk c (lensFun ls c) none) c).codeLen)).flatten)
                ++ codeBits (B256 - S256 (ds.drop (kOf EOF_CHAR)))
                  (lensFun ls EOF_CHAR)).length % 8) % 8) false)))
        = some (writeCHeader E,
            (x.map (fun c => codeBits (B256 - S256 (ds.drop (kOf c)))
              ((fun c => CEntry.mk c (lensFun ls c) none) c).codeLen)).flatten
            ++ (codeBits (B256 - S256 (ds.drop (kOf EOF_CHAR))) (lensFun ls EOF_CHAR)
              ++ List.replicate ((8 - ((((writeCHeader E).map byteBits).flatten
                ++ (x.map (fun c => codeBits (B256 - S256 (ds.drop (kOf c)))
                    ((fun c => CEntry.mk c (lensFun ls c) none) c).codeLen)).flatten)
                ++ codeBits (B256 - S256 (ds.drop (kOf EOF_CHAR)))
                  (lensFun ls EOF_CHAR)).length % 8) % 8) false)) := by
      have h := readBytes_bytes (writeCHeader E)
        ((x.map (fun c => codeBits (B256 - S256 (ds.drop (kOf c)))
            ((fun c => CEntry.mk c (lensFun ls c) none) c).codeLen)).flatten
          ++ (codeBits (B256 - S256 (ds.drop (kOf EOF_CHAR))) (lensFun ls EOF_CHAR)
            ++ List.replicate ((8 - ((((writeCHeader E).map byteBits).flatten
              ++ (x.map (fun c => codeBits (B256 - S256 (ds.drop (kOf c)))
                  ((fun c => CEntry.mk c (lensFun ls c) none) c).codeLen)).flatten)
              ++ codeBits (B256 - S256 (ds.drop (kOf EOF_CHAR)))
                (lensFun ls EOF_CHAR)).length % 8) % 8) false)) hwcb
      rw [hwclen] at h
      exact h
    rw [cHuffmanDecodeFile_eq hrb2]
    -- the decoder rebuilds the same code list
    have hgetD : ∀ i ∈ List.range NUM_CHARS,
        CEntry.mk i ((writeCHeader E).getD i 0) none
          = CEntry.mk i (lensFun ls i) none := by
      intro i hi
      have hilt := List.mem_range.1 hi
      have hl : (writeCHeader E).getD i 0 = lensFun ls i := by
        show ((E.map (fun e => e.codeLen)).get? i).getD 0 = _
        rw [List.get?_map]
        by_cases hact : i ∈ activeIdx x
        · rw [hEentry i hact]
          rfl
        · have hlf0 : lensFun ls i = 0 := by
            by_contra h0
            exact hact (hlfactive i (by omega))
          have h1 : CEntry.mk i (lensFun ls i) none ∈ cl0 := by
            rw [hcl0]
            exact List.mem_map.2 ⟨i, List.mem_range.2 hilt, rfl⟩
          have h2 : CEntry.mk i (lensFun ls i) none ∈ L := hLperm.mem_iff.2 h1
          have h3 : CEntry.mk i (lensFun ls i) none ∈ A := by
            rw [hA]
            refine List.mem_append.2 (Or.inl ?_)
            rw [hzsdef]
            exact List.mem_filter.2 ⟨h2, by simp [hlf0]⟩
          have h4 := hEperm.mem_iff.2 h3
          obtain ⟨e, hge, hve⟩ := hEget i hilt
          have hee : e = CEntry.mk i (lensFun ls i) none :=
            List.inj_on_of_nodup_map hENodup (List.get?_mem hge) h4 hve
          rw [hge, hee]
          rfl
      exact congrArg (fun d => CEntry.mk i d none) hl
    have htable : (List.range NUM_CHARS).map (fun i =>
          CEntry.mk i ((writeCHeader E).getD i 0) none) = cl0 := by
      rw [List.map_eq_map_iff.mpr hgetD, ← hcl0]
    show some (cdecodeLoop (assignCanonicalCodes (sortByLen
        ((List.range NUM_CHARS).map (fun i =>
          CEntry.mk i ((writeCHeader E).getD i 0) none))))
      ((x.map (fun c => codeBits (B256 - S256 (ds.drop (kOf c)))
          ((fun c => CEntry.mk c (lensFun ls c) none) c).codeLen)).flatten
        ++ (codeBits (B256 - S256 (ds.drop (kOf EOF_CHAR))) (lensFun ls EOF_CHAR)
          ++ List.replicate ((8 - ((((writeCHeader E).map byteBits).flatten
            ++ (x.map (fun c => codeBits (B256 - S256 (ds.drop (kOf c)))
                ((fun c => CEntry.mk c (lensFun ls c) none) c).codeLen)).flatten)
            ++ codeBits (B256 - S256 (ds.drop (kOf EOF_CHAR)))
              (lensFun ls EOF_CHAR)).length % 8) % 8) false)) 0 0 []) = some x
    rw [htable, ← hLdef, ← hAdef, hA]
    -- decode the data symbols, then the EOF code
    rw [cdecode_multi2 hdsort hdlen hdSle hzs0 x kOf
      (fun c => CEntry.mk c (lensFun ls c) none) _ []
      (fun c hc => ⟨hkOf c (hxactive c hc), rfl,
        by have := hx c hc; unfold EOF_CHAR; omega⟩)]
    have hkEOF := hkOf EOF_CHAR hEOFmem
    obtain ⟨hdvd, hSle2, hSpos⟩ := canonSpec_self_facts hdsort hdlen hdSle hkEOF
    have hB : 0 < B256 := Nat.pos_pow_of_pos _ (by omega)
    rw [cdecode_symbol (zs ++ (canonSpec ds).reverse)
      (B256 - S256 (ds.drop (kOf EOF_CHAR))) (lensFun ls EOF_CHAR) EOF_CHAR
      (List.replicate ((8 - ((((writeCHeader E).map byteBits).flatten
        ++ (x.map (fun c => codeBits (B256 - S256 (ds.drop (kOf c)))
            ((fun c => CEntry.mk c (lensFun ls c) none) c).codeLen)).flatten)
        ++ codeBits (B256 - S256 (ds.drop (kOf EOF_CHAR)))
          (lensFun ls EOF_CHAR)).length % 8) % 8) false)
      (hactivelen EOF_CHAR hEOFmem) (hlfbound EOF_CHAR) hdvd (by omega)
      (table_nomatch hdsort hdlen hdSle hzs0 hkEOF)
      (table_match hdsort hdlen hdSle hzs0 hkEOF) (x.reverse ++ [])]
    rw [if_pos rfl]
    rw [List.append_nil, List.reverse_reverse]

/-! ### GenerateTreeFromFile of src/chuffman.c: the total-count loop -/

/-- The counting loop of `GenerateTreeFromFile` in src/chuffman.c: one shared
`totalCount` is checked against `COUNT_T_MAX` before every increment, and the
program exits with a failure when the check fails; the per-symbol counts are
incremented without any check of their own. -/
def cTotalLoop : List Nat → Nat → Option Nat
  | [], tot => some tot
  | _ :: rest, tot =>
    if tot < COUNT_T_MAX then cTotalLoop rest (tot + 1) else none

/-- The total-count loop succeeds exactly when the whole input fits below the
cap, independently of how the bytes are distributed over the symbols. -/
theorem cTotalLoop_spec : ∀ (x : List Nat) (tot : Nat), tot ≤ COUNT_T_MAX →
    cTotalLoop x tot
      = if x.length + tot ≤ COUNT_T_MAX then some (tot + x.length) else none := by
  intro x
  induction x with
  | nil =>
    intro tot htot
    rw [if_pos (by simp only [List.length_nil]; omega)]
    rfl
  | cons c rest ih =>
    intro tot htot
    show (if tot < COUNT_T_MAX then cTotalLoop rest (tot + 1) else none) = _
    by_cases h1 : tot < COUNT_T_MAX
    · rw [if_pos h1, ih (tot + 1) (by omega)]
      rw [List.length_cons]
      by_cases h2 : rest.length + 1 + tot ≤ COUNT_T_MAX
      · rw [if_pos (by omega), if_pos h2]
        exact congrArg some (by omega)
      · rw [if_neg (by omega), if_neg h2]
    · rw [if_neg h1, if_neg (by rw [List.length_cons]; omega)]

/-! ### Unfolding lemmas for the canonical top level -/

/-- Unfolding of the canonical encoder once its stages are known: the output
is the header, the data bits, the in-band EOF code and the byte padding. -/
theorem cHuffmanEncodeFile_eq {x : List Nat} {slots : List (Option Slot)}
    {t : HTree} {dataBits : List Bool} {eEof : CEntry} {cv : Nat}
    (h1 : generateTreeSlots x = some slots)
    (h2 : buildHuffmanTree slots = some t)
    (h3 : cEncodeData (buildCanonicalCode t) x = some dataBits)
    (h4 : (buildCanonicalCode t).get? EOF_CHAR = some eEof)
    (h5 : eEof.code = some cv) :
    cHuffmanEncodeFile x = some (pad8 ((((writeCHeader (buildCanonicalCode t)).map
      byteBits).flatten ++ dataBits) ++ codeBits cv eEof.codeLen)) := by
  unfold cHuffmanEncodeFile
  rw [h1]
  show (match buildHuffmanTree slots with
    | none => none
    | some tree =>
      match cEncodeData (buildCanonicalCode tree) x,
            (buildCanonicalCode tree).get? EOF_CHAR with
      | some dataBits, some eEof =>
        match eEof.code with
        | some cv =>
          some (pad8 ((((writeCHeader (buildCanonicalCode tree)).map
            byteBits).flatten ++ dataBits) ++ codeBits cv eEof.codeLen))
        | none => none
      | _, _ => none) = _
  rw [h2]
  show (match cEncodeData (buildCanonicalCode t) x,
            (buildCanonicalCode t).get? EOF_CHAR with
      | some dataBits, some eEof =>
        match eEof.code with
        | some cv =>
          some (pad8 ((((writeCHeader (buildCanonicalCode t)).map
            byteBits).flatten ++ dataBits) ++ codeBits cv eEof.codeLen))
        | none => none
      | _, _ => none) = _
  rw [h3, h4]
  show (match eEof.code with
    | some cv =>
      some (pad8 ((((writeCHeader (buildCanonicalCode t)).map
        byteBits).flatten ++ dataBits) ++ codeBits cv eEof.codeLen))
    | none => none) = _
  rw [h5]

/-- The assignment loop rewrites entries in place: the length of the list is
unchanged. -/
theorem assignStep_length : ∀ (l : List CEntry) (acc len : Nat),
    (assignStep acc len l).length = l.length := by
  intro l
  induction l with
  | nil => intro acc len; rfl
  | cons e rest ih =>
    intro acc len
    show (if e.codeLen = 0 then e :: rest
      else (CEntry.mk e.value e.codeLen
        (some ((if e.codeLen < len then acc / 2 ^ (len - e.codeLen) else acc)
          * 2 ^ (256 - (if e.codeLen < len then e.codeLen else len)) % B256)))
        :: assignStep
            (((if e.codeLen < len then acc / 2 ^ (len - e.codeLen) else acc) + 1) % B256)
            (if e.codeLen < len then e.codeLen else len) rest).length
      = (e :: rest).length
    by_cases h0 : e.codeLen = 0
    · rw [if_pos h0]
    · rw [if_neg h0]
      rw [List.length_cons, List.length_cons, ih]

/-- The canonical code list always has one entry per symbol, EOF included. -/
theorem buildCanonicalCode_length (t : HTree) :
    (buildCanonicalCode t).length = NUM_CHARS := by
  show ((assignCanonicalCodes (sortByLen (fillLens initCanonList
    (canonWalkLens t 0)))).insertionSort valueLe).length = NUM_CHARS
  rw [(List.perm_insertionSort valueLe _).length_eq]
  show ((assignStep _ _ _).reverse).length = NUM_CHARS
  rw [List.length_reverse, assignStep_length, List.length_reverse]
  show ((fillLens initCanonList (canonWalkLens t 0)).insertionSort canonLe).length
    = NUM_CHARS
  rw [(List.perm_insertionSort canonLe _).length_eq, fillLens_length,
    initCanonList_length]

/-- At the end of the bit stream the traditional decode walk reports success
(`TRUE`) with the symbols decoded so far, and the EOF flag still clear: there
is no truncation error path. -/
theorem decodeWalk_end (root sub : HTree) (out : List Nat) :
    decodeWalk root sub [] out = some (true, out.reverse, false) := by
  cases sub <;> rfl

set_option maxRecDepth 16384 in
set_option maxHeartbeats 1000000 in
/-- The canonical code list of the single-leaf (EOF only) tree: every byte
symbol keeps length 0 and no code, EOF gets the one-bit code 0. -/
theorem buildCanonical_leafEOF : buildCanonicalCode (HTree.leaf EOF_CHAR 1)
    = (List.range 256).map (fun i => CEntry.mk i 0 none)
      ++ [CEntry.mk 256 1 (some 0)] := by
  have h0 : assignCanonicalCodes (sortByLen (fillLens initCanonList
      (canonWalkLens (HTree.leaf EOF_CHAR 1) 0)))
      = (List.range 256).map (fun i => CEntry.mk i 0 none)
        ++ [CEntry.mk 256 1 (some 0)] := by decide
  show sortByValue (assignCanonicalCodes (sortByLen (fillLens initCanonList
    (canonWalkLens (HTree.leaf EOF_CHAR 1) 0)))) = _
  rw [h0]
  decide

/-! ### The INT_MAX visibility failure on large inputs -/

/-- A symbol whose code search fails stops the traditional emission loop. -/
theorem encodeData_cons_none {cl : List (Nat × List Bool)} {c : Nat}
    (h : findCode cl c = none) (rest : List Nat) :
    encodeData cl (c :: rest) = none := by
  show (match findCode cl c, encodeData cl rest with
    | some code, some bits => some (code ++ bits)
    | _, _ => none) = none
  rw [h]

/-- The final counts of the all-zeros input of length `2^31`. -/
theorem slots_big : generateTreeSlots (List.replicate (2 ^ 31) 0)
    = some (slotArr
        (fun i => if i = EOF_CHAR then 1 else if i = 0 then 2 ^ 31 else 0)
        (fun i => if i = EOF_CHAR then false else if i = 0 then false else true)) := by
  rw [encSlots (List.replicate (2 ^ 31) 0)
    (by intro c hc; rw [List.eq_of_mem_replicate hc]; omega)
    (by rw [List.length_replicate]; unfold COUNT_T_MAX; omega)]
  refine congrArg some (slotArr_congr ?_ ?_)
  · intro i _
    show cntE (List.replicate (2 ^ 31) 0) i = _
    unfold cntE
    by_cases hie : i = EOF_CHAR
    · rw [if_pos hie, if_pos hie]
    · rw [if_neg hie, if_neg hie]
      by_cases hi0 : i = 0
      · subst hi0
        rw [if_pos rfl]
        exact List.count_replicate_self 0 (2 ^ 31)
      · rw [if_neg hi0]
        exact List.count_eq_zero.2 (fun hm => hi0 (List.eq_of_mem_replicate hm))
  · intro i _
    show igE (List.replicate (2 ^ 31) 0) i = _
    unfold igE
    by_cases hie : i = EOF_CHAR
    · rw [if_pos hie, if_pos hie, Bool.false_and]
    · rw [if_neg hie, if_neg hie]
      by_cases hi0 : i = 0
      · subst hi0
        rw [if_pos rfl]
        rw [decide_eq_true (List.mem_replicate.2 ⟨by omega, rfl⟩)]
        rfl
      · rw [if_neg hi0]
        rw [decide_eq_false (fun hm => hi0 (List.eq_of_mem_replicate hm))]
        rfl



/-- Structure of the canonical code list built from a composite tree with
distinct leaf symbols below `NUM_CHARS` and level below 47: up to ordering it
is the zero-length entries together with the `canonSpec` assignment on a
longest-first list of lengths in `[1, 255]` with exact Kraft sum, and its
symbol values are pairwise distinct. -/
theorem canonical_table_struct (cc clv : Nat) (cL cR : HTree)
    (hwf : wfTree (HTree.comp cc clv cL cR))
    (hlev : (HTree.comp cc clv cL cR).level + 1 < 48)
    (hnd : ((HTree.comp cc clv cL cR).leafSeq.map Prod.fst).Nodup)
    (hlt : ∀ v ∈ (HTree.comp cc clv cL cR).leafSeq.map Prod.fst, v < NUM_CHARS) :
    ∃ ds zs : List CEntry,
      List.Pairwise (fun a b : CEntry => b.codeLen ≤ a.codeLen) ds ∧
      (∀ e ∈ ds, 1 ≤ e.codeLen ∧ e.codeLen ≤ 255) ∧
      S256 ds = B256 ∧
      (∀ e ∈ zs, e.codeLen = 0) ∧
      List.Perm (buildCanonicalCode (HTree.comp cc clv cL cR))
        (zs ++ (canonSpec ds).reverse) ∧
      ((buildCanonicalCode (HTree.comp cc clv cL cR)).map (fun e => e.value)).Nodup := by
  have hlsfst : (canonWalkLens (HTree.comp cc clv cL cR) 0).map Prod.fst
      = (HTree.comp cc clv cL cR).leafSeq.map Prod.fst :=
    canonWalkLens_fst (HTree.comp cc clv cL cR) 0
  have hndls : ((canonWalkLens (HTree.comp cc clv cL cR) 0).map Prod.fst).Nodup := by
    rw [hlsfst]
    exact hnd
  have hlslt : ∀ p ∈ canonWalkLens (HTree.comp cc clv cL cR) 0, p.1 < NUM_CHARS := by
    intro p hp
    have h1 : p.1 ∈ (canonWalkLens (HTree.comp cc clv cL cR) 0).map Prod.fst :=
      List.mem_map.2 ⟨p, hp, rfl⟩
    rw [hlsfst] at h1
    exact hlt p.1 h1
  have hls255 : ∀ p ∈ canonWalkLens (HTree.comp cc clv cL cR) 0,
      1 ≤ p.2 ∧ p.2 ≤ 255 := by
    intro p hp
    have h1 := canonWalkLens_bounds_root (HTree.comp cc clv cL cR) hwf p hp
    have h2 : max (HTree.comp cc clv cL cR).level 1 ≤ 255 := max_le (by omega) (by omega)
    omega
  have hlfbound : ∀ i, lensFun (canonWalkLens (HTree.comp cc clv cL cR) 0) i ≤ 255 := by
    intro i
    rcases lensFun_cases (canonWalkLens (HTree.comp cc clv cL cR) 0) i with h | h
    · omega
    · exact (hls255 _ h).2
  set ls := canonWalkLens (HTree.comp cc clv cL cR) 0 with hlsdef
  set cl0 := fillLens initCanonList ls with hcl0def
  have hcl0 : cl0 = (List.range NUM_CHARS).map (fun i => CEntry.mk i (lensFun ls i) none) := by
    rw [hcl0def]
    exact fill_init_eq ls hndls hlslt
  set L := sortByLen cl0 with hLdef
  have hLperm : List.Perm L cl0 := by
    rw [hLdef]
    exact List.perm_insertionSort _ _
  have hLsort : List.Pairwise canonLe L := by
    rw [hLdef]
    exact List.sorted_insertionSort _ _
  have hcl0len : cl0.length = NUM_CHARS := by
    rw [hcl0, List.length_map, List.length_range]
  have hLlen : L.length = NUM_CHARS := by
    rw [hLperm.length_eq, hcl0len]
  have hmemcl0 : ∀ e ∈ cl0, ∃ i, i < NUM_CHARS ∧ e = CEntry.mk i (lensFun ls i) none := by
    intro e he
    rw [hcl0] at he
    obtain ⟨i, hi, hie⟩ := List.mem_map.1 he
    exact ⟨i, List.mem_range.1 hi, hie.symm⟩
  have hL255 : ∀ e ∈ L, e.codeLen ≤ 255 := by
    intro e he
    obtain ⟨i, _, rfl⟩ := hmemcl0 e (hLperm.mem_iff.1 he)
    exact hlfbound i
  set zs := L.filter (fun e => e.codeLen == 0) with hzsdef
  set nz := L.filter (fun e => !(e.codeLen == 0)) with hnzdef
  set ds := nz.reverse with hdsdef
  have hnzperm : List.Perm nz (cl0.filter (fun e => !(e.codeLen == 0))) := by
    rw [hnzdef]
    exact hLperm.filter _
  have hcl0filter : cl0.filter (fun e => !(e.codeLen == 0))
      = ((List.range NUM_CHARS).filter (fun i => !(lensFun ls i == 0))).map
          (fun i => CEntry.mk i (lensFun ls i) none) := by
    rw [hcl0, List.map_filter]
    rw [show (List.range NUM_CHARS).filter
        ((fun e => !(e.codeLen == 0)) ∘ fun i => CEntry.mk i (lensFun ls i) none)
        = (List.range NUM_CHARS).filter (fun i => !(lensFun ls i == 0)) from
      List.filter_congr' (fun i _ => rfl)]
  have hkraft0 : (ls.map (fun p => 2 ^ (256 - p.2))).sum = B256 := by
    rw [hlsdef]
    have hle : (HTree.comp cc clv cL cR).level = clv := rfl
    exact kraft_canonWalk_root hwf (by omega)
  have hkraftsum : S256 nz = B256 := by
    have h1 : S256 nz = S256 (cl0.filter (fun e => !(e.codeLen == 0))) :=
      S256_perm hnzperm
    rw [hcl0filter] at h1
    have h2 : S256 (((List.range NUM_CHARS).filter
          (fun i => !(lensFun ls i == 0))).map
          (fun i => CEntry.mk i (lensFun ls i) none))
        = (ls.map (fun p => 2 ^ (256 - p.2))).sum := by
      have hp := filter_range_perm ls NUM_CHARS hndls hlslt
        (fun p hp => (hls255 p hp).1)
      have hp2 := (hp.map (fun p : Nat × Nat => 2 ^ (256 - p.2))).sum_eq
      rw [List.map_map] at hp2
      unfold S256
      rw [List.map_map]
      exact hp2
    rw [h2, hkraft0] at h1
    exact h1
  have hdsort : List.Pairwise (fun a b : CEntry => b.codeLen ≤ a.codeLen) ds := by
    rw [hdsdef, List.pairwise_reverse]
    exact (List.Pairwise.filter _ hLsort).imp
      (by intro a b hab; unfold canonLe at hab; omega)
  have hdlen : ∀ e ∈ ds, 1 ≤ e.codeLen ∧ e.codeLen ≤ 255 := by
    intro e he
    rw [hdsdef, List.mem_reverse, hnzdef] at he
    have h1 := List.of_mem_filter he
    have h2 := List.mem_of_mem_filter he
    simp only [Bool.not_eq_true', beq_eq_false_iff_ne, ne_eq] at h1
    exact ⟨by omega, hL255 e h2⟩
  have hdS : S256 ds = B256 := by
    rw [hdsdef, S256_reverse]
    exact hkraftsum
  have hzs0 : ∀ e ∈ zs, e.codeLen = 0 := by
    intro e he
    rw [hzsdef] at he
    simpa using List.of_mem_filter he
  set A := assignCanonicalCodes L with hAdef
  have hA : A = zs ++ (canonSpec ds).reverse := by
    rw [hAdef]
    have h1 := assign_sorted L hLlen hLsort hL255 (by rw [← hnzdef]; exact hkraftsum)
    rw [← hzsdef, ← hnzdef, ← hdsdef] at h1
    exact h1
  have hcl0val : cl0.map (fun e => e.value) = List.range NUM_CHARS := by
    rw [hcl0, List.map_map]
    exact List.map_id _
  have hLval : List.Perm (L.map (fun e => e.value)) (List.range NUM_CHARS) := by
    rw [← hcl0val]
    exact hLperm.map _
  have hAval : A.map (fun e => e.value) = L.map (fun e => e.value) := by
    rw [hA, List.map_append, List.map_reverse, canonSpec_map_value]
    rw [hdsdef, List.map_reverse, List.reverse_reverse]
    rw [← List.map_append, hzsdef, hnzdef]
    conv_rhs => rw [sorted_zero_split L hLsort]
  have hAvalperm : List.Perm (A.map (fun e => e.value)) (List.range NUM_CHARS) := by
    rw [hAval]
    exact hLval
  set E := sortByValue A with hEdef
  have hEperm : List.Perm E A := by
    rw [hEdef]
    exact List.perm_insertionSort _ _
  have hENodup : (E.map (fun e => e.value)).Nodup :=
    List.Perm.nodup ((hEperm.map _).trans hAvalperm).symm (List.nodup_range NUM_CHARS)
  have hbcceq : buildCanonicalCode (HTree.comp cc clv cL cR) = E := by
    rw [hEdef, hAdef, hLdef, hcl0def, hlsdef]
    rfl
  refine ⟨ds, zs, hdsort, hdlen, hdS, hzs0, ?_, ?_⟩
  · rw [hbcceq, ← hA]
    exact hEperm
  · rw [hbcceq]
    exact hENodup

/-! ### Claim theorems -/

theorem length_flatten_ones {α : Type} : ∀ (L : List (List α)),
    (∀ l ∈ L, l.length = 1) → L.flatten.length = L.length := by
  intro L
  induction L with
  | nil => intro _; rfl
  | cons l rest ih =>
    intro h
    rw [List.flatten_cons, List.length_append, h l (by simp),
      ih (fun a ha => h a (by simp [ha])), List.length_cons]
    omega

/-- C5 (counterexample): on a single-leaf tree the `MakeCodeList` walk
records the empty code for the leaf's symbol, whose length is 0, not the
claimed 1. -/
theorem spec_c5_cex : makeCodeListWalk (HTree.leaf 65 1) [] = [(65, [])]
    ∧ ([] : List Bool).length ≠ 1 := ⟨rfl, by decide⟩

/-- C5 (amended): the traditional `MakeCodeList` walk assigns the single
leaf of a one-leaf tree the empty code of length 0 (no depth-1 fix), while
the canonical `BuildCanonicalCode` applies the `if (depth == 0) depth++`
fix and assigns the EOF-only leaf code length 1 with code bits 0. -/
theorem spec_c5 : (∀ v c : Nat, makeCodeListWalk (HTree.leaf v c) [] = [(v, [])])
    ∧ (buildCanonicalCode (HTree.leaf EOF_CHAR 1)).get? EOF_CHAR
        = some (CEntry.mk EOF_CHAR 1 (some 0)) := by
  refine ⟨fun v c => rfl, ?_⟩
  rw [buildCanonical_leafEOF]
  decide

/-- C6: `FindMinimumCount` returns NONE on an array whose only element is
active with count `2^31` (the signed `INT_MAX` initialisation makes counts
above `2^31 - 1` invisible), contradicting the claim that NONE is returned
exactly when no active element exists. -/
theorem spec_c6 : findMinimumCount [some (Slot.mk (HTree.leaf 0 (2 ^ 31)) false)]
      = none
    ∧ [some (Slot.mk (HTree.leaf 0 (2 ^ 31)) false)].get? 0
        = some (some (Slot.mk (HTree.leaf 0 (2 ^ 31)) false))
    ∧ (Slot.mk (HTree.leaf 0 (2 ^ 31)) false).ignore = false := by
  refine ⟨by decide, rfl, rfl⟩

set_option maxRecDepth 100000 in
set_option maxHeartbeats 1000000 in
/-- C8 (counterexample): a file holding only the traditional header for
symbol 0 with count 2 - so the encoded bit stream ends before any EOF leaf
is reached - decodes to success with the empty output instead of failing. -/
theorem spec_c8_cex : huffmanDecodeFile
    ((([0, 2, 0, 0, 0, 0, 0, 0, 0, 0] : List Nat).map byteBits).flatten)
    = some [] := by decide

/-- C8 (amended): when the bit stream is exhausted the traditional decode
walk returns success (`TRUE`, first component) with the symbols decoded so
far and the EOF flag still clear: there is no `TruncatedStream` failure
path, whatever node the walk stopped at. -/
theorem spec_c8 : ∀ (root sub : HTree) (out : List Nat),
    decodeWalk root sub [] out = some (true, out.reverse, false) := by
  intro root sub out
  cases sub <;> rfl

/-- C7 (counterexample): on three active leaves with counts `2^31`, `2^31`
and 1 the build loop's searches miss the large counts, and BuildHuffmanTree
returns the single leaf of count 1: a tree with 1 leaf instead of 3. -/
theorem spec_c7_cex : buildHuffmanTree
      [some (Slot.mk (HTree.leaf 0 (2 ^ 31)) false),
       some (Slot.mk (HTree.leaf 1 (2 ^ 31)) false),
       some (Slot.mk (HTree.leaf 2 1) false)] = some (HTree.leaf 2 1)
    ∧ (activeTrees
        [some (Slot.mk (HTree.leaf 0 (2 ^ 31)) false),
         some (Slot.mk (HTree.leaf 1 (2 ^ 31)) false),
         some (Slot.mk (HTree.leaf 2 1) false)]).length = 3
    ∧ (HTree.leaf 2 1).numLeaves ≠ 3 := by
  refine ⟨by decide, by decide, by decide⟩

/-- C7 (amended): over `n ≥ 1` active leaves with positive counts whose
total is at most `INT_MAX`, BuildHuffmanTree returns a tree with exactly
`n` leaves and `n - 1` internal nodes in which every internal node stores
the exact sum of its children's counts and `max(left.level, right.level)
+ 1` as its level (the content of `wfTree`). -/
theorem spec_c7 (ht : List (Option Slot)) (n : Nat)
    (hn : (activeTrees ht).length = n) (h1 : 1 ≤ n)
    (hleaf : ∀ u ∈ activeTrees ht, u.numComps = 0 ∧ 1 ≤ u.count)
    (hsum : ((activeTrees ht).map HTree.count).sum ≤ INT_MAX) :
    ∃ t, buildHuffmanTree ht = some t ∧ t.numLeaves = n ∧ t.numComps = n - 1
      ∧ wfTree t := by
  have hlv : ∀ u ∈ activeTrees ht, ∃ v c, u = HTree.leaf v c := by
    intro u hu
    cases u with
    | leaf v c => exact ⟨v, c, rfl⟩
    | comp a b c d =>
      exfalso
      have h2 := (hleaf _ hu).1
      have h3 : (HTree.comp a b c d).numComps = c.numComps + d.numComps + 1 := rfl
      omega
  obtain ⟨t, htree, hwf, _, hperm, _, hcomps⟩ :=
    buildHuffmanTree_spec n ht 0 hn h1
      (by
        intro u hu
        obtain ⟨v, c, rfl⟩ := hlv u hu
        exact ⟨trivial, (hleaf _ hu).2⟩)
      hsum
      (by intro u _; exact Nat.zero_le _)
      (by
        intro u hu hl
        obtain ⟨v, c, rfl⟩ := hlv u hu
        have h0 : (HTree.leaf v c).level = 0 := rfl
        omega)
  refine ⟨t, htree, ?_, ?_, hwf⟩
  · rw [← leafSeq_length, hperm.length_eq]
    rw [length_flatten_ones _ (by
      intro l hl
      obtain ⟨u, hu, rfl⟩ := List.mem_map.1 hl
      obtain ⟨v, c, rfl⟩ := hlv u hu
      rfl)]
    rw [List.length_map]
    exact hn
  · rw [hcomps]
    rw [List.sum_eq_zero (by
      intro m hm
      obtain ⟨u, hu, rfl⟩ := List.mem_map.1 hm
      obtain ⟨v, c, rfl⟩ := hlv u hu
      rfl)]
    omega

/-- Witness for C7 at two unit-count leaves. -/
theorem spec_c7_witness :
    ((activeTrees [some (Slot.mk (HTree.leaf 0 1) false),
        some (Slot.mk (HTree.leaf 1 1) false)]).length = 2)
    ∧ (∃ t, buildHuffmanTree [some (Slot.mk (HTree.leaf 0 1) false),
          some (Slot.mk (HTree.leaf 1 1) false)] = some t
        ∧ t.numLeaves = 2 ∧ t.numComps = 2 - 1 ∧ wfTree t) :=
  ⟨by decide,
    spec_c7 [some (Slot.mk (HTree.leaf 0 1) false),
      some (Slot.mk (HTree.leaf 1 1) false)] 2 (by decide) (by decide)
      (by decide) (by decide)⟩

/-- C10: with the running minimum initialised to the signed `INT_MAX`,
FindMinimumCount is correct whenever every active count is at most
`INT_MAX` (and levels are below `INT_MAX`, as for every tree the program
builds): NONE exactly on no active slot, otherwise the active slot with
the lexicographically least (count, level) key, lowest index first.  When
every active count exceeds `INT_MAX` it returns NONE although active slots
exist, and BuildHuffmanTree propagates the failure of its first search
(the C code reads `huffmanArray[-1]`). -/
theorem spec_c10 (ht : List (Option Slot)) :
    ((∀ k s, ht.get? k = some (some s) → s.ignore = false →
        s.t.count ≤ INT_MAX ∧ s.t.level < INT_MAX) →
      ((findMinimumCount ht = none ↔
        ∀ k s, ht.get? k = some (some s) → s.ignore = false → False) ∧
       ∀ j, findMinimumCount ht = some j →
         ∃ s, ht.get? j = some (some s) ∧ s.ignore = false ∧
           (∀ k' s', ht.get? k' = some (some s') → s'.ignore = false →
             ¬ lexLt (skey s') (skey s)) ∧
           (∀ k' s', k' < j → ht.get? k' = some (some s') → s'.ignore = false →
             lexLt (skey s) (skey s'))))
    ∧ ((∀ k s, ht.get? k = some (some s) → s.ignore = false →
          INT_MAX < s.t.count) →
        ∀ k s, ht.get? k = some (some s) → s.ignore = false →
          findMinimumCount ht = none ∧ buildHuffmanTree ht = none) := by
  constructor
  · intro hsmall
    constructor
    · constructor
      · intro hnone k s hk hact
        have h1 := (findMinimumCount_none_iff ht).1 hnone k s hk hact
        have h2 := hsmall k s hk hact
        apply h1
        show s.t.count < INT_MAX ∨ (s.t.count = INT_MAX ∧ s.t.level < INT_MAX)
        omega
      · intro hno
        apply (findMinimumCount_none_iff ht).2
        intro k s hk hact
        exact (hno k s hk hact).elim
    · intro j hj
      rcases findMinimumCount_some hj with ⟨s, h1, h2, _, h4, h5⟩
      exact ⟨s, h1, h2, h4, h5⟩
  · intro hbig k s hk hact
    have hnone : findMinimumCount ht = none := by
      apply (findMinimumCount_none_iff ht).2
      intro k' s' hk' hact' hlex
      have h1 := hbig k' s' hk' hact'
      have h2 : s'.t.count < INT_MAX ∨ (s'.t.count = INT_MAX ∧ s'.t.level < INT_MAX) :=
        hlex
      omega
    refine ⟨hnone, ?_⟩
    show buildLoop (numSome ht + 1) ht = none
    show (match findMinimumCount ht with
      | none => none
      | some m1 =>
        match findMinimumCount (markIgnored ht m1) with
        | none =>
          match (markIgnored ht m1).get? m1 with
          | some (some s) => some s.t
          | _ => none
        | some m2 =>
          match (markIgnored ht m1).get? m1, (markIgnored ht m1).get? m2 with
          | some (some a), some (some b) =>
            buildLoop (numSome ht)
              (((markIgnored ht m1).set m1
                  (some (Slot.mk (allocHuffmanCompositeNode a.t b.t) false))).set m2 none)
          | _, _ => none) = none
    rw [hnone]

/-- Witness for C10 at a single active slot of count `2^31`. -/
theorem spec_c10_witness :
    findMinimumCount [some (Slot.mk (HTree.leaf 0 (2 ^ 31)) false)] = none
    ∧ buildHuffmanTree [some (Slot.mk (HTree.leaf 0 (2 ^ 31)) false)] = none :=
  (spec_c10 [some (Slot.mk (HTree.leaf 0 (2 ^ 31)) false)]).2
    (by
      intro k s hk _
      cases k with
      | zero =>
        have h2 := Option.some.inj (Option.some.inj hk)
        rw [← h2]
        decide
      | succ m => exact absurd hk (by simp))
    0 (Slot.mk (HTree.leaf 0 (2 ^ 31)) false) rfl rfl

/-- Failure propagation of the traditional encoder once the emission loop
fails. -/
theorem huffmanEncodeFile_none {x : List Nat} {slots : List (Option Slot)}
    {t : HTree}
    (h1 : generateTreeSlots x = some slots)
    (h2 : buildHuffmanTree slots = some t)
    (h3 : encodeData (makeCodeListWalk t []) x = none) :
    huffmanEncodeFile x = none := by
  unfold huffmanEncodeFile
  rw [h1]
  show (match buildHuffmanTree slots with
    | none => none
    | some tree =>
      match encodeData (makeCodeListWalk tree []) x,
            findCode (makeCodeListWalk tree []) EOF_CHAR with
      | some dataBits, some eofCode =>
          some (pad8 ((((writeHeader tree).map byteBits).flatten
            ++ dataBits) ++ eofCode))
      | _, _ => none) = none
  rw [h2]
  show (match encodeData (makeCodeListWalk t []) x,
            findCode (makeCodeListWalk t []) EOF_CHAR with
      | some dataBits, some eofCode =>
          some (pad8 ((((writeHeader t).map byteBits).flatten
            ++ dataBits) ++ eofCode))
      | _, _ => none) = none
  rw [h3]

set_option maxRecDepth 100000 in
set_option maxHeartbeats 4000000 in
/-- C1 (counterexample): on the `2^31` zero bytes, counting succeeds (no
symbol count overflows `count_t`), but the zero leaf's count `2^31` is
invisible to FindMinimumCount, the build loop stops at the EOF leaf alone,
symbol 0 has no code, and encoding fails: no round trip exists. -/
theorem spec_c1_cex : huffmanEncodeFile (List.replicate (2 ^ 31) 0) = none := by
  have htreeC : buildHuffmanTree (slotArr
      (fun i => if i = EOF_CHAR then 1 else if i = 0 then 2 ^ 31 else 0)
      (fun i => if i = EOF_CHAR then false else if i = 0 then false else true))
      = some (HTree.leaf EOF_CHAR 1) := by decide
  apply huffmanEncodeFile_none slots_big htreeC
  have hsplit : List.replicate (2 ^ 31) (0 : Nat)
      = 0 :: List.replicate (2 ^ 31 - 1) 0 := by
    have h2 : List.replicate (2 ^ 31 - 1 + 1) (0 : Nat)
        = 0 :: List.replicate (2 ^ 31 - 1) 0 := by
      rw [List.replicate_succ]
    have h3 : (2 ^ 31 - 1 + 1 : Nat) = 2 ^ 31 := by omega
    rw [h3] at h2
    exact h2
  rw [hsplit]
  exact encodeData_cons_none (by decide) (List.replicate (2 ^ 31 - 1) 0)

/-- C1 (amended): the round trip holds for both coders whenever the byte
values are below 256 and the total count `length + 1` stays within
`INT_MAX`, so that every tree node stays visible to FindMinimumCount. -/
theorem spec_c1 (x : List Nat) (hx : ∀ c ∈ x, c < 256)
    (hlen : x.length + 1 ≤ INT_MAX) :
    (∃ f, huffmanEncodeFile x = some f ∧ huffmanDecodeFile f = some x)
    ∧ (∃ f, cHuffmanEncodeFile x = some f ∧ cHuffmanDecodeFile f = some x) :=
  ⟨traditional_roundtrip x hx hlen, canonical_roundtrip x hx hlen⟩

/-- Witness for C1 at the empty input. -/
theorem spec_c1_witness : (∀ c ∈ ([] : List Nat), c < 256)
    ∧ ([] : List Nat).length + 1 ≤ INT_MAX
    ∧ ((∃ f, huffmanEncodeFile [] = some f ∧ huffmanDecodeFile f = some [])
      ∧ (∃ f, cHuffmanEncodeFile [] = some f ∧ cHuffmanDecodeFile f = some [])) :=
  ⟨by decide, by decide, spec_c1 [] (by decide) (by decide)⟩

/-- C9 (counterexample): in src/chuffman.c an input of `COUNT_T_MAX` zero
bytes followed by one more byte is rejected by the total-count check, even
though no single symbol occurs more than `COUNT_T_MAX` times. -/
theorem spec_c9_cex : cTotalLoop (List.replicate COUNT_T_MAX 0 ++ [1]) 0 = none
    ∧ ∀ c, c < NUM_CHARS →
        (List.replicate COUNT_T_MAX 0 ++ [1]).count c ≤ COUNT_T_MAX := by
  constructor
  · rw [cTotalLoop_spec _ 0 (by omega)]
    rw [if_neg (by
      rw [List.length_append, List.length_replicate]
      have h1 : ([1] : List Nat).length = 1 := rfl
      omega)]
  · intro c _
    rw [List.count_append]
    have h1 : ([1] : List Nat).count c ≤ 1 := List.count_le_length c [1]
    by_cases hc0 : c = 0
    · subst hc0
      rw [List.count_replicate_self]
      have h2 : ([1] : List Nat).count 0 = 0 := by decide
      omega
    · have h3 : (List.replicate COUNT_T_MAX (0 : Nat)).count c = 0 :=
        List.count_eq_zero.2 (fun hm => hc0 (List.eq_of_mem_replicate hm))
      rw [h3]
      unfold COUNT_T_MAX
      omega

/-- C9 (amended): in huffman.c (part_003) the per-symbol counts are capped:
counting succeeds - with the final counts `cntE` and ignore flags `igE` -
exactly when every symbol occurs at most `COUNT_T_MAX = 2^32 - 1` times,
and fails as soon as one more increment would pass the cap.  In
src/chuffman.c a single shared `totalCount` is capped instead: counting
succeeds exactly when the whole input length is at most `COUNT_T_MAX`,
regardless of the per-symbol distribution. -/
theorem spec_c9 :
    (∀ x : List Nat, (∀ c ∈ x, c < 256) →
      ((∀ c, c < NUM_CHARS → x.count c ≤ COUNT_T_MAX) →
        generateTreeSlots x = some (slotArr (cntE x) (igE x)))
      ∧ ((∃ c, c < NUM_CHARS ∧ COUNT_T_MAX < x.count c) →
        generateTreeSlots x = none))
    ∧ (∀ x : List Nat, cTotalLoop x 0
        = if x.length ≤ COUNT_T_MAX then some x.length else none) := by
  constructor
  · intro x hx
    constructor
    · intro hcnt
      unfold generateTreeSlots
      rw [initSlots_eq, setEOF_slotArr]
      apply genLoop_spec x _ _
        (by intro c hc; have := hx c hc; unfold NUM_CHARS; omega)
      · intro c hcN
        by_cases hc : c = EOF_CHAR
        · rw [if_pos hc]
          have h256 : (256 : Nat) ∉ x := by
            intro hm
            have := hx 256 hm
            omega
          have h0 : x.count c = 0 := by
            rw [hc]
            exact List.count_eq_zero.mpr h256
          unfold COUNT_T_MAX
          omega
        · rw [if_neg hc]
          have := hcnt c hcN
          omega
      · intro i _
        unfold cntE
        by_cases hi : i = EOF_CHAR
        · rw [if_pos hi, if_pos hi]
          have h256 : (256 : Nat) ∉ x := by
            intro hmem
            have := hx 256 hmem
            omega
          have h0 : x.count i = 0 := by
            apply List.count_eq_zero.mpr
            rw [hi]
            exact h256
          omega
        · rw [if_neg hi, if_neg hi]
          omega
      · intro i _
        rfl
    · rintro ⟨c, hcN, hbig⟩
      unfold generateTreeSlots
      rw [initSlots_eq, setEOF_slotArr]
      apply genLoop_none x _ _
        (by intro a ha; have := hx a ha; unfold NUM_CHARS; omega)
      · intro a
        by_cases hae : a = EOF_CHAR
        · rw [if_pos hae]
          unfold COUNT_T_MAX
          omega
        · rw [if_neg hae]
          omega
      · refine ⟨c, hcN, ?_⟩
        by_cases hce : c = EOF_CHAR
        · rw [if_pos hce]
          omega
        · rw [if_neg hce]
          omega
  · intro x
    rw [cTotalLoop_spec x 0 (by omega)]
    by_cases h : x.length ≤ COUNT_T_MAX
    · rw [if_pos (by omega), if_pos h]
      exact congrArg some (by omega)
    · rw [if_neg (by omega), if_neg h]

set_option maxRecDepth 100000 in
set_option maxHeartbeats 1000000 in
/-- Witness for C9 at the one-byte input `[5]` and the two-byte input
`[0, 0]`. -/
theorem spec_c9_witness : (∀ c ∈ ([5] : List Nat), c < 256)
    ∧ (∀ c, c < NUM_CHARS → ([5] : List Nat).count c ≤ COUNT_T_MAX)
    ∧ generateTreeSlots [5] = some (slotArr (cntE [5]) (igE [5]))
    ∧ cTotalLoop [0, 0] 0
      = if ([0, 0] : List Nat).length ≤ COUNT_T_MAX
        then some ([0, 0] : List Nat).length else none :=
  ⟨by decide, by decide, (spec_c9.1 [5] (by decide)).1 (by decide),
    spec_c9.2 [0, 0]⟩

set_option maxRecDepth 100000 in
set_option maxHeartbeats 1000000 in
/-- C4 (counterexample): the canonical header holds one code-length byte
per `canonical_list` entry, EOF included: 257 bytes, not the claimed 256. -/
theorem spec_c4_cex :
    (writeCHeader (buildCanonicalCode (HTree.leaf EOF_CHAR 1))).length = 257
    ∧ (257 : Nat) ≠ 256 := by
  refine ⟨?_, by decide⟩
  rw [buildCanonical_leafEOF]
  decide

/-- C4 (amended): whenever the canonical encoder succeeds, its header is
exactly `NUM_CHARS = 257` code-length bytes (one per symbol 0..256, EOF
included), and the in-band EOF code is appended after the data bits before
the byte padding. -/
theorem spec_c4 {x : List Nat} {slots : List (Option Slot)} {t : HTree}
    {dataBits : List Bool} {eEof : CEntry} {cv : Nat}
    (h1 : generateTreeSlots x = some slots)
    (h2 : buildHuffmanTree slots = some t)
    (h3 : cEncodeData (buildCanonicalCode t) x = some dataBits)
    (h4 : (buildCanonicalCode t).get? EOF_CHAR = some eEof)
    (h5 : eEof.code = some cv) :
    (writeCHeader (buildCanonicalCode t)).length = NUM_CHARS
    ∧ cHuffmanEncodeFile x = some (pad8 ((((writeCHeader (buildCanonicalCode t)).map
        byteBits).flatten ++ dataBits) ++ codeBits cv eEof.codeLen)) := by
  refine ⟨?_, cHuffmanEncodeFile_eq h1 h2 h3 h4 h5⟩
  show ((buildCanonicalCode t).map _).length = NUM_CHARS
  rw [List.length_map, buildCanonicalCode_length]

set_option maxRecDepth 100000 in
set_option maxHeartbeats 4000000 in
/-- Witness for C4 at the empty input. -/
theorem spec_c4_witness :
    generateTreeSlots [] = some (slotArr (cntE []) (igE []))
    ∧ buildHuffmanTree (slotArr (cntE []) (igE [])) = some (HTree.leaf EOF_CHAR 1)
    ∧ cEncodeData (buildCanonicalCode (HTree.leaf EOF_CHAR 1)) [] = some []
    ∧ (buildCanonicalCode (HTree.leaf EOF_CHAR 1)).get? EOF_CHAR
        = some (CEntry.mk EOF_CHAR 1 (some 0))
    ∧ (writeCHeader (buildCanonicalCode (HTree.leaf EOF_CHAR 1))).length = NUM_CHARS
    ∧ cHuffmanEncodeFile []
      = some (pad8 ((((writeCHeader (buildCanonicalCode (HTree.leaf EOF_CHAR 1))).map
          byteBits).flatten ++ [])
        ++ codeBits 0 (CEntry.mk EOF_CHAR 1 (some 0)).codeLen)) := by
  have h1 : generateTreeSlots [] = some (slotArr (cntE []) (igE [])) :=
    encSlots [] (by decide) (by decide)
  have h2 : buildHuffmanTree (slotArr (cntE []) (igE []))
      = some (HTree.leaf EOF_CHAR 1) := by decide
  have h4 : (buildCanonicalCode (HTree.leaf EOF_CHAR 1)).get? EOF_CHAR
      = some (CEntry.mk EOF_CHAR 1 (some 0)) := by
    rw [buildCanonical_leafEOF]
    decide
  have hmain := spec_c4 h1 h2 rfl h4 rfl
  exact ⟨h1, h2, rfl, h4, hmain.1, hmain.2⟩

set_option maxRecDepth 100000 in
set_option maxHeartbeats 1000000 in
/-- C2: for every encodable input, both code tables are prefix-free.  The
`MakeCodeList` walk of the built tree assigns pairwise non-prefix bit
paths, and in the canonical list produced by `AssignCanonicalCodes` no
entry's code of nonzero length is a bit-prefix of another entry's. -/
theorem spec_c2 (x : List Nat) (hx : ∀ c ∈ x, c < 256)
    (hlen : x.length + 1 ≤ INT_MAX) :
    ∃ slots t, generateTreeSlots x = some slots ∧ buildHuffmanTree slots = some t
      ∧ List.Pairwise (fun a b : Nat × List Bool =>
          ¬ listPre a.2 b.2 ∧ ¬ listPre b.2 a.2) (makeCodeListWalk t [])
      ∧ (∀ i j a b, i ≠ j →
          (buildCanonicalCode t).get? i = some a →
          (buildCanonicalCode t).get? j = some b →
          1 ≤ a.codeLen → 1 ≤ b.codeLen →
          ¬ listPre (cBits a) (cBits b)) := by
  have hlenM : x.length ≤ COUNT_T_MAX := by
    unfold COUNT_T_MAX
    unfold INT_MAX at hlen
    omega
  have hslots := encSlots x hx hlenM
  have hAT := activeTrees_enc x
  have hEOFmem : EOF_CHAR ∈ activeIdx x :=
    mem_activeIdx.2 ⟨Or.inl rfl, by unfold EOF_CHAR NUM_CHARS; omega⟩
  have hn1 : 1 ≤ (activeTrees (slotArr (cntE x) (igE x))).length := by
    rw [hAT, List.length_map]
    have hne : activeIdx x ≠ [] := List.ne_nil_of_mem hEOFmem
    have := List.length_pos.mpr hne
    omega
  have hsum : ((activeTrees (slotArr (cntE x) (igE x))).map HTree.count).sum
      = x.length + 1 := by
    rw [hAT, List.map_map]
    rw [show (HTree.count ∘ fun i => HTree.leaf i (cntE x i)) = cntE x from rfl]
    exact sum_active x hx
  obtain ⟨t, htree, hwf, hfib, hperm0, hcnt, hcomps⟩ :=
    buildHuffmanTree_spec (activeTrees (slotArr (cntE x) (igE x))).length
      (slotArr (cntE x) (igE x)) 0 rfl hn1
      (by
        intro u hu
        rw [hAT] at hu
        obtain ⟨i, hi, rfl⟩ := List.mem_map.1 hu
        exact ⟨trivial, cntE_pos x hi⟩)
      (by rw [hsum]; exact hlen)
      (by intro u _; exact Nat.zero_le _)
      (by
        intro u hu hl
        rw [hAT] at hu
        obtain ⟨i, hi, rfl⟩ := List.mem_map.1 hu
        have h0 : (HTree.leaf i (cntE x i)).level = 0 := rfl
        omega)
  have hperm : List.Perm t.leafSeq ((activeIdx x).map (fun i => (i, cntE x i))) := by
    have h1 := hperm0
    rw [hAT, flatten_leafSeq_map] at h1
    exact h1
  have hleaffst : List.Perm (t.leafSeq.map Prod.fst) (activeIdx x) := by
    have h1 := hperm.map Prod.fst
    rw [List.map_map] at h1
    rw [show (Prod.fst ∘ fun i => ((i : Nat), cntE x i)) = id from rfl] at h1
    rw [List.map_id] at h1
    exact h1
  have hndleaf : (t.leafSeq.map Prod.fst).Nodup :=
    List.Perm.nodup hleaffst.symm (activeIdx_nodup x)
  refine ⟨_, t, hslots, htree, walk_pairwise_no_pre t [], ?_⟩
  by_cases hxe : x = []
  · subst hxe
    have hAe : activeIdx [] = [EOF_CHAR] := rfl
    have hperm1 : List.Perm t.leafSeq [(EOF_CHAR, 1)] := by
      have h1 := hperm
      rw [hAe] at h1
      exact h1
    have hteq : t = HTree.leaf EOF_CHAR 1 :=
      leafSeq_singleton (List.Perm.eq_singleton hperm1)
    subst hteq
    intro i j a b hij ha hb h1a h1b
    have hm : (buildCanonicalCode (HTree.leaf EOF_CHAR 1)).map (fun e => e.codeLen)
        = List.replicate 256 0 ++ [1] := by
      rw [buildCanonical_leafEOF]
      decide
    have hrep : ∀ k, k < 256 → (List.replicate 256 (0 : Nat) ++ [1]).get? k
        = some 0 := by decide
    have hidx : ∀ k e, (buildCanonicalCode (HTree.leaf EOF_CHAR 1)).get? k = some e →
        1 ≤ e.codeLen → k = 256 := by
      intro k e hk h1k
      have hmk : (List.replicate 256 (0 : Nat) ++ [1]).get? k = some e.codeLen := by
        rw [← hm, List.get?_map, hk]
        rfl
      have hklt : k < 257 := by
        have h2 := get?_lt_length hk
        rw [buildCanonicalCode_length] at h2
        exact h2
      by_cases hk256 : k < 256
      · exfalso
        rw [hrep k hk256] at hmk
        have := Option.some.inj hmk
        omega
      · omega
    exact absurd ((hidx i a ha h1a).trans (hidx j b hb h1b).symm) hij
  · obtain ⟨c0, hc0⟩ := List.exists_mem_of_ne_nil x hxe
    have hc0act : c0 ∈ activeIdx x :=
      mem_activeIdx.2 ⟨Or.inr hc0, by have := hx c0 hc0; unfold NUM_CHARS; omega⟩
    have hn2 : 2 ≤ (activeIdx x).length :=
      two_le_length hc0act hEOFmem (by have := hx c0 hc0; unfold EOF_CHAR; omega)
    have hcompn : 1 ≤ t.numComps := by
      rw [hcomps]
      have hzero : ((activeTrees (slotArr (cntE x) (igE x))).map HTree.numComps).sum
          = 0 := by
        rw [hAT, List.map_map]
        rw [show (HTree.numComps ∘ fun i => HTree.leaf i (cntE x i))
          = (fun _ => 0) from rfl]
        simp
      rw [hzero, hAT, List.length_map]
      omega
    obtain ⟨cc, clv, cL, cR, hteq⟩ : ∃ cc clv cL cR, t = HTree.comp cc clv cL cR := by
      cases t with
      | leaf v c =>
        exfalso
        have h0 : (HTree.leaf v c).numComps = 0 := rfl
        omega
      | comp a b c d => exact ⟨a, b, c, d, rfl⟩
    have hlev : t.level + 1 < 48 := level_small hfib (by rw [hcnt, hsum]; exact hlen)
    subst hteq
    obtain ⟨ds, zs, hdsort, hdlen, hdS, hzs0, hpermE, hnodup⟩ :=
      canonical_table_struct cc clv cL cR hwf hlev hndleaf
        (by
          intro v hv
          exact (mem_activeIdx.1 (hleaffst.mem_iff.1 hv)).2)
    intro i j a b hij ha hb h1a h1b
    have haE := List.get?_mem ha
    have hbE := List.get?_mem hb
    have hEnodup : (buildCanonicalCode (HTree.comp cc clv cL cR)).Nodup :=
      List.Nodup.of_map _ hnodup
    have hab : a ≠ b := by
      intro he
      apply hij
      apply List.get?_inj (get?_lt_length ha) hEnodup
      rw [ha, hb, he]
    have hmem : ∀ e, e ∈ buildCanonicalCode (HTree.comp cc clv cL cR) →
        1 ≤ e.codeLen → e ∈ canonSpec ds := by
      intro e he h1e
      have h2 := hpermE.mem_iff.1 he
      rcases List.mem_append.1 h2 with h | h
      · have := hzs0 e h
        omega
      · exact List.mem_reverse.1 h
    obtain ⟨ka, hka⟩ := List.mem_iff_get?.mp (hmem a haE h1a)
    obtain ⟨kb, hkb⟩ := List.mem_iff_get?.mp (hmem b hbE h1b)
    have hkab : ka ≠ kb := by
      intro he
      apply hab
      rw [he] at hka
      exact Option.some.inj (hka.symm.trans hkb)
    rcases Nat.lt_or_ge ka kb with h | h
    · exact (canonSpec_no_pre hdsort hdlen (le_of_eq hdS) ka kb a b h hka hkb).1
    · exact (canonSpec_no_pre hdsort hdlen (le_of_eq hdS) kb ka b a
        (by omega) hkb hka).2

/-- Witness for C2 at the one-byte input `[0]`. -/
theorem spec_c2_witness : (∀ c ∈ ([0] : List Nat), c < 256)
    ∧ ([0] : List Nat).length + 1 ≤ INT_MAX
    ∧ ∃ slots t, generateTreeSlots [0] = some slots
      ∧ buildHuffmanTree slots = some t
      ∧ List.Pairwise (fun a b : Nat × List Bool =>
          ¬ listPre a.2 b.2 ∧ ¬ listPre b.2 a.2) (makeCodeListWalk t [])
      ∧ (∀ i j a b, i ≠ j →
          (buildCanonicalCode t).get? i = some a →
          (buildCanonicalCode t).get? j = some b →
          1 ≤ a.codeLen → 1 ≤ b.codeLen →
          ¬ listPre (cBits a) (cBits b)) :=
  ⟨by decide, by decide, spec_c2 [0] (by decide) (by decide)⟩

/-- The ordering C3 claims, in the spec's words: among the assigned entries
(in the `(code_len, symbol)`-sorted order the list is kept in), the numeric
values of codes of equal nonzero length are strictly increasing. -/
def canonIncreasingWithin (cl : List CEntry) : Prop :=
  ∀ i j a b, i < j → cl.get? i = some a → cl.get? j = some b →
    1 ≤ a.codeLen → a.codeLen = b.codeLen →
    a.code.getD 0 / 2 ^ (256 - a.codeLen) < b.code.getD 0 / 2 ^ (256 - b.codeLen)

set_option maxRecDepth 100000 in
set_option maxHeartbeats 4000000 in
/-- C3 (counterexample): on the sorted length assignment giving symbol 254
length 1 and symbols 255, 256 length 2, the assigned codes of length 2 are
`01` (value 1) for symbol 255 and then `00` (value 0) for symbol 256:
numeric values strictly decrease, not increase. -/
theorem spec_c3_cex :
    List.Pairwise canonLe ((List.range 254).map (fun i => CEntry.mk i 0 none)
      ++ [CEntry.mk 254 1 none, CEntry.mk 255 2 none, CEntry.mk 256 2 none])
    ∧ ¬ canonIncreasingWithin (assignCanonicalCodes
        ((List.range 254).map (fun i => CEntry.mk i 0 none)
          ++ [CEntry.mk 254 1 none, CEntry.mk 255 2 none, CEntry.mk 256 2 none])) := by
  refine ⟨by decide, ?_⟩
  intro h
  have hga : (assignCanonicalCodes
      ((List.range 254).map (fun i => CEntry.mk i 0 none)
        ++ [CEntry.mk 254 1 none, CEntry.mk 255 2 none, CEntry.mk 256 2 none])).get? 255
      = some (CEntry.mk 255 2 (some (2 ^ 254))) := by decide
  have hgb : (assignCanonicalCodes
      ((List.range 254).map (fun i => CEntry.mk i 0 none)
        ++ [CEntry.mk 254 1 none, CEntry.mk 255 2 none, CEntry.mk 256 2 none])).get? 256
      = some (CEntry.mk 256 2 (some 0)) := by decide
  have h2 := h 255 256 (CEntry.mk 255 2 (some (2 ^ 254))) (CEntry.mk 256 2 (some 0))
    (by omega) hga hgb (by decide) rfl
  exact absurd h2 (by decide)

/-- C3 (amended): after `AssignCanonicalCodes` on the sorted list (under
the exact Kraft equality the loop presupposes), consecutive entries of
nonzero length satisfy the reversed law: lengths ascend, and the next
code's numeric value `v_next` is obtained from the current one `v` by
`v_next + 1 = v * 2 ^ (len_next - len)`; numeric values strictly decrease
along the sorted order within and across lengths. -/
theorem spec_c3 (L : List CEntry) (hlenL : L.length = NUM_CHARS)
    (hsort : List.Pairwise canonLe L) (h255 : ∀ e ∈ L, e.codeLen ≤ 255)
    (hkraft : S256 (L.filter (fun e => !(e.codeLen == 0))) = B256) :
    ∀ k a b, (assignCanonicalCodes L).get? k = some a →
      (assignCanonicalCodes L).get? (k + 1) = some b →
      1 ≤ a.codeLen →
      1 ≤ b.codeLen ∧ a.codeLen ≤ b.codeLen ∧
      b.code.getD 0 / 2 ^ (256 - b.codeLen) + 1
        = a.code.getD 0 / 2 ^ (256 - a.codeLen) * 2 ^ (b.codeLen - a.codeLen) := by
  have hA := assign_sorted L hlenL hsort h255 hkraft
  set zs := L.filter (fun e => e.codeLen == 0) with hzs
  set nz := L.filter (fun e => !(e.codeLen == 0)) with hnz
  set ds := nz.reverse with hds
  have hdsort : List.Pairwise (fun a b : CEntry => b.codeLen ≤ a.codeLen) ds := by
    rw [hds, List.pairwise_reverse]
    exact (List.Pairwise.filter _ hsort).imp
      (by intro a b hab; unfold canonLe at hab; omega)
  have hdlen : ∀ e ∈ ds, 1 ≤ e.codeLen ∧ e.codeLen ≤ 255 := by
    intro e he
    rw [hds, List.mem_reverse, hnz] at he
    have h1 := List.of_mem_filter he
    have h2 := List.mem_of_mem_filter he
    simp only [Bool.not_eq_true', beq_eq_false_iff_ne, ne_eq] at h1
    exact ⟨by omega, h255 e h2⟩
  have hdS : S256 ds = B256 := by
    rw [hds, S256_reverse]
    exact hkraft
  have hzs0 : ∀ e ∈ zs, e.codeLen = 0 := by
    intro e he
    rw [hzs] at he
    simpa using List.of_mem_filter he
  intro k a b ha hb h1a
  rw [hA] at ha hb
  have hzlen : zs.length ≤ k := by
    by_contra hlt0
    push_neg at hlt0
    rw [List.get?_append hlt0] at ha
    have := hzs0 a (List.get?_mem ha)
    omega
  have hRa : ((canonSpec ds).reverse).get? (k - zs.length) = some a := by
    rw [List.get?_append_right hzlen] at ha
    exact ha
  have hRb : ((canonSpec ds).reverse).get? (k + 1 - zs.length) = some b := by
    rw [List.get?_append_right (by omega)] at hb
    exact hb
  have hraR := get?_lt_length hRa
  have hrbR := get?_lt_length hRb
  rw [List.length_reverse, canonSpec_length] at hraR hrbR
  have hkb1 : k + 1 - zs.length = (k - zs.length) + 1 := by omega
  rw [hkb1] at hRb hrbR
  rw [List.get?_reverse (by rw [canonSpec_length]; exact hraR)] at hRa
  rw [List.get?_reverse (by rw [canonSpec_length]; exact hrbR)] at hRb
  rw [canonSpec_length] at hRa hRb
  -- canonSpec positions: b is one position before a in the longest-first list
  have hkadef : ds.length - 1 - (k - zs.length) = (ds.length - 1 - (k - zs.length + 1)) + 1 := by
    omega
  set ka := ds.length - 1 - (k - zs.length) with hkaeq
  set kb := ds.length - 1 - (k - zs.length + 1) with hkbeq
  have hkak : ka < ds.length := by omega
  have hkbk : kb < ds.length := by omega
  obtain ⟨eka, hgka⟩ : ∃ e, ds.get? ka = some e :=
    ⟨ds.get ⟨ka, hkak⟩, List.get?_eq_get hkak⟩
  obtain ⟨ekb, hgkb⟩ : ∃ e, ds.get? kb = some e :=
    ⟨ds.get ⟨kb, hkbk⟩, List.get?_eq_get hkbk⟩
  have hca := canonSpec_get? ds ka eka hgka
  have hcb := canonSpec_get? ds kb ekb hgkb
  rw [hca] at hRa
  rw [hcb] at hRb
  have haeq : a = CEntry.mk eka.value eka.codeLen
      (some (B256 - S256 (ds.drop ka))) := (Option.some.inj hRa).symm
  have hbeq : b = CEntry.mk ekb.value ekb.codeLen
      (some (B256 - S256 (ds.drop kb))) := (Option.some.inj hRb).symm
  have hkba : kb + 1 = ka := by omega
  -- lengths ascend along the sorted order
  have hlab : eka.codeLen ≤ ekb.codeLen := by
    have hmem : eka ∈ ds.drop kb := by
      have hg2 : (ds.drop kb).get? (ka - kb) = some eka := by
        rw [List.get?_drop]
        rw [show kb + (ka - kb) = ka from by omega]
        exact hgka
      exact List.get?_mem hg2
    exact sorted_drop_head_le ds kb ekb hdsort hgkb eka hmem
  obtain ⟨hdvda, hSlea, hSposa⟩ := canonSpec_self_facts hdsort hdlen (le_of_eq hdS) hgka
  have hl1a := hdlen eka (List.get?_mem hgka)
  have hl1b := hdlen ekb (List.get?_mem hgkb)
  -- interval sums at the two positions
  have hSsplit : S256 (ds.drop kb) = 2 ^ (256 - ekb.codeLen) + S256 (ds.drop ka) := by
    rw [S256_drop_succ hgkb, hkba]
  have hSka : S256 (ds.drop kb) ≤ B256 := by
    have h1 := S256_drop_mono ds (Nat.zero_le kb)
    have h0 : ds.drop 0 = ds := rfl
    rw [h0, hdS] at h1
    exact h1
  -- divisibility of the shared code prefix
  have hdvdb : 2 ^ (256 - ekb.codeLen) ∣ (B256 - S256 (ds.drop ka)) := by
    refine dvd_trans (pow_dvd_pow 2 (by omega)) hdvda
  have hD : 0 < 2 ^ (256 - ekb.codeLen) := Nat.pos_pow_of_pos _ (by omega)
  have hXD : 2 ^ (256 - ekb.codeLen) ≤ B256 - S256 (ds.drop ka) := by
    have hB : 0 < B256 := Nat.pos_pow_of_pos _ (by omega)
    omega
  -- the quotient at the longer length is the shifted quotient at the shorter
  have hshift : (B256 - S256 (ds.drop ka)) / 2 ^ (256 - ekb.codeLen)
      = (B256 - S256 (ds.drop ka)) / 2 ^ (256 - eka.codeLen)
        * 2 ^ (ekb.codeLen - eka.codeLen) := by
    obtain ⟨q, hq⟩ := hdvda
    rw [hq, Nat.mul_div_cancel_left q (Nat.pos_pow_of_pos _ (by omega))]
    rw [show (256 - eka.codeLen : Nat)
      = (256 - ekb.codeLen) + (ekb.codeLen - eka.codeLen) from by omega]
    rw [pow_add, Nat.mul_assoc,
      Nat.mul_div_cancel_left (2 ^ (ekb.codeLen - eka.codeLen) * q) hD]
    exact Nat.mul_comm _ _
  -- the decrement law
  have hlaw : (B256 - S256 (ds.drop kb)) / 2 ^ (256 - ekb.codeLen) + 1
      = (B256 - S256 (ds.drop ka)) / 2 ^ (256 - ekb.codeLen) := by
    obtain ⟨q, hq⟩ := hdvdb
    have hq1 : 1 ≤ q := by
      by_contra h0
      push_neg at h0
      interval_cases q
      omega
    have hbx : B256 - S256 (ds.drop kb)
        = 2 ^ (256 - ekb.codeLen) * (q - 1) := by
      have hB : 0 < B256 := Nat.pos_pow_of_pos _ (by omega)
      have h2 : S256 (ds.drop ka) ≤ B256 := by omega
      rw [Nat.mul_sub_one]
      omega
    rw [hbx, hq, Nat.mul_comm, Nat.mul_div_cancel _ hD,
      Nat.mul_comm, Nat.mul_div_cancel _ hD]
    omega
  rw [haeq, hbeq]
  show 1 ≤ ekb.codeLen ∧ eka.codeLen ≤ ekb.codeLen ∧
    (B256 - S256 (ds.drop kb)) / 2 ^ (256 - ekb.codeLen) + 1
      = (B256 - S256 (ds.drop ka)) / 2 ^ (256 - eka.codeLen)
        * 2 ^ (ekb.codeLen - eka.codeLen)
  exact ⟨hl1b.1, hlab, by rw [hlaw, hshift]⟩

set_option maxRecDepth 100000 in
set_option maxHeartbeats 4000000 in
/-- Witness for C3 at the sorted assignment of one length-1 and two
length-2 codes: the consecutive law `1 + 1 = 1 * 2` between the length-1
code `1` of symbol 254 and the length-2 code `01` of symbol 255. -/
theorem spec_c3_witness :
    ((List.range 254).map (fun i => CEntry.mk i 0 none)
      ++ [CEntry.mk 254 1 none, CEntry.mk 255 2 none, CEntry.mk 256 2 none]).length
      = NUM_CHARS
    ∧ (1 ≤ (CEntry.mk 255 2 (some (2 ^ 254))).codeLen
      ∧ (CEntry.mk 254 1 (some (2 ^ 255))).codeLen
          ≤ (CEntry.mk 255 2 (some (2 ^ 254))).codeLen
      ∧ (CEntry.mk 255 2 (some (2 ^ 254))).code.getD 0
          / 2 ^ (256 - (CEntry.mk 255 2 (some (2 ^ 254))).codeLen) + 1
        = (CEntry.mk 254 1 (some (2 ^ 255))).code.getD 0
          / 2 ^ (256 - (CEntry.mk 254 1 (some (2 ^ 255))).codeLen)
          * 2 ^ ((CEntry.mk 255 2 (some (2 ^ 254))).codeLen
              - (CEntry.mk 254 1 (some (2 ^ 255))).codeLen)) :=
  ⟨by decide,
    spec_c3 ((List.range 254).map (fun i => CEntry.mk i 0 none)
        ++ [CEntry.mk 254 1 none, CEntry.mk 255 2 none, CEntry.mk 256 2 none])
      (by decide) (by decide) (by decide) (by decide) 254
      (CEntry.mk 254 1 (some (2 ^ 255))) (CEntry.mk 255 2 (some (2 ^ 254)))
      (by decide) (by decide) (by decide)⟩

end Huff
